import Mathlib

/-!
# Chef provider: validation, credential resolution and state normalisation

A shallow embedding of `chef/provider.go` together with the library functions it
calls (`strings`, `fmt`, `os`, `io/ioutil`, `encoding/json` with the `float64`
conversions of `strconv`, and the default handling of `helper/schema`).
-/

namespace Chef

/-! ## Go strings and dynamic values -/

/-- A Go string: an immutable sequence of bytes, every element one byte value. -/
abbrev GoString := List Nat

/-- The bytes of an ASCII literal. -/
def lit (s : String) : GoString := s.data.map Char.toNat

/-- The values of Go type `interface{}` that reach the functions of `provider.go`. -/
inductive Iface where
  | nil : Iface
  | str (s : GoString) : Iface
  | bool (b : Bool) : Iface
  deriving DecidableEq, Repr

/-- Go `strings.HasPrefix`. -/
def hasPrefix (s pre : GoString) : Bool :=
  decide (pre.length ≤ s.length) && (s.take pre.length == pre)

/-- Go `strings.HasSuffix`. -/
def hasSuffix (s suffix : GoString) : Bool :=
  decide (suffix.length ≤ s.length) && (s.drop (s.length - suffix.length) == suffix)

/-- Go `strings.Contains`: some position of `s` starts an occurrence of `substr`. -/
def stringsContains : GoString → GoString → Bool
  | [], substr => hasPrefix [] substr
  | c :: s, substr => hasPrefix (c :: s) substr || stringsContains s substr

/-! ## `validateServerURL` -/

/-- Go `validateServerURL`: `none` is the panic of the failed type assertion
`val.(string)`; otherwise the warnings and the error messages. -/
def validateServerURL (val : Iface) (_key : GoString) : Option (List GoString × List GoString) :=
  match val with
  | .str url =>
    let errs : List GoString :=
      if !hasSuffix url (lit "/") then
        [lit "Chef Server URL " ++ url ++ lit " must end with a slash"]
      else []
    some ([], errs)
  | _ => none

/-! ## `runListEntryStateFunc` -/

/-- Go `runListEntryStateFunc`: `none` is the panic of `value.(string)`. -/
def runListEntryStateFunc (value : Iface) : Option GoString :=
  match value with
  | .str s =>
    if !stringsContains s (lit "[") then
      some (lit "recipe[" ++ s ++ lit "]")
    else some s
  | _ => none

/-! ## The environment, the schema defaults and `providerConfigure` -/

/-- The process environment and the file system, with the log of the paths
handed to `ioutil.ReadFile` so far. -/
structure World where
  /-- Go `os.Getenv`: the empty string for an unset variable. -/
  env : GoString → GoString
  /-- Go `ioutil.ReadFile`: the read error or the contents. -/
  files : GoString → Except GoString GoString
  /-- The paths read so far, oldest first. -/
  reads : List GoString

/-- Go `ioutil.ReadFile` with the read recorded. -/
def World.readFile (w : World) (fn : GoString) : Except GoString GoString × World :=
  (w.files fn, { w with reads := w.reads ++ [fn] })

/-- Go `providerPrivateKeyEnvDefault`: `(nil, err)` is `.error err`, `(v, nil)`
is `.ok v`. -/
def providerPrivateKeyEnvDefault (w : World) : Except GoString Iface × World :=
  let fn := w.env (lit "CHEF_PRIVATE_KEY_FILE")
  if fn ≠ [] then
    match w.readFile fn with
    | (.error err, w1) => (.error err, w1)
    | (.ok contents, w1) => (.ok (.str contents), w1)
  else (.ok .nil, w)

/-- Go `schema.EnvDefaultFunc(k, dv)`: the variable when it is not empty,
else `dv`. -/
def envDefaultFunc (k : GoString) (dv : Iface) (w : World) : Except GoString Iface × World :=
  let v := w.env k
  if v ≠ [] then (.ok (.str v), w) else (.ok dv, w)

/-- The provider block as written by the user: `none` is an attribute that
is absent from the configuration. -/
structure RawConfig where
  server_url : Option GoString
  client_name : Option GoString
  private_key_pem : Option GoString
  key_material : Option GoString
  allow_unverified_ssl : Option Bool

/-- The attribute values handed to `providerConfigure` (`schema.ResourceData`):
`none` is an attribute without a value. -/
structure ResourceData where
  server_url : Option GoString
  client_name : Option GoString
  private_key_pem : Option GoString
  key_material : Option GoString
  allow_unverified_ssl : Option Bool

/-- Why building the configuration failed. -/
inductive ConfigError where
  /-- The `DefaultFunc` of attribute `key` returned the error `cause`. -/
  | defaultLoad (key : GoString) (cause : GoString) : ConfigError
  deriving DecidableEq, Repr

/-- The value of a string attribute of `helper/schema`: the written value when
the attribute is in the configuration (also when it is the empty string);
otherwise the `DefaultFunc` is called, its error aborts, its `nil` leaves the
attribute without a value (`ConfigFieldReader.readPrimitive`). -/
def stringAttr (key : GoString) (written : Option GoString)
    (defaultFunc : World → Except GoString Iface × World) (w : World) :
    Except ConfigError (Option GoString) × World :=
  match written with
  | some v => (.ok (some v), w)
  | none =>
    match defaultFunc w with
    | (.error err, w1) => (.error (.defaultLoad key err), w1)
    | (.ok (.str v), w1) => (.ok (some v), w1)
    | (.ok _, w1) => (.ok none, w1)

/-- The schema of `Provider()` applied to a provider block: every string
attribute with its `DefaultFunc`, in the order of the declaration. -/
def schemaData (w : World) (raw : RawConfig) : Except ConfigError ResourceData × World :=
  match stringAttr (lit "server_url") raw.server_url
      (envDefaultFunc (lit "CHEF_SERVER_URL") .nil) w with
  | (.error e, w1) => (.error e, w1)
  | (.ok url, w1) =>
  match stringAttr (lit "client_name") raw.client_name
      (envDefaultFunc (lit "CHEF_CLIENT_NAME") .nil) w1 with
  | (.error e, w2) => (.error e, w2)
  | (.ok name, w2) =>
  match stringAttr (lit "private_key_pem") raw.private_key_pem
      providerPrivateKeyEnvDefault w2 with
  | (.error e, w3) => (.error e, w3)
  | (.ok pem, w3) =>
  match stringAttr (lit "key_material") raw.key_material
      (envDefaultFunc (lit "CHEF_KEY_MATERIAL") (.str [])) w3 with
  | (.error e, w4) => (.error e, w4)
  | (.ok km, w4) =>
    (.ok { server_url := url, client_name := name, private_key_pem := pem,
           key_material := km, allow_unverified_ssl := raw.allow_unverified_ssl }, w4)

/-- Go `d.Get(k).(string)`: the zero value for an attribute without a value. -/
def getString (v : Option GoString) : GoString := v.getD []

/-- Go `d.Get(k).(bool)`. -/
def getBool (v : Option Bool) : Bool := v.getD false

/-- Go `d.GetOk(k)` on a string attribute: the value, and whether it is set
to something other than the zero value. -/
def getOkString (v : Option GoString) : GoString × Bool :=
  match v with
  | some s => (s, decide (s ≠ []))
  | none => ([], false)

/-- Go `chefc.Config`, the fields `providerConfigure` fills. -/
structure Config where
  Name : GoString
  BaseURL : GoString
  SkipSSL : Bool
  /-- A `time.Duration`, in nanoseconds. -/
  Timeout : Nat
  Key : GoString
  deriving DecidableEq, Repr

/-- Go `time.Second`. -/
def timeSecond : Nat := 1000000000

/-- The `config` value `providerConfigure` hands to `chefc.NewClient`. -/
def buildConfig (d : ResourceData) : Config :=
  let config : Config :=
    { Name := getString d.client_name
      BaseURL := getString d.server_url
      SkipSSL := getBool d.allow_unverified_ssl
      Timeout := 10 * timeSecond
      Key := [] }
  let config :=
    match getOkString d.private_key_pem with
    | (v, true) => { config with Key := v }
    | (_, false) => config
  let config :=
    match getOkString d.key_material with
    | (v, true) => { config with Key := v }
    | (_, false) => config
  config

/-- Go `providerConfigure`, with `chefc.NewClient` as a parameter. -/
def providerConfigure {E C : Type} (newClient : Config → Except E C) (d : ResourceData) :
    Except E C :=
  newClient (buildConfig d)

/-- The provider set up from a provider block: the schema defaults, then
`providerConfigure`; a failing default aborts before `providerConfigure`. -/
def configure {E C : Type} (newClient : Config → Except E C) (w : World) (raw : RawConfig) :
    Except ConfigError (Except E C) × World :=
  match schemaData w raw with
  | (.error e, w1) => (.error e, w1)
  | (.ok d, w1) => (.ok (providerConfigure newClient d), w1)

/-- The contents of the file named by `CHEF_PRIVATE_KEY_FILE`, empty when no
file is named or it cannot be read. -/
def fileSource (w : World) : GoString :=
  let fn := w.env (lit "CHEF_PRIVATE_KEY_FILE")
  if fn ≠ [] then
    match w.files fn with
    | .ok c => c
    | .error _ => []
  else []

/-- The four credential sources of a provider block in an environment:
written `private_key_pem`, written `key_material`, the named file's contents,
`CHEF_KEY_MATERIAL`. -/
def credentialSources (w : World) (raw : RawConfig) : List GoString :=
  [raw.private_key_pem.getD [], raw.key_material.getD [], fileSource w,
   w.env (lit "CHEF_KEY_MATERIAL")]

/-! ## UTF-8 (`unicode/utf8`, `unicode/utf16`) -/

/-- Go `utf8.RuneError`, also `unicode.ReplacementChar`. -/
def runeError : Nat := 0xFFFD

/-- Go `utf8.EncodeRune`: the UTF-8 bytes of a rune, those of `RuneError` for
a surrogate or a value above `MaxRune`. -/
def encodeRune (r : Nat) : GoString :=
  if r < 0x80 then [r]
  else if r < 0x800 then [0xC0 + r / 64, 0x80 + r % 64]
  else if 0x10FFFF < r ∨ (0xD800 ≤ r ∧ r ≤ 0xDFFF) then [0xEF, 0xBF, 0xBD]
  else if r < 0x10000 then [0xE0 + r / 4096, 0x80 + r / 64 % 64, 0x80 + r % 64]
  else [0xF0 + r / 262144, 0x80 + r / 4096 % 64, 0x80 + r / 64 % 64, 0x80 + r % 64]

/-- Go `utf8.DecodeRune`: the first rune of `p` and its width in bytes;
`(RuneError, 1)` for an encoding that is not well formed, `(RuneError, 0)` for
no bytes. -/
def decodeRune (p : GoString) : Nat × Nat :=
  match p with
  | [] => (runeError, 0)
  | p0 :: t =>
    if p0 < 0x80 then (p0, 1)
    else if p0 < 0xC2 ∨ 0xF4 < p0 then (runeError, 1)
    else
      let sz := if p0 < 0xE0 then 2 else if p0 < 0xF0 then 3 else 4
      let lo := if p0 = 0xE0 then 0xA0 else if p0 = 0xF0 then 0x90 else 0x80
      let hi := if p0 = 0xED then 0x9F else if p0 = 0xF4 then 0x8F else 0xBF
      match t with
      | [] => (runeError, 1)
      | b1 :: t1 =>
        if b1 < lo ∨ hi < b1 then (runeError, 1)
        else if sz ≤ 2 then (p0 % 32 * 64 + b1 % 64, 2)
        else
          match t1 with
          | [] => (runeError, 1)
          | b2 :: t2 =>
            if b2 < 0x80 ∨ 0xBF < b2 then (runeError, 1)
            else if sz ≤ 3 then (p0 % 16 * 4096 + b1 % 64 * 64 + b2 % 64, 3)
            else
              match t2 with
              | [] => (runeError, 1)
              | b3 :: _ =>
                if b3 < 0x80 ∨ 0xBF < b3 then (runeError, 1)
                else (p0 % 8 * 262144 + b1 % 64 * 4096 + b2 % 64 * 64 + b3 % 64, 4)

/-- Go `utf16.IsSurrogate`. -/
def isSurrogate (r : Nat) : Bool := decide (0xD800 ≤ r ∧ r < 0xE000)

/-- Go `utf16.DecodeRune`: the rune of a surrogate pair, `ReplacementChar`
when the pair is not valid; `none` for `r2` is the `-1` of a failed `getu4`. -/
def utf16DecodeRune (r1 : Nat) (r2 : Option Nat) : Nat :=
  match r2 with
  | some r2 =>
    if 0xD800 ≤ r1 ∧ r1 < 0xDC00 ∧ 0xDC00 ≤ r2 ∧ r2 < 0xE000 then
      (r1 - 0xD800) * 1024 + (r2 - 0xDC00) + 0x10000
    else runeError
  | none => runeError

/-! ## `encoding/json`: the decoder -/

/-- The value of one hexadecimal digit. -/
def hexVal (c : Nat) : Option Nat :=
  if 0x30 ≤ c ∧ c ≤ 0x39 then some (c - 0x30)
  else if 0x61 ≤ c ∧ c ≤ 0x66 then some (c - 0x61 + 10)
  else if 0x41 ≤ c ∧ c ≤ 0x46 then some (c - 0x41 + 10)
  else none

/-- Go `getu4`: the number of a `\uXXXX` escape at the start of `s`; `none`
is its `-1`. -/
def getu4 (s : GoString) : Option Nat :=
  match s with
  | 0x5C :: 0x75 :: h1 :: h2 :: h3 :: h4 :: _ =>
    match hexVal h1, hexVal h2, hexVal h3, hexVal h4 with
    | some a, some b, some c, some d => some (((a * 16 + b) * 16 + c) * 16 + d)
    | _, _, _, _ => none
  | _ => none

/-- The loop of Go `unquoteBytes` over the bytes between the quotes. -/
def unquoteLoop : Nat → GoString → Option GoString
  | 0, _ => none
  | _ + 1, [] => some []
  | fuel + 1, c :: rest =>
    if c = 0x5C then
      match rest with
      | [] => none
      | e :: rest1 =>
        if e = 0x22 ∨ e = 0x5C ∨ e = 0x2F ∨ e = 0x27 then
          (unquoteLoop fuel rest1).map (e :: ·)
        else if e = 0x62 then (unquoteLoop fuel rest1).map (0x08 :: ·)
        else if e = 0x66 then (unquoteLoop fuel rest1).map (0x0C :: ·)
        else if e = 0x6E then (unquoteLoop fuel rest1).map (0x0A :: ·)
        else if e = 0x72 then (unquoteLoop fuel rest1).map (0x0D :: ·)
        else if e = 0x74 then (unquoteLoop fuel rest1).map (0x09 :: ·)
        else if e = 0x75 then
          match getu4 (c :: rest) with
          | none => none
          | some rr =>
            let rest2 := rest1.drop 4
            if isSurrogate rr then
              let dec := utf16DecodeRune rr (getu4 rest2)
              if dec ≠ runeError then
                (unquoteLoop fuel (rest2.drop 6)).map (encodeRune dec ++ ·)
              else (unquoteLoop fuel rest2).map (encodeRune runeError ++ ·)
            else (unquoteLoop fuel rest2).map (encodeRune rr ++ ·)
        else none
    else if c = 0x22 ∨ c < 0x20 then none
    else if c < 0x80 then (unquoteLoop fuel rest).map (c :: ·)
    else
      let rs := decodeRune (c :: rest)
      (unquoteLoop fuel ((c :: rest).drop rs.2)).map (encodeRune rs.1 ++ ·)

/-- Go `unquoteBytes` on the bytes between the quotes of a string literal:
escapes resolved, text that is not well-formed UTF-8 replaced by U+FFFD. -/
def unquote (body : GoString) : Option GoString := unquoteLoop (body.length + 1) body

/-- The JSON white space of the scanner (`isSpace`). -/
def isSpace (c : Nat) : Bool := decide (c = 0x20 ∨ c = 0x09 ∨ c = 0x0D ∨ c = 0x0A)

/-- A decimal digit. -/
def isDigit (c : Nat) : Bool := decide (0x30 ≤ c ∧ c ≤ 0x39)

/-- A hexadecimal digit, as the scanner accepts it after `\u`. -/
def isHex (c : Nat) : Bool :=
  decide ((0x30 ≤ c ∧ c ≤ 0x39) ∨ (0x61 ≤ c ∧ c ≤ 0x66) ∨ (0x41 ≤ c ∧ c ≤ 0x46))

/-- The input without its leading white space. -/
def skipSpace : GoString → GoString
  | [] => []
  | c :: rest => if isSpace c then skipSpace rest else c :: rest

/-- The scanner inside a string literal (`stateInString` and the escape
states), started after the opening quote: the bytes up to the closing quote
and the input after it. -/
def scanString : GoString → Option (GoString × GoString)
  | [] => none
  | c :: rest =>
    if c = 0x22 then some ([], rest)
    else if c = 0x5C then
      match rest with
      | [] => none
      | e :: rest1 =>
        if e = 0x62 ∨ e = 0x66 ∨ e = 0x6E ∨ e = 0x72 ∨ e = 0x74 ∨ e = 0x5C ∨ e = 0x2F
            ∨ e = 0x22 then
          (scanString rest1).map fun p => (c :: e :: p.1, p.2)
        else if e = 0x75 then
          match rest1 with
          | h1 :: h2 :: h3 :: h4 :: rest2 =>
            if isHex h1 && isHex h2 && isHex h3 && isHex h4 then
              (scanString rest2).map fun p => (c :: e :: h1 :: h2 :: h3 :: h4 :: p.1, p.2)
            else none
          | _ => none
        else none
    else if c < 0x20 then none
    else (scanString rest).map fun p => (c :: p.1, p.2)

/-- The longest run of digits at the start of the input, and the rest. -/
def spanDigits : GoString → GoString × GoString
  | [] => ([], [])
  | c :: rest =>
    if isDigit c then ((c :: (spanDigits rest).1), (spanDigits rest).2) else ([], c :: rest)

/-- The scanner after the integer part of a number (`state0`, `stateE`, ...):
an optional exponent. `acc` is the literal so far. -/
def scanExp (acc : GoString) (inp : GoString) : Option (GoString × GoString) :=
  match inp with
  | [] => some (acc, [])
  | e :: r1 =>
    if e = 0x65 ∨ e = 0x45 then
      match r1 with
      | [] => none
      | s :: r2 =>
        if s = 0x2B ∨ s = 0x2D then
          let ds := spanDigits r2
          if ds.1 = [] then none else some (acc ++ e :: s :: ds.1, ds.2)
        else
          let ds := spanDigits r1
          if ds.1 = [] then none else some (acc ++ e :: ds.1, ds.2)
    else some (acc, inp)

/-- The scanner after the integer part of a number: an optional fraction
(`stateDot`, `stateDot0`), then an optional exponent. -/
def scanFrac (acc : GoString) (inp : GoString) : Option (GoString × GoString) :=
  match inp with
  | [] => some (acc, [])
  | d :: r1 =>
    if d = 0x2E then
      let ds := spanDigits r1
      if ds.1 = [] then none else scanExp (acc ++ d :: ds.1) ds.2
    else scanExp acc inp

/-- The scanner on the integer part, after the sign (`stateNeg`, `state0`, `state1`). -/
def scanInt (acc : GoString) (inp : GoString) : Option (GoString × GoString) :=
  match inp with
  | [] => none
  | d :: r1 =>
    if d = 0x30 then scanFrac (acc ++ [d]) r1
    else if 0x31 ≤ d ∧ d ≤ 0x39 then
      let ds := spanDigits r1
      scanFrac (acc ++ d :: ds.1) ds.2
    else none

/-- The scanner on a number: the literal and the input after it. -/
def scanNumber (inp : GoString) : Option (GoString × GoString) :=
  match inp with
  | [] => none
  | c :: r =>
    if c = 0x2D then scanInt [c] r else scanInt [] inp

/-- The conversion between number literals and `float64`, to which the
decoder and the encoder delegate: `F` stands for `float64`. -/
structure FloatCodec (F : Type) where
  /-- The value Go `strconv.ParseFloat(s, 64)` returns for a literal the
  scanner accepted; for a literal out of range that is an infinity, and the
  range error is not part of the model. -/
  parse : GoString → F
  /-- Neither an infinity nor a NaN: the values the encoder writes. -/
  finite : F → Bool
  /-- The bytes the encoder writes for a finite `float64` (`floatEncoder.encode`). -/
  format : F → GoString

/-- A decoded JSON value, as stored in an `interface{}`: `nil`, `bool`,
`float64`, `string`, `[]interface{}`, `map[string]interface{}`. A map is
the list of its entries, every key once, in the order the keys were first set. -/
inductive JVal (F : Type) where
  | null : JVal F
  | bool (b : Bool) : JVal F
  | num (f : F) : JVal F
  | str (s : GoString) : JVal F
  | arr (xs : List (JVal F)) : JVal F
  | obj (ms : List (GoString × JVal F)) : JVal F

/-- Go map assignment `m[k] = v`. -/
def mapSet {α : Type} (m : List (GoString × α)) (k : GoString) (v : α) : List (GoString × α) :=
  match m with
  | [] => [(k, v)]
  | e :: t => if e.1 = k then (k, v) :: t else e :: mapSet t k v

/-- The map the decoder builds from the members of an object, assigned in
the order of the text. -/
def buildMap {α : Type} (members : List (GoString × α)) : List (GoString × α) :=
  members.foldl (fun m e => mapSet m e.1 e.2) []

/-- The value the decoder stores for a number literal: the `float64` that
`strconv.ParseFloat` returns for it, an infinity for a literal out of range. -/
def numberValue {F : Type} (fc : FloatCodec F) (literal : GoString) : JVal F :=
  .num (fc.parse literal)

/-- The elements of an array after `[` when the array is not empty: a
value, then `,` and another, or `]`. `pv` decodes one value. -/
def parseElems {F : Type} (pv : GoString → Option (JVal F × GoString)) :
    Nat → GoString → Option (List (JVal F) × GoString)
  | 0, _ => none
  | fuel + 1, inp =>
    match pv inp with
    | none => none
    | some (v, rest) =>
      match skipSpace rest with
      | [] => none
      | c :: rest1 =>
        if c = 0x2C then (parseElems pv fuel rest1).map fun p => (v :: p.1, p.2)
        else if c = 0x5D then some ([v], rest1)
        else none

/-- The members of an object after `{` when the object is not empty: a
string key, `:`, a value, then `,` and another member, or `}`. -/
def parseMembers {F : Type} (pv : GoString → Option (JVal F × GoString)) :
    Nat → GoString → Option (List (GoString × JVal F) × GoString)
  | 0, _ => none
  | fuel + 1, inp =>
    match skipSpace inp with
    | [] => none
    | q :: rest =>
      if q = 0x22 then
        match scanString rest with
        | none => none
        | some (body, rest1) =>
          match unquote body with
          | none => none
          | some key =>
            match skipSpace rest1 with
            | [] => none
            | colon :: rest2 =>
              if colon = 0x3A then
                match pv rest2 with
                | none => none
                | some (v, rest3) =>
                  match skipSpace rest3 with
                  | [] => none
                  | c :: rest4 =>
                    if c = 0x2C then
                      (parseMembers pv fuel rest4).map fun p => ((key, v) :: p.1, p.2)
                    else if c = 0x7D then some ([(key, v)], rest4)
                    else none
              else none
      else none

/-- Go `maxNestingDepth`: the scanner refuses an object or array inside more
than this many enclosing ones. -/
def maxNestingDepth : Nat := 10000

/-- The decoder on one value (`valueInterface`), white space before it
skipped: the value and the input after it, `none` for a syntax error. The
first argument bounds the recursion, `depth` is the number of objects and
arrays around the value. -/
def parseValue {F : Type} (fc : FloatCodec F) :
    Nat → Nat → GoString → Option (JVal F × GoString)
  | 0, _, _ => none
  | n + 1, depth, inp =>
    match skipSpace inp with
    | [] => none
    | c :: rest =>
      if c = 0x7B then
        if maxNestingDepth < depth + 1 then none
        else
          match skipSpace rest with
          | [] => none
          | d :: rest1 =>
            if d = 0x7D then some (.obj [], rest1)
            else (parseMembers (parseValue fc n (depth + 1)) rest.length rest).map
              fun p => (.obj (buildMap p.1), p.2)
      else if c = 0x5B then
        if maxNestingDepth < depth + 1 then none
        else
          match skipSpace rest with
          | [] => none
          | d :: rest1 =>
            if d = 0x5D then some (.arr [], rest1)
            else (parseElems (parseValue fc n (depth + 1)) rest.length rest).map
              fun p => (.arr p.1, p.2)
      else if c = 0x22 then
        match scanString rest with
        | none => none
        | some (body, rest1) => (unquote body).map fun s => (.str s, rest1)
      else if c = 0x74 then
        match rest with
        | 0x72 :: 0x75 :: 0x65 :: rest1 => some (.bool true, rest1)
        | _ => none
      else if c = 0x66 then
        match rest with
        | 0x61 :: 0x6C :: 0x73 :: 0x65 :: rest1 => some (.bool false, rest1)
        | _ => none
      else if c = 0x6E then
        match rest with
        | 0x75 :: 0x6C :: 0x6C :: rest1 => some (.null, rest1)
        | _ => none
      else if c = 0x2D ∨ isDigit c then
        (scanNumber (c :: rest)).map fun p => (numberValue fc p.1, p.2)
      else none

/-- The whole input as one JSON value (`checkValid`): a value, then only
white space. -/
def parseDocument {F : Type} (fc : FloatCodec F) (data : GoString) : Option (JVal F) :=
  match parseValue fc (data.length + 1) 0 data with
  | none => none
  | some (v, rest) => if skipSpace rest = [] then some v else none

/-- Go `json.Unmarshal(data, &tmp)` for a nil `tmp` of type
`map[string]interface{}`: the value of `tmp` afterwards, `none` for nil. A
syntax error stores nothing, a top-level value that is no object is a type
error that stores nothing, `null` stores nil. The returned error is not
modelled: the caller discards it. -/
def jsonUnmarshal {F : Type} (fc : FloatCodec F) (data : GoString) :
    Option (List (GoString × JVal F)) :=
  match parseDocument fc data with
  | some (.obj m) => some m
  | _ => none

/-! ## `encoding/json`: the encoder -/

/-- Go `hex`: the lower-case hexadecimal digit of a value below 16. -/
def hexDigit (n : Nat) : Nat := if n < 10 then 0x30 + n else 0x61 + (n - 10)

/-- What `appendString` writes for a byte below `utf8.RuneSelf`, with
`escapeHTML` set. -/
def escapeByte (b : Nat) : GoString :=
  if b = 0x5C ∨ b = 0x22 then [0x5C, b]
  else if b = 0x08 then [0x5C, 0x62]
  else if b = 0x0C then [0x5C, 0x66]
  else if b = 0x0A then [0x5C, 0x6E]
  else if b = 0x0D then [0x5C, 0x72]
  else if b = 0x09 then [0x5C, 0x74]
  else if b < 0x20 ∨ b = 0x3C ∨ b = 0x3E ∨ b = 0x26 then
    [0x5C, 0x75, 0x30, 0x30, hexDigit (b / 16), hexDigit (b % 16)]
  else [b]

/-- The loop of Go `appendString` over the bytes of a string. -/
def appendStringLoop : Nat → GoString → GoString
  | 0, _ => []
  | _ + 1, [] => []
  | fuel + 1, b :: rest =>
    if b < 0x80 then escapeByte b ++ appendStringLoop fuel rest
    else
      let rs := decodeRune (b :: rest)
      if rs.1 = runeError ∧ rs.2 = 1 then
        [0x5C, 0x75, 0x66, 0x66, 0x66, 0x64] ++ appendStringLoop fuel rest
      else if rs.1 = 0x2028 ∨ rs.1 = 0x2029 then
        [0x5C, 0x75, 0x32, 0x30, 0x32, hexDigit (rs.1 % 16)]
          ++ appendStringLoop fuel ((b :: rest).drop rs.2)
      else (b :: rest).take rs.2 ++ appendStringLoop fuel ((b :: rest).drop rs.2)

/-- Go `appendString`: a string as a JSON string literal. -/
def appendString (s : GoString) : GoString :=
  0x22 :: (appendStringLoop s.length s ++ [0x22])

/-- Go string order `<`: byte by byte, a proper start first. -/
def stringLess : GoString → GoString → Bool
  | _, [] => false
  | [], _ :: _ => true
  | a :: s, b :: t => decide (a < b) || (decide (a = b) && stringLess s t)

/-- The order in which the encoder writes map entries: by key. -/
def keyLE {α : Type} (a b : GoString × α) : Prop := stringLess b.1 a.1 = false

instance {α : Type} : DecidableRel (keyLE (α := α)) := fun a b =>
  inferInstanceAs (Decidable (stringLess b.1 a.1 = false))

/-- The entries of a map sorted by key. -/
def sortByKey {α : Type} (ms : List (GoString × α)) : List (GoString × α) :=
  ms.insertionSort keyLE

/-- The texts with `sep` between them. -/
def joinWith (sep : GoString) : List GoString → GoString
  | [] => []
  | [x] => x
  | x :: y :: rest => x ++ sep ++ joinWith sep (y :: rest)

/-- What the encoder writes for a map entry: the key as a string literal,
`:`, the encoded value. -/
def memberText (e : GoString × GoString) : GoString := appendString e.1 ++ 0x3A :: e.2

mutual
/-- The encoder on a value held in an `interface{}`. -/
def encodeValue {F : Type} (fc : FloatCodec F) : JVal F → GoString
  | .null => lit "null"
  | .bool b => if b then lit "true" else lit "false"
  | .num f => fc.format f
  | .str s => appendString s
  | .arr xs => 0x5B :: (joinWith [0x2C] (encodeList fc xs) ++ [0x5D])
  | .obj ms =>
    0x7B :: (joinWith [0x2C] ((sortByKey (encodeEntries fc ms)).map memberText) ++ [0x7D])
/-- The encoded elements of a slice. -/
def encodeList {F : Type} (fc : FloatCodec F) : List (JVal F) → List GoString
  | [] => []
  | x :: xs => encodeValue fc x :: encodeList fc xs
/-- The entries of a map, the values encoded. -/
def encodeEntries {F : Type} (fc : FloatCodec F) :
    List (GoString × JVal F) → List (GoString × GoString)
  | [] => []
  | e :: ms => (e.1, encodeValue fc e.2) :: encodeEntries fc ms
end

mutual
/-- No `float64` in the value is an infinity or a NaN: the encoder raises no
`UnsupportedValueError`. -/
def supported {F : Type} (fc : FloatCodec F) : JVal F → Bool
  | .null => true
  | .bool _ => true
  | .num f => fc.finite f
  | .str _ => true
  | .arr xs => supportedList fc xs
  | .obj ms => supportedEntries fc ms
/-- Every element supported. -/
def supportedList {F : Type} (fc : FloatCodec F) : List (JVal F) → Bool
  | [] => true
  | x :: xs => supported fc x && supportedList fc xs
/-- Every value of the entries supported. -/
def supportedEntries {F : Type} (fc : FloatCodec F) : List (GoString × JVal F) → Bool
  | [] => true
  | e :: ms => supported fc e.2 && supportedEntries fc ms
end

/-- Go `json.Marshal(&tmp)` for `tmp` of type `map[string]interface{}`:
`null` for a nil map; `none` is the error of the encoder on an infinity or a
NaN, with which `Marshal` returns no bytes. -/
def jsonMarshal {F : Type} (fc : FloatCodec F) (tmp : Option (List (GoString × JVal F))) :
    Option GoString :=
  match tmp with
  | none => some (lit "null")
  | some m => if supported fc (.obj m) then some (encodeValue fc (.obj m)) else none

/-! ## `jsonStateFunc` -/

/-- Go `jsonStateFunc`: the errors of `Unmarshal` and `Marshal` are dropped,
and the bytes `Marshal` returns with an error are nil, the empty string. -/
def jsonStateFunc {F : Type} (fc : FloatCodec F) (value : Iface) : GoString :=
  match value with
  | .str inp =>
    let tmp := jsonUnmarshal fc inp
    match jsonMarshal fc tmp with
    | some jsonValue => jsonValue
    | none => []
  | _ => lit "null"

/-! ## Concrete inputs -/

/-- An environment without variables and without readable files. -/
def emptyWorld : World :=
  { env := fun _ => [], files := fun _ => .error (lit "no such file"), reads := [] }

/-- An environment that names a key file that cannot be read, and also sets
`CHEF_KEY_MATERIAL`. -/
def brokenFileWorld : World :=
  { env := fun k =>
      if k = lit "CHEF_PRIVATE_KEY_FILE" then lit "/nonexistent.pem"
      else if k = lit "CHEF_KEY_MATERIAL" then lit "ENVKEY"
      else []
    files := fun _ => .error (lit "open /nonexistent.pem: no such file or directory")
    reads := [] }

/-- An environment that names a readable key file with contents `FILEKEY`. -/
def keyFileWorld : World :=
  { env := fun k => if k = lit "CHEF_PRIVATE_KEY_FILE" then lit "/etc/chef/key.pem" else []
    files := fun fn =>
      if fn = lit "/etc/chef/key.pem" then .ok (lit "FILEKEY") else .error (lit "no such file")
    reads := [] }

/-- A provider block with only the required attributes. -/
def baseConfig : RawConfig :=
  { server_url := some (lit "https://chef.example.com/"), client_name := some (lit "admin"),
    private_key_pem := none, key_material := none, allow_unverified_ssl := none }

/-- A transport client constructor that accepts every configuration. -/
def acceptClient (c : Config) : Except GoString Config := .ok c

/-- Attribute values with both credential attributes set. -/
def bothKeys : ResourceData :=
  { server_url := some (lit "https://chef.example.com/"), client_name := some (lit "admin"),
    private_key_pem := some (lit "PEM"), key_material := some (lit "MATERIAL"),
    allow_unverified_ssl := none }

/-- A provider block that writes `private_key_pem = ""`. -/
def emptyPemConfig : RawConfig := { baseConfig with private_key_pem := some [] }

/-- A provider block that writes `key_material = ""`. -/
def emptyMaterialConfig : RawConfig := { baseConfig with key_material := some [] }

/-- An environment that only sets `CHEF_KEY_MATERIAL`. -/
def envKeyWorld : World :=
  { env := fun k => if k = lit "CHEF_KEY_MATERIAL" then lit "ENVKEY" else []
    files := fun _ => .error (lit "no such file")
    reads := [] }

end Chef

namespace Chef

/-! ## `float64` and `strconv` -/

/-- A `float64` by the fields of its IEEE 754 bits (`math.Float64bits`): the
sign bit, the biased exponent and the fraction. -/
structure Float64 where
  sign : Bool
  biased : Fin 2048
  frac : Fin 4503599627370496
deriving DecidableEq

/-- Go `!math.IsInf(f, 0) && !math.IsNaN(f)`. -/
def Float64.isFinite (f : Float64) : Bool := decide (f.biased.val < 2047)

/-- The significand of a finite `float64`, with the implicit bit:
`|f| = mant * 2 ^ expo / 2 ^ 1074`. -/
def Float64.mant (f : Float64) : Nat :=
  if f.biased.val = 0 then f.frac.val else 4503599627370496 + f.frac.val

/-- The binary exponent of a finite `float64`, counted from that of the
subnormal numbers. -/
def Float64.expo (f : Float64) : Nat := f.biased.val - 1

/-- The magnitude of a finite `float64` in units of `2 ^ -1074`. -/
def Float64.mag (f : Float64) : Nat := f.mant * 2 ^ f.expo

/-- The `float64` with significand `mant` below `2 ^ 53` and exponent `expo`:
the bits as `floatBits` assembles them. -/
def Float64.ofParts (sign : Bool) (mant expo : Nat) : Float64 :=
  if mant < 4503599627370496 then
    ⟨sign, ⟨0, by decide⟩, ⟨mant % 4503599627370496, Nat.mod_lt _ (by decide)⟩⟩
  else
    ⟨sign, ⟨(expo + 1) % 2048, Nat.mod_lt _ (by decide)⟩,
      ⟨(mant - 4503599627370496) % 4503599627370496, Nat.mod_lt _ (by decide)⟩⟩

/-- Go `math.Inf`. -/
def Float64.inf (sign : Bool) : Float64 := ⟨sign, ⟨2047, by decide⟩, ⟨0, by decide⟩⟩

/-- The number a run of decimal digits stands for. -/
def digitsValue (l : GoString) : Nat := l.foldl (fun a c => a * 10 + (c - 0x30)) 0

/-- The exponent of a literal as `readFloat` accumulates it: digits are taken
in while the value is below 10000. -/
def expValue (l : GoString) : Nat :=
  l.foldl (fun e c => if e < 10000 then e * 10 + (c - 0x30) else e) 0

/-- What `readFloat` finds in a number literal: the sign, the digits of the
integer and the fraction part read as one number, the number of fraction
digits, and the exponent with its sign. The literal stands for
`digits * 10 ^ (± exp - fracLen)`. -/
structure Decimal where
  neg : Bool
  digits : Nat
  fracLen : Nat
  expNeg : Bool
  exp : Nat
deriving DecidableEq

/-- The exponent part of a literal, after the fraction. -/
def readExp (s : GoString) : Bool × Nat :=
  match s with
  | [] => (false, 0)
  | c :: r =>
    if c = 0x65 ∨ c = 0x45 then
      match r with
      | [] => (false, 0)
      | sg :: r2 =>
        if sg = 0x2D then (true, expValue (spanDigits r2).1)
        else if sg = 0x2B then (false, expValue (spanDigits r2).1)
        else (false, expValue (spanDigits r).1)
    else (false, 0)

/-- Go `readFloat` on a literal the scanner accepted. -/
def readFloat (s : GoString) : Decimal :=
  let neg := match s with
    | c :: _ => decide (c = 0x2D)
    | [] => false
  let s1 := if neg then s.tail else s
  let ip := spanDigits s1
  let fp := match ip.2 with
    | c :: r => if c = 0x2E then spanDigits r else ([], ip.2)
    | [] => ([], [])
  let ex := readExp fp.2
  ⟨neg, digitsValue (ip.1 ++ fp.1), fp.1.length, ex.1, ex.2⟩

/-- The exact value of a decimal in units of `2 ^ -1074`, as a numerator and a
denominator. -/
def Decimal.scaled (d : Decimal) : Nat × Nat :=
  if d.expNeg then (d.digits * 2 ^ 1074, 10 ^ (d.fracLen + d.exp))
  else (d.digits * 10 ^ d.exp * 2 ^ 1074, 10 ^ d.fracLen)

/-- The number of binary digits of a number, none for zero (`bits.Len`); the
first argument bounds the number of digits. -/
def bitLength : Nat → Nat → Nat
  | 0, _ => 0
  | fuel + 1, n => if n = 0 then 0 else bitLength fuel (n / 2) + 1

/-- The `float64` significand and exponent nearest to `a / b` units of
`2 ^ -1074`, the tie to the even significand (IEEE 754 round to nearest even,
which `ParseFloat` implements). -/
def roundGrid (a b : Nat) : Nat × Nat :=
  let t := a / b
  let ex := if t < 9007199254740992 then 0 else bitLength t t - 53
  let den := b * 2 ^ ex
  let m0 := a / den
  let r := a % den
  let m1 := if den < 2 * r ∨ (2 * r = den ∧ m0 % 2 = 1) then m0 + 1 else m0
  if m1 = 9007199254740992 then (4503599627370496, ex + 1) else (m1, ex)

/-- Go `strconv.ParseFloat(s, 64)` on a literal the scanner accepted: the
nearest `float64`, an infinity when that is out of range (with `ErrRange`,
which is not modelled: the decoder's caller discards it). -/
def parseFloat (s : GoString) : Float64 :=
  let d := readFloat s
  let q := d.scaled
  let me := roundGrid q.1 q.2
  if 2045 < me.2 then Float64.inf d.neg else Float64.ofParts d.neg me.1 me.2

/-- The decimal digits of a number, most significant first, before `acc`; the
first argument bounds the number of digits. -/
def digitsAcc : Nat → Nat → GoString → GoString
  | 0, _, acc => acc
  | fuel + 1, n, acc =>
    if n < 10 then (0x30 + n) :: acc else digitsAcc fuel (n / 10) ((0x30 + n % 10) :: acc)

/-- The decimal digits of a number, most significant first. -/
def decimalDigits (n : Nat) : GoString := digitsAcc (n + 1) n []

/-- The number of decimal digits of a number, none for zero. -/
def decimalLength : Nat → Nat → Nat
  | 0, _ => 0
  | fuel + 1, n => if n = 0 then 0 else decimalLength fuel (n / 10) + 1

/-- A text without its trailing zeros. -/
def stripZeros (l : GoString) : GoString :=
  (l.reverse.dropWhile (fun c => c == 0x30)).reverse

/-- Go `roundShortest` on exact integers: `v` is the value, `l` and `u` are
the halfway points to the next smaller and the next larger `float64`, all
three times `10 ^ 1075`; they belong to the value when `incl`. From the most
significant digit on, the first position at which the value rounded down or
rounded up stays between the halfway points; the result is the digits kept
and the power of ten they are multiples of. -/
def shortestLoop (v l u : Nat) (incl : Bool) : Nat → Nat × Nat
  | 0 => (v, 0)
  | k + 1 =>
    let p := 10 ^ (k + 1)
    let c := v / p
    let down := c * p
    let up := down + p
    let okdown := if incl then l ≤ down else l < down
    let okup := if incl then up ≤ u else up < u
    let roundUp := p < 2 * (v - down) ∨ (2 * (v - down) = p ∧ c % 2 = 1)
    if okdown ∧ okup then (if roundUp then (c + 1, k + 1) else (c, k + 1))
    else if okdown then (c, k + 1)
    else if okup then (c + 1, k + 1)
    else shortestLoop v l u incl k

/-- The shortest decimal that reads back as the finite `f`, not zero: the
digits `d.d[:d.nd]` and the number of digits of the decimal times
`10 ^ 1075`, which is `d.dp + 1075`. -/
def shortestDigits (f : Float64) : GoString × Nat :=
  let g := 2 ^ f.expo
  let vv := 2 * f.mant * g
  let lo := if f.mant = 4503599627370496 ∧ 0 < f.expo then vv - 2 ^ (f.expo - 1) else vv - g
  let v := vv * 5 ^ 1075
  let r := shortestLoop v (lo * 5 ^ 1075) ((vv + g) * 5 ^ 1075) (decide (f.mant % 2 = 0))
    (decimalLength v v)
  (stripZeros (decimalDigits r.1), decimalLength r.1 r.1 + r.2)

/-- The exponent as `%e` writes it: at least two digits. -/
def expDigits (x : Nat) : GoString :=
  if x < 10 then [0x30, 0x30 + x] else decimalDigits x

/-- Go `fmtE` with the shortest digits. -/
def fmtE (neg : Bool) (ds : GoString) (t : Nat) : GoString :=
  (if neg then [0x2D] else []) ++
    (ds.headD 0x30 :: (if ds.tail = [] then [] else 0x2E :: ds.tail)) ++
    (0x65 :: (if t < 1076 then 0x2D :: expDigits (1076 - t) else 0x2B :: expDigits (t - 1076)))

/-- Go `fmtF` with the shortest digits. -/
def fmtF (neg : Bool) (ds : GoString) (t : Nat) : GoString :=
  (if neg then [0x2D] else []) ++
    (if 1075 < t then
      ds.take (t - 1075) ++ List.replicate (t - 1075 - ds.length) 0x30 ++
        (if t - 1075 < ds.length then 0x2E :: ds.drop (t - 1075) else [])
    else
      0x30 :: (if ds = [] then [] else 0x2E :: (List.replicate (1075 - t) 0x30 ++ ds)))

/-- The exponent clean-up of the encoder: `e-09` becomes `e-9`. -/
def cleanExp (b : GoString) : GoString :=
  match b.reverse with
  | d :: z :: s :: e :: rest =>
    if e = 0x65 ∧ (s = 0x2D ∨ s = 0x2B) ∧ z = 0x30 then (d :: s :: e :: rest).reverse else b
  | _ => b

/-- Go `floatEncoder.encode` on a finite `float64`: the shortest digits, in
the `%e` form below `1e-6` and from `1e21` on, in the `%f` form between. -/
def floatEncode (f : Float64) : GoString :=
  if f.mant = 0 then fmtF f.sign [] 1075
  else
    let d := shortestDigits f
    if f.mag < (parseFloat (lit "1e-6")).mag ∨ (parseFloat (lit "1e21")).mag ≤ f.mag then
      cleanExp (fmtE f.sign d.1 d.2)
    else fmtF f.sign d.1 d.2

/-- The fraction part of a number literal with the digits `fp`, nothing
without digits. -/
def fractionText (fp : GoString) : GoString := if fp = [] then [] else 0x2E :: fp

/-- The exponent part of a number literal: `e`, a sign byte and digits. -/
def exponentText (ex : Option (Nat × GoString)) : GoString :=
  match ex with
  | none => []
  | some e => 0x65 :: e.1 :: e.2

/-- The sign and the value of an exponent part as `readFloat` reads it. -/
def exponentOf (ex : Option (Nat × GoString)) : Bool × Nat :=
  match ex with
  | none => (false, 0)
  | some e => (decide (e.1 = 0x2D), expValue e.2)

/-- The text of a number literal with the integer digits `ip`, the fraction
digits `fp` and the exponent `ex`. -/
def numberText (neg : Bool) (ip fp : GoString) (ex : Option (Nat × GoString)) : GoString :=
  (if neg then [0x2D] else []) ++ (ip ++ (fractionText fp ++ exponentText ex))

/-- The integer part of a number literal: `0`, or digits of which the first is not `0`. -/
def IntegerDigits (ip : GoString) : Prop :=
  ip = [0x30] ∨ ∃ d t, ip = d :: t ∧ 0x31 ≤ d ∧ d ≤ 0x39 ∧ ∀ c ∈ t, isDigit c = true

/-- The exponent part of a number literal: a sign and at least one digit. -/
def ExponentPart (ex : Option (Nat × GoString)) : Prop :=
  match ex with
  | none => True
  | some e => (e.1 = 0x2D ∨ e.1 = 0x2B) ∧ e.2 ≠ [] ∧ ∀ c ∈ e.2, isDigit c = true

/-- The conversion between number literals and `float64` in Go. -/
def float64Codec : FloatCodec Float64 where
  parse := parseFloat
  finite := Float64.isFinite
  format := floatEncode

/-- The text `{"a":1e999}`: a number beyond the range of `float64`. -/
def docOverflow : GoString := lit "\x7b\"a\":1e999\x7d"

/-- The text `{ "a" : 1e999 }`: the same object written with white space. -/
def docOverflowSpaced : GoString := lit "\x7b \"a\" : 1e999 \x7d"

end Chef

namespace Chef

/-! ## Well-formed values -/

/-- A Unicode scalar value: a code point that is no surrogate. -/
def isScalar (r : Nat) : Prop := r < 0xD800 ∨ (0xE000 ≤ r ∧ r ≤ 0x10FFFF)

/-- The UTF-8 bytes of a sequence of runes. -/
def encodeRunes : List Nat → GoString
  | [] => []
  | r :: rs => encodeRune r ++ encodeRunes rs

/-- Well-formed UTF-8: the encoding of a sequence of scalar values. -/
def ValidUTF8 (s : GoString) : Prop := ∃ rs, (∀ r ∈ rs, isScalar r) ∧ s = encodeRunes rs

/-- What the encoder writes for one rune of a well-formed string. -/
def escapeRune (r : Nat) : GoString :=
  if r < 0x80 then escapeByte r
  else if r = 0x2028 ∨ r = 0x2029 then [0x5C, 0x75, 0x32, 0x30, 0x32, hexDigit (r % 16)]
  else encodeRune r

/-- What the encoder writes between the quotes for a sequence of runes. -/
def escapeRunes : List Nat → GoString
  | [] => []
  | r :: rs => escapeRune r ++ escapeRunes rs

/-- The input after a number does not continue the number: it is empty or
starts with a byte that is no digit, `.`, `e` or `E`. -/
def endsNumber (rest : GoString) : Prop :=
  match rest with
  | [] => True
  | c :: _ => isDigit c = false ∧ c ≠ 0x2E ∧ c ≠ 0x65 ∧ c ≠ 0x45

/-- The input after a value inside the encoder's output: nothing, or a `,`,
`]` or `}`. -/
def delimited (rest : GoString) : Prop :=
  match rest with
  | [] => True
  | c :: _ => c = 0x2C ∨ c = 0x5D ∨ c = 0x7D

/-- The keys of the entries of a map. -/
def keysOf {α : Type} (ms : List (GoString × α)) : List GoString := ms.map Prod.fst

mutual
/-- A value as the decoder builds it: every string well-formed UTF-8, every
key of a map once. -/
def wellFormed {F : Type} : JVal F → Prop
  | .null => True
  | .bool _ => True
  | .num _ => True
  | .str s => ValidUTF8 s
  | .arr xs => wellFormedList xs
  | .obj ms => (keysOf ms).Nodup ∧ wellFormedEntries ms
/-- Every element well formed. -/
def wellFormedList {F : Type} : List (JVal F) → Prop
  | [] => True
  | x :: xs => wellFormed x ∧ wellFormedList xs
/-- Every key and every value well formed. -/
def wellFormedEntries {F : Type} : List (GoString × JVal F) → Prop
  | [] => True
  | e :: ms => ValidUTF8 e.1 ∧ wellFormed e.2 ∧ wellFormedEntries ms
end

mutual
/-- The value with the entries of every map in key order. -/
def canonical {F : Type} : JVal F → JVal F
  | .null => .null
  | .bool b => .bool b
  | .num f => .num f
  | .str s => .str s
  | .arr xs => .arr (canonicalList xs)
  | .obj ms => .obj (sortByKey (canonicalEntries ms))
/-- Every element in canonical form. -/
def canonicalList {F : Type} : List (JVal F) → List (JVal F)
  | [] => []
  | x :: xs => canonical x :: canonicalList xs
/-- Every value in canonical form, the entries in their order. -/
def canonicalEntries {F : Type} : List (GoString × JVal F) → List (GoString × JVal F)
  | [] => []
  | e :: ms => (e.1, canonical e.2) :: canonicalEntries ms
end

end Chef

namespace Chef

/-! ## Example documents -/

/-- The text `{"b":1,"a":2}`. -/
def docUnsorted : GoString := lit "\x7b\"b\":1,\"a\":2\x7d"

/-- The text `{"a": 2, "b": 1}`. -/
def docSpaced : GoString := lit "\x7b\"a\": 2, \"b\": 1\x7d"

/-- The text `{"b": [1, "x"], "a": 2}`. -/
def docNested : GoString := lit "\x7b\"b\": [1, \"x\"], \"a\": 2\x7d"

/-- The text `{"a":1`, an object that is not closed. -/
def docTruncated : GoString := lit "\x7b\"a\":1"

end Chef

namespace Chef

/-! ## Documents equal up to the order of members -/

mutual
/-- The same JSON value up to the order of the members of objects: equal
scalars; arrays with the same values element by element; objects with the
same number of entries in which every entry of the first has an entry of
the second with the same key and the same value. -/
def sameValue {F : Type} : JVal F → JVal F → Prop
  | .null, w => w = .null
  | .bool b, w => w = .bool b
  | .num f, w => w = .num f
  | .str s, w => w = .str s
  | .arr xs, w => ∃ ys, w = .arr ys ∧ sameList xs ys
  | .obj ms, w => ∃ ns, w = .obj ns ∧ ms.length = ns.length ∧ sameEntries ms ns
/-- The same values element by element. -/
def sameList {F : Type} : List (JVal F) → List (JVal F) → Prop
  | [], ys => ys = []
  | x :: xs, ys => ∃ y rest, ys = y :: rest ∧ sameValue x y ∧ sameList xs rest
/-- Every entry of the first list has an entry of the second with the same
key and the same value. -/
def sameEntries {F : Type} :
    List (GoString × JVal F) → List (GoString × JVal F) → Prop
  | [], _ => True
  | e :: ms, ns => (∃ e2 ∈ ns, e2.1 = e.1 ∧ sameValue e.2 e2.2) ∧ sameEntries ms ns
end

mutual
/-- The entries of every map are in strictly ascending key order. -/
def keysAscending {F : Type} : JVal F → Prop
  | .null => True
  | .bool _ => True
  | .num _ => True
  | .str _ => True
  | .arr xs => keysAscendingList xs
  | .obj ms =>
    (keysOf ms).Pairwise (fun a b => stringLess a b = true) ∧ keysAscendingEntries ms
/-- Every element has its keys ascending. -/
def keysAscendingList {F : Type} : List (JVal F) → Prop
  | [] => True
  | x :: xs => keysAscending x ∧ keysAscendingList xs
/-- Every value of an entry has its keys ascending. -/
def keysAscendingEntries {F : Type} : List (GoString × JVal F) → Prop
  | [] => True
  | e :: ms => keysAscending e.2 ∧ keysAscendingEntries ms
end

mutual
/-- The number of objects and arrays nested in one another in a value. -/
def nesting {F : Type} : JVal F → Nat
  | .null => 0
  | .bool _ => 0
  | .num _ => 0
  | .str _ => 0
  | .arr xs => nestingList xs + 1
  | .obj ms => nestingEntries ms + 1
/-- The deepest nesting among the elements. -/
def nestingList {F : Type} : List (JVal F) → Nat
  | [] => 0
  | x :: xs => max (nesting x) (nestingList xs)
/-- The deepest nesting among the values of the entries. -/
def nestingEntries {F : Type} : List (GoString × JVal F) → Nat
  | [] => 0
  | e :: ms => max (nesting e.2) (nestingEntries ms)
end

/-- Where a byte of a JSON text lies: outside every string literal, inside
one, or inside one right after a backslash. -/
inductive TextState where
  | outside : TextState
  | inString : TextState
  | escaped : TextState
  deriving DecidableEq, Repr

/-- No white space outside the string literals of a text. -/
def noSpaceOutsideStrings : TextState → GoString → Bool
  | _, [] => true
  | .outside, c :: rest =>
    if c = 0x22 then noSpaceOutsideStrings .inString rest
    else !isSpace c && noSpaceOutsideStrings .outside rest
  | .inString, c :: rest =>
    if c = 0x22 then noSpaceOutsideStrings .outside rest
    else if c = 0x5C then noSpaceOutsideStrings .escaped rest
    else noSpaceOutsideStrings .inString rest
  | .escaped, _ :: rest => noSpaceOutsideStrings .inString rest

/-- A decoder of one value that consumes input on the texts no longer than `n`. -/
def Shrinks {F : Type} (pv : GoString → Option (JVal F × GoString)) (n : Nat) : Prop :=
  ∀ inp v rest, inp.length ≤ n → pv inp = some (v, rest) → rest.length < inp.length

end Chef

namespace Chef

/-! ## Strings -/

theorem lit_slash : lit "/" = [0x2F] := rfl

theorem lit_bracket : lit "[" = [0x5B] := rfl

theorem hasSuffix_slash (s : GoString) :
    hasSuffix s [0x2F] = decide (s.getLast? = some 0x2F) := by
  rcases List.eq_nil_or_concat s with h | ⟨L, b, h⟩
  · subst h; rfl
  · subst h
    simp [hasSuffix, beq_eq_decide]

theorem stringsContains_byte (s : GoString) (b : Nat) :
    stringsContains s [b] = decide (b ∈ s) := by
  induction s with
  | nil => rfl
  | cons c s ih =>
    simp only [stringsContains, ih, hasPrefix]
    by_cases h : c = b
    · subst h; simp
    · have h2 : ¬ b = c := fun e => h e.symm
      simp [h, h2]

/-- C1: `validateServerURL` on a string returns at least one error when the
string does not end in `/`, and no error when it does, for every key. -/
theorem validateServerURL_slash (s key : GoString) :
    ∃ warns errs, validateServerURL (.str s) key = some (warns, errs) ∧
      (s.getLast? ≠ some 0x2F → 1 ≤ errs.length) ∧
      (s.getLast? = some 0x2F → errs.length = 0) := by
  by_cases h : s.getLast? = some 0x2F
  · refine ⟨[], [], ?_, fun h2 => absurd h h2, fun _ => rfl⟩
    simp [validateServerURL, lit_slash, hasSuffix_slash, h]
  · refine ⟨[], [lit "Chef Server URL " ++ s ++ lit " must end with a slash"], ?_,
      fun _ => Nat.le_refl 1, fun h2 => absurd h2 h⟩
    simp [validateServerURL, lit_slash, hasSuffix_slash, h]

theorem runListEntry_wrap (s : GoString) (h : 0x5B ∉ s) :
    runListEntryStateFunc (.str s) = some (lit "recipe[" ++ s ++ lit "]") := by
  simp [runListEntryStateFunc, lit_bracket, stringsContains_byte, h]

theorem runListEntry_keep (s : GoString) (h : 0x5B ∈ s) :
    runListEntryStateFunc (.str s) = some s := by
  simp [runListEntryStateFunc, lit_bracket, stringsContains_byte, h]

/-- C5: `runListEntryStateFunc` wraps a string without `[` as `recipe[...]`
and returns a string with a `[` anywhere unchanged; `foo` becomes `recipe[foo]`. -/
theorem runListEntryStateFunc_spec (s : GoString) :
    (0x5B ∉ s → runListEntryStateFunc (.str s) = some (lit "recipe[" ++ s ++ lit "]")) ∧
    (0x5B ∈ s → runListEntryStateFunc (.str s) = some s) ∧
    runListEntryStateFunc (.str (lit "foo")) = some (lit "recipe[foo]") := by
  exact ⟨runListEntry_wrap s, runListEntry_keep s, by decide⟩

/-- C6: `runListEntryStateFunc` is idempotent, and leaves the tagged entry
`recipe[foo]` unchanged. -/
theorem runListEntryStateFunc_idempotent (s : GoString) :
    (∃ t, runListEntryStateFunc (.str s) = some t ∧
      runListEntryStateFunc (.str t) = some t) ∧
    runListEntryStateFunc (.str (lit "recipe[foo]")) = some (lit "recipe[foo]") := by
  refine ⟨?_, by decide⟩
  by_cases h : 0x5B ∈ s
  · exact ⟨s, runListEntry_keep s h, runListEntry_keep s h⟩
  · refine ⟨lit "recipe[" ++ s ++ lit "]", runListEntry_wrap s h, ?_⟩
    apply runListEntry_keep
    have : (0x5B : Nat) ∈ lit "recipe[" := by decide
    simp [this]

end Chef

namespace Chef

/-! ## Credential resolution -/

theorem getOkString_some (s : GoString) (h : s ≠ []) : getOkString (some s) = (s, true) := by
  simp [getOkString, h]

/-- C2 (as stated, refuted): with both credential attributes set, to
different values, the configuration does not carry the deprecated one. -/
theorem buildConfig_deprecated_not_preferred :
    bothKeys.private_key_pem = some (lit "PEM") ∧ lit "PEM" ≠ [] ∧
    bothKeys.key_material = some (lit "MATERIAL") ∧ lit "MATERIAL" ≠ [] ∧
    (buildConfig bothKeys).Key ≠ lit "PEM" ∧
    (buildConfig bothKeys).Key = lit "MATERIAL" := by
  decide

/-- C2 (amended): when `private_key_pem` and `key_material` are both set and
not empty, the configuration carries the value of `key_material`. -/
theorem buildConfig_key_material_wins (d : ResourceData) (p k : GoString)
    (_hp : d.private_key_pem = some p) (_hpn : p ≠ [])
    (hk : d.key_material = some k) (hkn : k ≠ []) :
    (buildConfig d).Key = k := by
  simp [buildConfig, hk, getOkString_some k hkn]

theorem buildConfig_key_material_wins_witness :
    (buildConfig bothKeys).Key = lit "MATERIAL" :=
  buildConfig_key_material_wins bothKeys (lit "PEM") (lit "MATERIAL") rfl (by decide) rfl
    (by decide)

end Chef

namespace Chef

theorem stringAttr_env (key : GoString) (written : Option GoString) (k : GoString) (dv : Iface)
    (w : World) :
    stringAttr key written (envDefaultFunc k dv) w =
      (.ok (match written with
            | some v => some v
            | none => if w.env k ≠ [] then some (w.env k) else
                match dv with
                | .str v => some v
                | _ => none), w) := by
  cases written with
  | some v => rfl
  | none =>
    by_cases h : w.env k = []
    · cases dv <;> simp [stringAttr, envDefaultFunc, h]
    · simp [stringAttr, envDefaultFunc, h]

theorem pemDefault_unset (w : World) (h : w.env (lit "CHEF_PRIVATE_KEY_FILE") = []) :
    providerPrivateKeyEnvDefault w = (.ok .nil, w) := by
  simp [providerPrivateKeyEnvDefault, h]

theorem pemDefault_ok (w : World) (c : GoString)
    (h : w.env (lit "CHEF_PRIVATE_KEY_FILE") ≠ [])
    (hr : w.files (w.env (lit "CHEF_PRIVATE_KEY_FILE")) = .ok c) :
    providerPrivateKeyEnvDefault w =
      (.ok (.str c), { w with reads := w.reads ++ [w.env (lit "CHEF_PRIVATE_KEY_FILE")] }) := by
  simp [providerPrivateKeyEnvDefault, h, World.readFile, hr]

theorem pemDefault_error (w : World) (err : GoString)
    (h : w.env (lit "CHEF_PRIVATE_KEY_FILE") ≠ [])
    (hr : w.files (w.env (lit "CHEF_PRIVATE_KEY_FILE")) = .error err) :
    providerPrivateKeyEnvDefault w =
      (.error err, { w with reads := w.reads ++ [w.env (lit "CHEF_PRIVATE_KEY_FILE")] }) := by
  simp [providerPrivateKeyEnvDefault, h, World.readFile, hr]

theorem schemaData_pem_error (w : World) (raw : RawConfig) (err : GoString)
    (hfn : w.env (lit "CHEF_PRIVATE_KEY_FILE") ≠ [])
    (hread : w.files (w.env (lit "CHEF_PRIVATE_KEY_FILE")) = .error err)
    (hpem : raw.private_key_pem = none) :
    (schemaData w raw).1 = .error (.defaultLoad (lit "private_key_pem") err) := by
  simp only [schemaData, stringAttr_env, hpem]
  simp only [stringAttr, pemDefault_error w err hfn hread]

/-- C4: when `CHEF_PRIVATE_KEY_FILE` names a file that cannot be read and
`private_key_pem` is not written, the default fails with the read error, no
attribute values and no configuration are produced whatever
`CHEF_KEY_MATERIAL` holds; when the file is readable the default is exactly
its contents. -/
theorem unreadable_key_file_fails {E C : Type} (newClient : Config → Except E C)
    (w : World) (raw : RawConfig) (err : GoString)
    (hfn : w.env (lit "CHEF_PRIVATE_KEY_FILE") ≠ [])
    (hread : w.files (w.env (lit "CHEF_PRIVATE_KEY_FILE")) = .error err)
    (hpem : raw.private_key_pem = none) :
    (providerPrivateKeyEnvDefault w).1 = .error err ∧
    (schemaData w raw).1 = .error (.defaultLoad (lit "private_key_pem") err) ∧
    (configure newClient w raw).1 = .error (.defaultLoad (lit "private_key_pem") err) ∧
    (∀ (w2 : World) (contents : GoString),
      w2.env (lit "CHEF_PRIVATE_KEY_FILE") ≠ [] →
      w2.files (w2.env (lit "CHEF_PRIVATE_KEY_FILE")) = .ok contents →
      (providerPrivateKeyEnvDefault w2).1 = .ok (.str contents)) := by
  have h2 := schemaData_pem_error w raw err hfn hread hpem
  refine ⟨?_, h2, ?_, ?_⟩
  · rw [pemDefault_error w err hfn hread]
  · unfold configure
    revert h2
    rcases schemaData w raw with ⟨r, w1⟩
    intro h2
    simp only at h2
    subst h2
    rfl
  · intro w2 contents h1 h3
    rw [pemDefault_ok w2 contents h1 h3]

theorem unreadable_key_file_fails_witness :
    (providerPrivateKeyEnvDefault brokenFileWorld).1 =
        .error (lit "open /nonexistent.pem: no such file or directory") ∧
    (configure acceptClient brokenFileWorld baseConfig).1 =
        .error (.defaultLoad (lit "private_key_pem")
          (lit "open /nonexistent.pem: no such file or directory")) :=
  have h := unreadable_key_file_fails acceptClient brokenFileWorld baseConfig
    (lit "open /nonexistent.pem: no such file or directory") (by decide) (by rfl) rfl
  ⟨h.1, h.2.2.1⟩

/-- C10: when neither credential attribute is written with a value, and
`CHEF_PRIVATE_KEY_FILE` and `CHEF_KEY_MATERIAL` are empty, the defaults raise
no error and read no file, the configuration handed to the client has the
empty key, and `providerPrivateKeyEnvDefault` returns `nil` without error. -/
theorem no_source_empty_key {E C : Type} (newClient : Config → Except E C)
    (w : World) (raw : RawConfig)
    (hpem : raw.private_key_pem = none ∨ raw.private_key_pem = some [])
    (hkm : raw.key_material = none ∨ raw.key_material = some [])
    (hfile : w.env (lit "CHEF_PRIVATE_KEY_FILE") = [])
    (henv : w.env (lit "CHEF_KEY_MATERIAL") = []) :
    providerPrivateKeyEnvDefault w = (.ok .nil, w) ∧
    (∃ d, schemaData w raw = (.ok d, w) ∧ (buildConfig d).Key = [] ∧
      configure newClient w raw = (.ok (newClient (buildConfig d)), w)) := by
  have hd := pemDefault_unset w hfile
  refine ⟨hd, ?_⟩
  rcases hpem with hp | hp <;> rcases hkm with hk | hk <;>
    simp only [schemaData, configure, providerConfigure, stringAttr_env, hp, hk] <;>
    simp [stringAttr, hd, henv, buildConfig, getOkString]

theorem no_source_empty_key_witness :
    providerPrivateKeyEnvDefault emptyWorld = (.ok .nil, emptyWorld) ∧
    (∃ d, schemaData emptyWorld baseConfig = (.ok d, emptyWorld) ∧ (buildConfig d).Key = [] ∧
      configure acceptClient emptyWorld baseConfig =
        (.ok (acceptClient (buildConfig d)), emptyWorld)) :=
  no_source_empty_key acceptClient emptyWorld baseConfig (Or.inl rfl) (Or.inl rfl) rfl rfl

/-- C3 (as stated, refuted): with the key file as the only source that is not
empty, a written `private_key_pem = ""` leaves the key empty; likewise
`CHEF_KEY_MATERIAL` behind a written `key_material = ""`. -/
theorem written_empty_hides_default :
    ((credentialSources keyFileWorld emptyPemConfig).filter (fun s => decide (s ≠ []))
        = [lit "FILEKEY"] ∧
      ∃ d, (schemaData keyFileWorld emptyPemConfig).1 = .ok d ∧ (buildConfig d).Key = []) ∧
    ((credentialSources envKeyWorld emptyMaterialConfig).filter (fun s => decide (s ≠ []))
        = [lit "ENVKEY"] ∧
      ∃ d, (schemaData envKeyWorld emptyMaterialConfig).1 = .ok d ∧
        (buildConfig d).Key = []) := by
  refine ⟨⟨by decide, _, rfl, by decide⟩, ⟨by decide, _, rfl, by decide⟩⟩

end Chef

namespace Chef

theorem getOkString_eq (v : Option GoString) :
    getOkString v = (v.getD [], decide (v.getD [] ≠ [])) := by
  cases v <;> simp [getOkString]

theorem buildConfig_key (d : ResourceData) :
    (buildConfig d).Key =
      if d.key_material.getD [] ≠ [] then d.key_material.getD []
      else d.private_key_pem.getD [] := by
  simp only [buildConfig, getOkString_eq]
  by_cases hk : d.key_material.getD [] = [] <;>
    by_cases hp : d.private_key_pem.getD [] = [] <;> simp [hk, hp]

/-- The key of the configuration in closed form: `key_material` (written, else
`CHEF_KEY_MATERIAL`) when it is not empty, else `private_key_pem` (written,
else the key file). -/
theorem schemaData_key (w : World) (raw : RawConfig)
    (hread : w.env (lit "CHEF_PRIVATE_KEY_FILE") ≠ [] →
      ∃ c, w.files (w.env (lit "CHEF_PRIVATE_KEY_FILE")) = .ok c) :
    ∃ d w1, schemaData w raw = (.ok d, w1) ∧
      (buildConfig d).Key =
        if raw.key_material.getD (w.env (lit "CHEF_KEY_MATERIAL")) ≠ [] then
          raw.key_material.getD (w.env (lit "CHEF_KEY_MATERIAL"))
        else raw.private_key_pem.getD (fileSource w) := by
  rcases raw with ⟨url, name, pem, km, ssl⟩
  have hpemAttr : ∃ pv w1, stringAttr (lit "private_key_pem") pem providerPrivateKeyEnvDefault w
      = (.ok pv, w1) ∧ w1.env = w.env ∧ pv.getD [] = pem.getD (fileSource w) := by
    cases pem with
    | some p => exact ⟨some p, w, by simp [stringAttr], rfl, rfl⟩
    | none =>
      by_cases hF : w.env (lit "CHEF_PRIVATE_KEY_FILE") = []
      · refine ⟨none, w, ?_, rfl, ?_⟩
        · simp [stringAttr, pemDefault_unset w hF]
        · simp [fileSource, hF]
      · obtain ⟨c, hc⟩ := hread hF
        refine ⟨some c, { w with reads := w.reads ++ [w.env (lit "CHEF_PRIVATE_KEY_FILE")] },
          ?_, rfl, ?_⟩
        · simp only [stringAttr, pemDefault_ok w c hF hc]
        · simp [fileSource, hF, hc]
  obtain ⟨pv, w1, h1, henv, hpv⟩ := hpemAttr
  simp only [schemaData, stringAttr_env, h1, henv]
  refine ⟨_, _, rfl, ?_⟩
  rw [buildConfig_key]
  simp only [hpv]
  cases km with
  | some k => rfl
  | none =>
    by_cases hE : w.env (lit "CHEF_KEY_MATERIAL") = [] <;> simp [hE]

/-- C3 (amended): when exactly one of the four credential sources is not
empty, the key file, if named, is readable, and the attribute whose default
supplies that value is absent from the provider block (not written as the
empty string), the configuration carries that value. -/
theorem single_source_resolves (w : World) (raw : RawConfig) (v : GoString)
    (hread : w.env (lit "CHEF_PRIVATE_KEY_FILE") ≠ [] →
      ∃ c, w.files (w.env (lit "CHEF_PRIVATE_KEY_FILE")) = .ok c)
    (hone : (credentialSources w raw).filter (fun s => decide (s ≠ [])) = [v])
    (hpem : fileSource w ≠ [] → raw.private_key_pem = none)
    (hkm : w.env (lit "CHEF_KEY_MATERIAL") ≠ [] → raw.key_material = none) :
    ∃ d w1, schemaData w raw = (.ok d, w1) ∧ (buildConfig d).Key = v := by
  obtain ⟨d, w1, hd, hkey⟩ := schemaData_key w raw hread
  refine ⟨d, w1, hd, ?_⟩
  rw [hkey]
  rcases raw with ⟨url, name, pem, km, ssl⟩
  simp only [credentialSources] at hone
  simp only at hpem hkm
  generalize fileSource w = F at *
  generalize w.env (lit "CHEF_KEY_MATERIAL") = E at *
  by_cases hE : E = []
  · by_cases hF : F = []
    · subst hE hF
      cases pem <;> cases km <;> simp [List.filter] at hone ⊢
      · rename_i k
        by_cases hk : k = [] <;> simp [hk] at hone ⊢
        exact hone
      · rename_i p
        by_cases hp : p = [] <;> simp [hp] at hone ⊢
        exact hone
      · rename_i p k
        by_cases hp : p = [] <;> by_cases hk : k = [] <;> simp [hp, hk] at hone ⊢
        · exact hone
        · exact hone
    · have := hpem hF
      subst this
      subst hE
      cases km <;> simp [List.filter, hF] at hone ⊢
      · exact hone
      · rename_i k
        by_cases hk : k = [] <;> simp [hk] at hone ⊢
        exact hone
  · have := hkm hE
    subst this
    by_cases hF : F = []
    · subst hF
      cases pem <;> simp [List.filter, hE] at hone ⊢
      · exact hone
      · rename_i p
        by_cases hp : p = [] <;> simp [hp] at hone
        exact hone
    · have := hpem hF
      subst this
      simp [List.filter, hE, hF] at hone

theorem single_source_resolves_witness :
    ∃ d w1, schemaData keyFileWorld baseConfig = (.ok d, w1) ∧
      (buildConfig d).Key = lit "FILEKEY" :=
  single_source_resolves keyFileWorld baseConfig (lit "FILEKEY")
    (fun _ => ⟨lit "FILEKEY", by rfl⟩) (by decide) (fun _ => rfl) (fun _ => rfl)

end Chef

namespace Chef

/-! ## Induction over decoded values -/

mutual
theorem JVal.induct_aux {F : Type} {P : JVal F → Prop}
    (hnull : P .null) (hbool : ∀ b, P (.bool b)) (hnum : ∀ f, P (.num f))
    (hstr : ∀ s, P (.str s))
    (harr : ∀ xs, (∀ x ∈ xs, P x) → P (.arr xs))
    (hobj : ∀ ms, (∀ e ∈ ms, P e.2) → P (.obj ms)) : ∀ v, P v
  | .null => hnull
  | .bool b => hbool b
  | .num f => hnum f
  | .str s => hstr s
  | .arr xs => harr xs (JVal.induct_list hnull hbool hnum hstr harr hobj xs)
  | .obj ms => hobj ms (JVal.induct_members hnull hbool hnum hstr harr hobj ms)
theorem JVal.induct_list {F : Type} {P : JVal F → Prop}
    (hnull : P .null) (hbool : ∀ b, P (.bool b)) (hnum : ∀ f, P (.num f))
    (hstr : ∀ s, P (.str s))
    (harr : ∀ xs, (∀ x ∈ xs, P x) → P (.arr xs))
    (hobj : ∀ ms, (∀ e ∈ ms, P e.2) → P (.obj ms)) : ∀ xs : List (JVal F), ∀ x ∈ xs, P x
  | [] => fun _ h => absurd h (List.not_mem_nil _)
  | y :: ys => List.forall_mem_cons.2
      ⟨JVal.induct_aux hnull hbool hnum hstr harr hobj y,
       JVal.induct_list hnull hbool hnum hstr harr hobj ys⟩
theorem JVal.induct_members {F : Type} {P : JVal F → Prop}
    (hnull : P .null) (hbool : ∀ b, P (.bool b)) (hnum : ∀ f, P (.num f))
    (hstr : ∀ s, P (.str s))
    (harr : ∀ xs, (∀ x ∈ xs, P x) → P (.arr xs))
    (hobj : ∀ ms, (∀ e ∈ ms, P e.2) → P (.obj ms)) :
    ∀ ms : List (GoString × JVal F), ∀ e ∈ ms, P e.2
  | [] => fun _ h => absurd h (List.not_mem_nil _)
  | (_, v) :: ys => List.forall_mem_cons.2
      ⟨JVal.induct_aux hnull hbool hnum hstr harr hobj v,
       JVal.induct_members hnull hbool hnum hstr harr hobj ys⟩
end

theorem encodeList_eq_map {F : Type} (fc : FloatCodec F) (xs : List (JVal F)) :
    encodeList fc xs = xs.map (encodeValue fc) := by
  induction xs with
  | nil => simp [encodeList]
  | cons x xs ih => simp [encodeList, ih]

theorem encodeEntries_eq_map {F : Type} (fc : FloatCodec F) (ms : List (GoString × JVal F)) :
    encodeEntries fc ms = ms.map (fun e => (e.1, encodeValue fc e.2)) := by
  induction ms with
  | nil => simp [encodeEntries]
  | cons x xs ih => simp [encodeEntries, ih]

end Chef

namespace Chef

/-! ## UTF-8 -/

theorem decodeRune_encodeRune (r : Nat) (rest : GoString) (h : isScalar r) :
    decodeRune (encodeRune r ++ rest) = (r, (encodeRune r).length) := by
  unfold isScalar at h
  unfold encodeRune
  by_cases h1 : r < 0x80
  · simp [h1, decodeRune]
  · by_cases h2 : r < 0x800
    · simp only [h1, h2, if_false, if_true, List.cons_append, List.nil_append, decodeRune]
      have a1 : ¬ (0xC0 + r / 64 < 0x80) := by omega
      have a2 : ¬ (0xC0 + r / 64 < 0xC2 ∨ 0xF4 < 0xC0 + r / 64) := by omega
      have a3 : 0xC0 + r / 64 < 0xE0 := by omega
      have a4 : ¬ (0xC0 + r / 64 = 0xE0) := by omega
      have a5 : ¬ (0xC0 + r / 64 = 0xF0) := by omega
      have a6 : ¬ (0xC0 + r / 64 = 0xED) := by omega
      have a7 : ¬ (0xC0 + r / 64 = 0xF4) := by omega
      have a8 : ¬ (0x80 + r % 64 < 0x80 ∨ 0xBF < 0x80 + r % 64) := by omega
      simp only [a1, a2, a3, a4, a5, a6, a7, a8, if_false, if_true]
      simp
      omega
    · by_cases h3 : 0x10FFFF < r ∨ (0xD800 ≤ r ∧ r ≤ 0xDFFF)
      · exfalso; omega
      · by_cases h4 : r < 0x10000
        · simp only [h1, h2, h3, h4, if_false, if_true, List.cons_append, List.nil_append,
            decodeRune]
          have a1 : ¬ (0xE0 + r / 4096 < 0x80) := by omega
          have a2 : ¬ (0xE0 + r / 4096 < 0xC2 ∨ 0xF4 < 0xE0 + r / 4096) := by omega
          have a3 : ¬ (0xE0 + r / 4096 < 0xE0) := by omega
          have a3b : 0xE0 + r / 4096 < 0xF0 := by omega
          have a5 : ¬ (0xE0 + r / 4096 = 0xF0) := by omega
          have a7 : ¬ (0xE0 + r / 4096 = 0xF4) := by omega
          have a9 : ¬ (0x80 + r % 64 < 0x80 ∨ 0xBF < 0x80 + r % 64) := by omega
          simp only [a1, a2, a3, a3b, a5, a7, a9, if_false, if_true]
          by_cases b1 : 0xE0 + r / 4096 = 0xE0
          · have a8 : ¬ (0x80 + r / 64 % 64 < 0xA0 ∨ 0xBF < 0x80 + r / 64 % 64) := by omega
            have a6 : ¬ (0xE0 + r / 4096 = 0xED) := by omega
            simp only [b1, a6, a8, if_false, if_true]
            simp
            first
              | omega
              | (split
                 · rename_i hc
                   exfalso
                   omega
                 · simp
                   omega)
          · by_cases b2 : 0xE0 + r / 4096 = 0xED
            · have a8 : ¬ (0x80 + r / 64 % 64 < 0x80 ∨ 0x9F < 0x80 + r / 64 % 64) := by omega
              simp only [b1, b2, a8, if_false, if_true]
              simp
              first
                | omega
                | (split
                   · rename_i hc
                     exfalso
                     omega
                   · simp
                     omega)
            · have a8 : ¬ (0x80 + r / 64 % 64 < 0x80 ∨ 0xBF < 0x80 + r / 64 % 64) := by omega
              simp only [b1, b2, a8, if_false, if_true]
              simp
              first
                | omega
                | (split
                   · rename_i hc
                     exfalso
                     omega
                   · simp
                     omega)
        · simp only [h1, h2, h3, h4, if_false, if_true, List.cons_append, List.nil_append,
            decodeRune]
          have a1 : ¬ (0xF0 + r / 262144 < 0x80) := by omega
          have a2 : ¬ (0xF0 + r / 262144 < 0xC2 ∨ 0xF4 < 0xF0 + r / 262144) := by omega
          have a3 : ¬ (0xF0 + r / 262144 < 0xE0) := by omega
          have a3b : ¬ (0xF0 + r / 262144 < 0xF0) := by omega
          have a5 : ¬ (0xF0 + r / 262144 = 0xE0) := by omega
          have a7 : ¬ (0xF0 + r / 262144 = 0xED) := by omega
          have a9 : ¬ (0x80 + r % 64 < 0x80 ∨ 0xBF < 0x80 + r % 64) := by omega
          have a10 : ¬ (0x80 + r / 64 % 64 < 0x80 ∨ 0xBF < 0x80 + r / 64 % 64) := by omega
          simp only [a1, a2, a3, a3b, a5, a7, a9, a10, if_false, if_true]
          by_cases b1 : 0xF0 + r / 262144 = 0xF0
          · have a8 : ¬ (0x80 + r / 4096 % 64 < 0x90 ∨ 0xBF < 0x80 + r / 4096 % 64) := by omega
            have a6 : ¬ (0xF0 + r / 262144 = 0xF4) := by omega
            simp only [b1, a6, a8, if_false, if_true]
            simp
            first
              | omega
              | (split
                 · rename_i hc
                   exfalso
                   omega
                 · simp
                   omega)
          · by_cases b2 : 0xF0 + r / 262144 = 0xF4
            · have a8 : ¬ (0x80 + r / 4096 % 64 < 0x80 ∨ 0x8F < 0x80 + r / 4096 % 64) := by
                omega
              simp only [b1, b2, a8, if_false, if_true]
              simp
              first
                | omega
                | (split
                   · rename_i hc
                     exfalso
                     omega
                   · simp
                     omega)
            · have a8 : ¬ (0x80 + r / 4096 % 64 < 0x80 ∨ 0xBF < 0x80 + r / 4096 % 64) := by
                omega
              simp only [b1, b2, a8, if_false, if_true]
              simp
              first
                | omega
                | (split
                   · rename_i hc
                     exfalso
                     omega
                   · simp
                     omega)

end Chef

namespace Chef

/-! ## String literals -/

theorem encodeRune_ascii (r : Nat) (h : r < 0x80) : encodeRune r = [r] := by
  simp [encodeRune, h]

/-- The shape of the encoding of a scalar value that is not ASCII. -/
theorem encodeRune_high (r : Nat) (h : ¬ r < 0x80) :
    ∃ b t, encodeRune r = b :: t ∧ 0x80 ≤ b ∧ (∀ c ∈ b :: t, 0x80 ≤ c) := by
  unfold encodeRune
  by_cases h2 : r < 0x800
  · refine ⟨_, _, by simp only [h, h2, if_false, if_true]; rfl, by omega, ?_⟩
    intro c hc
    simp at hc
    omega
  · by_cases h3 : 0x10FFFF < r ∨ (0xD800 ≤ r ∧ r ≤ 0xDFFF)
    · refine ⟨_, _, by simp only [h, h2, h3, if_false, if_true]; rfl, by omega, ?_⟩
      intro c hc
      simp at hc
      omega
    · by_cases h4 : r < 0x10000
      · refine ⟨_, _, by simp only [h, h2, h3, h4, if_false, if_true]; rfl, by omega, ?_⟩
        intro c hc
        simp at hc
        omega
      · refine ⟨_, _, by simp only [h, h2, h3, h4, if_false, if_true]; rfl, by omega, ?_⟩
        intro c hc
        simp at hc
        omega

theorem encodeRune_length_pos (r : Nat) : 0 < (encodeRune r).length := by
  unfold encodeRune
  split_ifs <;> simp

theorem encodeRune_length_le (r : Nat) : (encodeRune r).length ≤ 4 := by
  unfold encodeRune
  split_ifs <;> simp

end Chef

namespace Chef

theorem encodeRune_length_high (r : Nat) (h : ¬ r < 0x80) : 2 ≤ (encodeRune r).length := by
  unfold encodeRune
  split_ifs <;> simp

theorem appendStringLoop_nil (fuel : Nat) : appendStringLoop fuel [] = [] := by
  cases fuel <;> rfl

theorem appendStringLoop_cons (fuel b : Nat) (rest : GoString) :
    appendStringLoop (fuel + 1) (b :: rest) =
      if b < 0x80 then escapeByte b ++ appendStringLoop fuel rest
      else
        if (decodeRune (b :: rest)).1 = runeError ∧ (decodeRune (b :: rest)).2 = 1 then
          [0x5C, 0x75, 0x66, 0x66, 0x66, 0x64] ++ appendStringLoop fuel rest
        else if (decodeRune (b :: rest)).1 = 0x2028 ∨ (decodeRune (b :: rest)).1 = 0x2029 then
          [0x5C, 0x75, 0x32, 0x30, 0x32, hexDigit ((decodeRune (b :: rest)).1 % 16)]
            ++ appendStringLoop fuel ((b :: rest).drop (decodeRune (b :: rest)).2)
        else (b :: rest).take (decodeRune (b :: rest)).2
          ++ appendStringLoop fuel ((b :: rest).drop (decodeRune (b :: rest)).2) := rfl

theorem appendStringLoop_rune (r : Nat) (hr : isScalar r) (tail : GoString) (fuel : Nat) :
    appendStringLoop (fuel + 1) (encodeRune r ++ tail) =
      escapeRune r ++ appendStringLoop fuel tail := by
  by_cases h : r < 0x80
  · simp [encodeRune_ascii r h, appendStringLoop_cons, escapeRune, h]
  · obtain ⟨b, t, hbt, hb, _⟩ := encodeRune_high r h
    have hdec := decodeRune_encodeRune r tail hr
    have hlen := encodeRune_length_high r h
    rw [hbt] at hdec hlen ⊢
    have hb' : ¬ b < 0x80 := by omega
    have hdec' : decodeRune (b :: (t ++ tail)) = (r, (b :: t).length) := hdec
    show appendStringLoop (fuel + 1) (b :: (t ++ tail)) = _
    rw [appendStringLoop_cons, if_neg hb', hdec']
    have h1 : ¬ (r = runeError ∧ (b :: t).length = 1) := by
      intro hh
      omega
    have htake : List.take (b :: t).length (b :: (t ++ tail)) = b :: t := by
      rw [show b :: (t ++ tail) = (b :: t) ++ tail from rfl, List.take_left]
    have hdrop : List.drop (b :: t).length (b :: (t ++ tail)) = tail := by
      rw [show b :: (t ++ tail) = (b :: t) ++ tail from rfl, List.drop_left]
    simp only [h1, if_false, htake, hdrop, escapeRune, h]
    by_cases h2 : r = 0x2028 ∨ r = 0x2029
    · simp [h2]
    · simp [h2, hbt]

theorem encodeRunes_cons (r : Nat) (rs : List Nat) :
    encodeRunes (r :: rs) = encodeRune r ++ encodeRunes rs := rfl

theorem escapeRunes_cons (r : Nat) (rs : List Nat) :
    escapeRunes (r :: rs) = escapeRune r ++ escapeRunes rs := rfl

theorem appendStringLoop_valid (rs : List Nat) (hs : ∀ r ∈ rs, isScalar r) :
    ∀ fuel, (encodeRunes rs).length ≤ fuel →
      appendStringLoop fuel (encodeRunes rs) = escapeRunes rs := by
  induction rs with
  | nil => intro fuel _; exact appendStringLoop_nil fuel
  | cons r rs ih =>
    intro fuel hf
    have hpos := encodeRune_length_pos r
    rw [encodeRunes_cons, List.length_append] at hf
    obtain ⟨f, rfl⟩ : ∃ f, fuel = f + 1 := ⟨fuel - 1, by omega⟩
    rw [encodeRunes_cons, appendStringLoop_rune r (hs r (List.mem_cons_self _ _)),
      ih (fun x hx => hs x (List.mem_cons_of_mem _ hx)) f (by omega)]
    rfl

theorem appendString_valid (rs : List Nat) (hs : ∀ r ∈ rs, isScalar r) :
    appendString (encodeRunes rs) = 0x22 :: (escapeRunes rs ++ [0x22]) := by
  unfold appendString
  rw [appendStringLoop_valid rs hs _ (Nat.le_refl _)]

end Chef

namespace Chef

theorem scanString_cons (c : Nat) (rest : GoString) :
    scanString (c :: rest) =
      if c = 0x22 then some ([], rest)
      else if c = 0x5C then
        match rest with
        | [] => none
        | e :: rest1 =>
          if e = 0x62 ∨ e = 0x66 ∨ e = 0x6E ∨ e = 0x72 ∨ e = 0x74 ∨ e = 0x5C ∨ e = 0x2F
              ∨ e = 0x22 then
            (scanString rest1).map fun p => (c :: e :: p.1, p.2)
          else if e = 0x75 then
            match rest1 with
            | h1 :: h2 :: h3 :: h4 :: rest2 =>
              if isHex h1 && isHex h2 && isHex h3 && isHex h4 then
                (scanString rest2).map fun p => (c :: e :: h1 :: h2 :: h3 :: h4 :: p.1, p.2)
              else none
            | _ => none
          else none
      else if c < 0x20 then none
      else (scanString rest).map fun p => (c :: p.1, p.2) := by
  conv => lhs; rw [scanString.eq_def]
  rfl

/-- A byte the scanner passes inside a string without a state change. -/
theorem scanString_plain (c : Nat) (rest : GoString) (h1 : c ≠ 0x22) (h2 : c ≠ 0x5C)
    (h3 : ¬ c < 0x20) :
    scanString (c :: rest) = (scanString rest).map fun p => (c :: p.1, p.2) := by
  rw [scanString_cons]
  simp [h1, h2, h3]

theorem scanString_plain_list (bs : GoString) (tail : GoString)
    (h : ∀ c ∈ bs, c ≠ 0x22 ∧ c ≠ 0x5C ∧ ¬ c < 0x20) :
    scanString (bs ++ tail) = (scanString tail).map fun p => (bs ++ p.1, p.2) := by
  induction bs with
  | nil => simp
  | cons c bs ih =>
    obtain ⟨h1, h2, h3⟩ := h c (List.mem_cons_self _ _)
    rw [List.cons_append, scanString_plain c _ h1 h2 h3,
      ih (fun x hx => h x (List.mem_cons_of_mem _ hx))]
    cases scanString tail <;> simp

theorem isHex_hexDigit (n : Nat) (h : n < 16) : isHex (hexDigit n) = true := by
  unfold isHex hexDigit
  split_ifs <;> simp <;> omega

theorem hexVal_hexDigit (n : Nat) (h : n < 16) : hexVal (hexDigit n) = some n := by
  unfold hexVal hexDigit
  by_cases h1 : n < 10
  · have : 0x30 ≤ 0x30 + n ∧ 0x30 + n ≤ 0x39 := by omega
    simp [h1, this]
  · have a : ¬ (0x30 ≤ 0x61 + (n - 10) ∧ 0x61 + (n - 10) ≤ 0x39) := by omega
    have b : 0x61 ≤ 0x61 + (n - 10) ∧ 0x61 + (n - 10) ≤ 0x66 := by omega
    simp only [h1, if_false, a, b, if_true]
    simp
    omega

/-- The two forms of an escaped ASCII byte: a backslash pair, or a `\u00XY`
escape, or the byte itself. -/
theorem escapeByte_cases (b : Nat) (hb : b < 0x80) :
    (∃ e, escapeByte b = [0x5C, e] ∧
      (e = 0x62 ∨ e = 0x66 ∨ e = 0x6E ∨ e = 0x72 ∨ e = 0x74 ∨ e = 0x5C ∨ e = 0x2F ∨ e = 0x22) ∧
      ((e = 0x22 ∧ b = 0x22) ∨ (e = 0x5C ∧ b = 0x5C) ∨ (e = 0x62 ∧ b = 0x08) ∨
        (e = 0x66 ∧ b = 0x0C) ∨ (e = 0x6E ∧ b = 0x0A) ∨ (e = 0x72 ∧ b = 0x0D) ∨
        (e = 0x74 ∧ b = 0x09))) ∨
    (escapeByte b = [0x5C, 0x75, 0x30, 0x30, hexDigit (b / 16), hexDigit (b % 16)]) ∨
    (escapeByte b = [b] ∧ b ≠ 0x22 ∧ b ≠ 0x5C ∧ ¬ b < 0x20) := by
  unfold escapeByte
  by_cases h1 : b = 0x5C ∨ b = 0x22
  · left
    rcases h1 with h | h <;> subst h <;> simp
  · by_cases h2 : b = 0x08
    · left; subst h2; simp
    · by_cases h3 : b = 0x0C
      · left; subst h3; simp
      · by_cases h4 : b = 0x0A
        · left; subst h4; simp
        · by_cases h5 : b = 0x0D
          · left; subst h5; simp
          · by_cases h6 : b = 0x09
            · left; subst h6; simp
            · by_cases h7 : b < 0x20 ∨ b = 0x3C ∨ b = 0x3E ∨ b = 0x26
              · right; left
                simp only [h1, h2, h3, h4, h5, h6, h7, if_false, if_true]
              · right; right
                simp only [h1, h2, h3, h4, h5, h6, h7, if_false]
                refine ⟨trivial, ?_, ?_, ?_⟩ <;> omega

theorem scanString_escapeRune (r : Nat) (hr : isScalar r) (tail : GoString) :
    scanString (escapeRune r ++ tail) =
      (scanString tail).map fun p => (escapeRune r ++ p.1, p.2) := by
  unfold escapeRune
  by_cases h : r < 0x80
  · simp only [h, if_true]
    rcases escapeByte_cases r h with ⟨e, he, hset, _⟩ | he | ⟨he, h1, h2, h3⟩
    · rw [he]
      show scanString (0x5C :: e :: tail) = _
      rw [scanString_cons]
      simp only [show ¬ ((0x5C : Nat) = 0x22) by decide, if_false, if_true, hset]
      cases scanString tail <;> simp
    · rw [he]
      show scanString (0x5C :: 0x75 :: 0x30 :: 0x30 :: hexDigit (r / 16) :: hexDigit (r % 16)
        :: tail) = _
      rw [scanString_cons]
      have x1 := isHex_hexDigit (r / 16) (by omega)
      have x2 := isHex_hexDigit (r % 16) (by omega)
      have x0 : isHex 0x30 = true := by decide
      simp [x0, x1, x2]
    · rw [he]
      exact scanString_plain_list [r] tail (by
        intro c hc
        simp at hc
        subst hc
        exact ⟨h1, h2, h3⟩)
  · simp only [h, if_false]
    by_cases h2 : r = 0x2028 ∨ r = 0x2029
    · simp only [h2, if_true]
      show scanString (0x5C :: 0x75 :: 0x32 :: 0x30 :: 0x32 :: hexDigit (r % 16) :: tail) = _
      rw [scanString_cons]
      have x2 := isHex_hexDigit (r % 16) (by omega)
      have x0 : isHex 0x30 = true := by decide
      have x3 : isHex 0x32 = true := by decide
      simp [x0, x2, x3]
    · simp only [h2, if_false]
      obtain ⟨b, t, hbt, _, hall⟩ := encodeRune_high r h
      apply scanString_plain_list
      intro c hc
      rw [hbt] at hc
      have := hall c hc
      omega

theorem scanString_escapeRunes (rs : List Nat) (hs : ∀ r ∈ rs, isScalar r) (rest : GoString) :
    scanString (escapeRunes rs ++ 0x22 :: rest) = some (escapeRunes rs, rest) := by
  induction rs with
  | nil => simp [escapeRunes, scanString_cons]
  | cons r rs ih =>
    rw [escapeRunes_cons, List.append_assoc,
      scanString_escapeRune r (hs r (List.mem_cons_self _ _)),
      ih (fun x hx => hs x (List.mem_cons_of_mem _ hx))]
    rfl

end Chef

namespace Chef

theorem unquoteLoop_nil (fuel : Nat) : unquoteLoop (fuel + 1) [] = some [] := rfl

theorem unquoteLoop_cons (fuel c : Nat) (rest : GoString) :
    unquoteLoop (fuel + 1) (c :: rest) =
      if c = 0x5C then
        match rest with
        | [] => none
        | e :: rest1 =>
          if e = 0x22 ∨ e = 0x5C ∨ e = 0x2F ∨ e = 0x27 then
            (unquoteLoop fuel rest1).map (e :: ·)
          else if e = 0x62 then (unquoteLoop fuel rest1).map (0x08 :: ·)
          else if e = 0x66 then (unquoteLoop fuel rest1).map (0x0C :: ·)
          else if e = 0x6E then (unquoteLoop fuel rest1).map (0x0A :: ·)
          else if e = 0x72 then (unquoteLoop fuel rest1).map (0x0D :: ·)
          else if e = 0x74 then (unquoteLoop fuel rest1).map (0x09 :: ·)
          else if e = 0x75 then
            match getu4 (c :: rest) with
            | none => none
            | some rr =>
              let rest2 := rest1.drop 4
              if isSurrogate rr then
                let dec := utf16DecodeRune rr (getu4 rest2)
                if dec ≠ runeError then
                  (unquoteLoop fuel (rest2.drop 6)).map (encodeRune dec ++ ·)
                else (unquoteLoop fuel rest2).map (encodeRune runeError ++ ·)
              else (unquoteLoop fuel rest2).map (encodeRune rr ++ ·)
          else none
      else if c = 0x22 ∨ c < 0x20 then none
      else if c < 0x80 then (unquoteLoop fuel rest).map (c :: ·)
      else
        let rs := decodeRune (c :: rest)
        (unquoteLoop fuel ((c :: rest).drop rs.2)).map (encodeRune rs.1 ++ ·) := by
  rfl

theorem getu4_hex (a b c d : Nat) (tail : GoString)
    (ha : a < 16) (hb : b < 16) (hc : c < 16) (hd : d < 16) :
    getu4 (0x5C :: 0x75 :: hexDigit a :: hexDigit b :: hexDigit c :: hexDigit d :: tail)
      = some (((a * 16 + b) * 16 + c) * 16 + d) := by
  simp [getu4, hexVal_hexDigit, ha, hb, hc, hd]

theorem hexDigit_zero : hexDigit 0 = 0x30 := rfl

theorem hexDigit_two : hexDigit 2 = 0x32 := rfl

theorem unquoteLoop_escapeRune (r : Nat) (hr : isScalar r) (tail : GoString) (fuel : Nat) :
    unquoteLoop (fuel + 1) (escapeRune r ++ tail) =
      (unquoteLoop fuel tail).map (encodeRune r ++ ·) := by
  unfold escapeRune
  by_cases h : r < 0x80
  · simp only [h, if_true, encodeRune_ascii r h]
    rcases escapeByte_cases r h with ⟨e, he, _, hcase⟩ | he | ⟨he, h1, h2, h3⟩
    · rw [he]
      show unquoteLoop (fuel + 1) (0x5C :: e :: tail) = _
      rw [unquoteLoop_cons]
      rcases hcase with ⟨h1, h2⟩ | ⟨h1, h2⟩ | ⟨h1, h2⟩ | ⟨h1, h2⟩ | ⟨h1, h2⟩ | ⟨h1, h2⟩ | ⟨h1, h2⟩
        <;> subst h1 <;> subst h2 <;> simp
    · rw [he]
      show unquoteLoop (fuel + 1)
        (0x5C :: 0x75 :: 0x30 :: 0x30 :: hexDigit (r / 16) :: hexDigit (r % 16) :: tail) = _
      rw [unquoteLoop_cons]
      have hg := getu4_hex 0 0 (r / 16) (r % 16) tail (by omega) (by omega) (by omega) (by omega)
      rw [hexDigit_zero] at hg
      have hval : ((0 * 16 + 0) * 16 + r / 16) * 16 + r % 16 = r := by omega
      rw [hval] at hg
      have hsur : isSurrogate r = false := by
        simp [isSurrogate]; omega
      simp [hg, hsur, encodeRune_ascii r h]
    · rw [he]
      show unquoteLoop (fuel + 1) (r :: tail) = _
      rw [unquoteLoop_cons]
      have h4 : ¬ (r = 0x22 ∨ r < 0x20) := by omega
      simp [h2, h4, h]
  · simp only [h, if_false]
    by_cases h2 : r = 0x2028 ∨ r = 0x2029
    · simp only [h2, if_true]
      show unquoteLoop (fuel + 1)
        (0x5C :: 0x75 :: 0x32 :: 0x30 :: 0x32 :: hexDigit (r % 16) :: tail) = _
      rw [unquoteLoop_cons]
      have hg := getu4_hex 2 0 2 (r % 16) tail (by omega) (by omega) (by omega) (by omega)
      rw [hexDigit_zero, hexDigit_two] at hg
      have hval : ((2 * 16 + 0) * 16 + 2) * 16 + r % 16 = r := by omega
      rw [hval] at hg
      have hsur : isSurrogate r = false := by
        simp [isSurrogate]; omega
      simp [hg, hsur]
    · simp only [h2, if_false]
      obtain ⟨b, t, hbt, hb, _⟩ := encodeRune_high r h
      have hdec := decodeRune_encodeRune r tail hr
      rw [hbt] at hdec ⊢
      have hdec' : decodeRune (b :: (t ++ tail)) = (r, (b :: t).length) := hdec
      show unquoteLoop (fuel + 1) (b :: (t ++ tail)) = _
      rw [unquoteLoop_cons]
      have c1 : ¬ b = 0x5C := by omega
      have c2 : ¬ (b = 0x22 ∨ b < 0x20) := by omega
      have c3 : ¬ b < 0x80 := by omega
      have hdrop : List.drop (b :: t).length (b :: (t ++ tail)) = tail := by
        rw [show b :: (t ++ tail) = (b :: t) ++ tail from rfl, List.drop_left]
      simp only [c1, c2, c3, if_false, hdec', hdrop, hbt]

theorem escapeRune_length_pos (r : Nat) : 0 < (escapeRune r).length := by
  unfold escapeRune escapeByte
  have := encodeRune_length_pos r
  split_ifs <;> simp <;> omega

theorem unquoteLoop_escapeRunes (rs : List Nat) (hs : ∀ r ∈ rs, isScalar r) :
    ∀ fuel, rs.length < fuel → unquoteLoop fuel (escapeRunes rs) = some (encodeRunes rs) := by
  induction rs with
  | nil =>
    intro fuel hf
    obtain ⟨f, rfl⟩ : ∃ f, fuel = f + 1 := ⟨fuel - 1, by omega⟩
    rfl
  | cons r rs ih =>
    intro fuel hf
    obtain ⟨f, rfl⟩ : ∃ f, fuel = f + 1 := ⟨fuel - 1, by omega⟩
    rw [escapeRunes_cons, unquoteLoop_escapeRune r (hs r (List.mem_cons_self _ _)),
      ih (fun x hx => hs x (List.mem_cons_of_mem _ hx)) f (by simpa using hf)]
    rfl

theorem escapeRunes_length (rs : List Nat) : rs.length ≤ (escapeRunes rs).length := by
  induction rs with
  | nil => simp
  | cons r rs ih =>
    have := escapeRune_length_pos r
    simp only [escapeRunes_cons, List.length_append, List.length_cons]
    omega

theorem unquote_escapeRunes (rs : List Nat) (hs : ∀ r ∈ rs, isScalar r) :
    unquote (escapeRunes rs) = some (encodeRunes rs) := by
  unfold unquote
  exact unquoteLoop_escapeRunes rs hs _ (by have := escapeRunes_length rs; omega)

end Chef

namespace Chef

/-! ## Number literals -/

theorem spanDigits_cons (c : Nat) (rest : GoString) :
    spanDigits (c :: rest) =
      if isDigit c then ((c :: (spanDigits rest).1), (spanDigits rest).2) else ([], c :: rest) :=
  rfl

theorem spanDigits_endsNumber (rest : GoString) (hrest : endsNumber rest) :
    spanDigits rest = ([], rest) := by
  cases rest with
  | nil => rfl
  | cons c t =>
    simp only [endsNumber] at hrest
    simp [spanDigits_cons, hrest.1]

theorem spanDigits_append (inp rest : GoString)
    (h : (spanDigits inp).2 ≠ [] ∨ endsNumber rest) :
    spanDigits (inp ++ rest) = ((spanDigits inp).1, (spanDigits inp).2 ++ rest) := by
  induction inp with
  | nil =>
    rcases h with h | h
    · exact absurd rfl h
    · simpa [spanDigits] using spanDigits_endsNumber rest h
  | cons c inp ih =>
    rw [spanDigits_cons] at h
    rw [List.cons_append, spanDigits_cons, spanDigits_cons]
    by_cases hc : isDigit c = true
    · simp only [hc, if_true] at h ⊢
      rw [ih h]
    · simp [hc]

theorem scanExp_append (acc inp l rest : GoString) (h : scanExp acc inp = some (l, []))
    (hrest : endsNumber rest) : scanExp acc (inp ++ rest) = some (l, rest) := by
  cases inp with
  | nil =>
    simp [scanExp] at h
    subst h
    cases rest with
    | nil => rfl
    | cons c t =>
      simp only [endsNumber] at hrest
      simp [scanExp, hrest.2.2]
  | cons e r1 =>
    by_cases he : e = 0x65 ∨ e = 0x45
    · cases r1 with
      | nil => simp [scanExp, he] at h
      | cons s r2 =>
        by_cases hs : s = 0x2B ∨ s = 0x2D
        · simp only [scanExp, he, hs, if_true] at h
          by_cases hd : (spanDigits r2).1 = []
          · simp [hd] at h
          · simp only [hd, if_false, Option.some.injEq, Prod.mk.injEq] at h
            have h3 := spanDigits_append r2 rest (Or.inr hrest)
            simp only [List.cons_append, scanExp, he, hs, if_true, h3, hd, if_false, h.1, h.2,
              List.nil_append]
        · simp only [scanExp, he, hs, if_true, if_false] at h
          by_cases hd : (spanDigits (s :: r2)).1 = []
          · simp [hd] at h
          · simp only [hd, if_false, Option.some.injEq, Prod.mk.injEq] at h
            have h3 := spanDigits_append (s :: r2) rest (Or.inr hrest)
            rw [List.cons_append] at h3
            simp only [List.cons_append, scanExp, he, hs, if_true, if_false, h3, hd, h.1, h.2,
              List.nil_append]
    · simp [scanExp, he] at h

theorem scanFrac_append (acc inp l rest : GoString) (h : scanFrac acc inp = some (l, []))
    (hrest : endsNumber rest) : scanFrac acc (inp ++ rest) = some (l, rest) := by
  cases inp with
  | nil =>
    simp [scanFrac] at h
    subst h
    cases rest with
    | nil => rfl
    | cons c t =>
      simp only [endsNumber] at hrest
      simp [scanFrac, scanExp, hrest.2.1, hrest.2.2]
  | cons d r1 =>
    by_cases hd : d = 0x2E
    · simp only [scanFrac, hd, if_true] at h
      by_cases hz : (spanDigits r1).1 = []
      · simp [hz] at h
      · simp only [hz, if_false] at h
        have h3 := spanDigits_append r1 rest (Or.inr hrest)
        have h4 := scanExp_append _ _ l rest h hrest
        simp only [List.cons_append, scanFrac, hd, if_true, h3, hz, if_false, h4]
    · simp only [scanFrac, hd, if_false] at h
      have := scanExp_append acc (d :: r1) l rest h hrest
      simpa [scanFrac, hd] using this

theorem scanInt_append (acc inp l rest : GoString) (h : scanInt acc inp = some (l, []))
    (hrest : endsNumber rest) : scanInt acc (inp ++ rest) = some (l, rest) := by
  cases inp with
  | nil => simp [scanInt] at h
  | cons d r1 =>
    by_cases hd : d = 0x30
    · simp only [scanInt, hd, if_true] at h
      have := scanFrac_append _ _ l rest h hrest
      simp only [List.cons_append, scanInt, hd, if_true, this]
    · by_cases hd2 : 0x31 ≤ d ∧ d ≤ 0x39
      · simp only [scanInt, hd, hd2, if_false, if_true, and_self] at h
        have h3 := spanDigits_append r1 rest (Or.inr hrest)
        have h4 := scanFrac_append _ _ l rest h hrest
        simp only [List.cons_append, scanInt, hd, hd2, if_false, if_true, and_self, h3, h4]
      · simp [scanInt, hd, hd2] at h

/-- A number literal is scanned the same way in front of anything that does
not continue a number. -/
theorem scanNumber_append (l rest : GoString) (h : scanNumber l = some (l, []))
    (hrest : endsNumber rest) : scanNumber (l ++ rest) = some (l, rest) := by
  cases l with
  | nil => simp [scanNumber] at h
  | cons c r =>
    by_cases hc : c = 0x2D
    · simp only [scanNumber, hc, if_true] at h
      have := scanInt_append _ _ _ rest h hrest
      simp only [List.cons_append, scanNumber, hc, if_true, this]
    · simp only [scanNumber, hc, if_false] at h
      have := scanInt_append _ _ _ rest h hrest
      simp only [List.cons_append, scanNumber, hc, if_false] at this ⊢
      exact this

/-- A number literal starts with `-` or a digit. -/
theorem scanNumber_head (l r : GoString) (h : scanNumber l = some (r, [])) :
    ∃ c t, l = c :: t ∧ (c = 0x2D ∨ isDigit c = true) := by
  cases l with
  | nil => simp [scanNumber] at h
  | cons c t =>
    refine ⟨c, t, rfl, ?_⟩
    by_cases hc : c = 0x2D
    · exact Or.inl hc
    · right
      simp only [scanNumber, hc, if_false, scanInt] at h
      by_cases h0 : c = 0x30
      · subst h0; decide
      · by_cases h1 : 0x31 ≤ c ∧ c ≤ 0x39
        · simp [isDigit]; omega
        · simp [h0, h1] at h

end Chef

namespace Chef

/-! ## The order of keys -/

theorem stringLess_irrefl (a : GoString) : stringLess a a = false := by
  induction a with
  | nil => rfl
  | cons x a ih => simp [stringLess, ih]

theorem stringLess_asymm (a b : GoString) (h : stringLess a b = true) :
    stringLess b a = false := by
  induction a generalizing b with
  | nil => cases b <;> simp [stringLess] at h ⊢
  | cons x a ih =>
    cases b with
    | nil => simp [stringLess] at h
    | cons y b =>
      simp only [stringLess, Bool.or_eq_true, decide_eq_true_eq, Bool.and_eq_true] at h
      simp only [stringLess, Bool.or_eq_false_iff, decide_eq_false_iff_not,
        Bool.and_eq_false_imp, decide_eq_true_eq]
      rcases h with h | ⟨h1, h2⟩
      · exact ⟨by omega, fun e => by omega⟩
      · exact ⟨by omega, fun _ => ih b h2⟩

/-- Two strings neither of which is less than the other are equal. -/
theorem stringLess_antisymm (a b : GoString) (h1 : stringLess a b = false)
    (h2 : stringLess b a = false) : a = b := by
  induction a generalizing b with
  | nil => cases b <;> simp [stringLess] at h1 ⊢
  | cons x a ih =>
    cases b with
    | nil => simp [stringLess] at h2
    | cons y b =>
      simp only [stringLess, Bool.or_eq_false_iff, decide_eq_false_iff_not,
        Bool.and_eq_false_imp, decide_eq_true_eq] at h1 h2
      have hxy : x = y := by omega
      subst hxy
      rw [ih b (h1.2 rfl) (h2.2 rfl)]

theorem stringLess_trans (a b c : GoString) (h1 : stringLess a b = true)
    (h2 : stringLess b c = true) : stringLess a c = true := by
  induction a generalizing b c with
  | nil =>
    cases c with
    | nil => cases b <;> simp [stringLess] at h2
    | cons z c => rfl
  | cons x a ih =>
    cases b with
    | nil => simp [stringLess] at h1
    | cons y b =>
      cases c with
      | nil => simp [stringLess] at h2
      | cons z c =>
        simp only [stringLess, Bool.or_eq_true, decide_eq_true_eq, Bool.and_eq_true] at h1 h2 ⊢
        rcases h1 with h1 | ⟨e1, h1⟩ <;> rcases h2 with h2 | ⟨e2, h2⟩
        · left; omega
        · left; omega
        · left; omega
        · right; exact ⟨by omega, ih b c h1 h2⟩

/-- Trichotomy of the string order. -/
theorem stringLess_total (a b : GoString) :
    stringLess a b = true ∨ a = b ∨ stringLess b a = true := by
  by_cases h1 : stringLess a b = true
  · exact Or.inl h1
  · by_cases h2 : stringLess b a = true
    · exact Or.inr (Or.inr h2)
    · exact Or.inr (Or.inl (stringLess_antisymm a b (by simpa using h1) (by simpa using h2)))

theorem keyLE_total {α : Type} (a b : GoString × α) : keyLE a b ∨ keyLE b a := by
  unfold keyLE
  by_cases h : stringLess b.1 a.1 = true
  · exact Or.inr (stringLess_asymm _ _ h)
  · exact Or.inl (by simpa using h)

theorem keyLE_trans {α : Type} (a b c : GoString × α) (h1 : keyLE a b) (h2 : keyLE b c) :
    keyLE a c := by
  unfold keyLE at *
  by_contra h
  have hca : stringLess c.1 a.1 = true := by simpa using h
  rcases stringLess_total a.1 b.1 with hab | hab | hab
  · have := stringLess_trans _ _ _ hca hab
    rw [this] at h2
    exact absurd h2 (by simp)
  · rw [hab] at hca
    rw [hca] at h2
    exact absurd h2 (by simp)
  · rw [hab] at h1
    exact absurd h1 (by simp)

theorem sortByKey_sorted {α : Type} (ms : List (GoString × α)) :
    (sortByKey ms).Sorted keyLE := by
  haveI : IsTotal (GoString × α) keyLE := ⟨keyLE_total⟩
  haveI : IsTrans (GoString × α) keyLE := ⟨keyLE_trans⟩
  exact List.sorted_insertionSort keyLE ms

theorem sortByKey_perm {α : Type} (ms : List (GoString × α)) : (sortByKey ms).Perm ms :=
  List.perm_insertionSort keyLE ms

theorem sortByKey_idem {α : Type} (ms : List (GoString × α)) :
    sortByKey (sortByKey ms) = sortByKey ms :=
  List.Sorted.insertionSort_eq (sortByKey_sorted ms)

theorem orderedInsert_map {α β : Type} (f : α → β) (a : GoString × α)
    (l : List (GoString × α)) :
    (l.orderedInsert keyLE a).map (fun e => (e.1, f e.2)) =
      (l.map (fun e => (e.1, f e.2))).orderedInsert keyLE (a.1, f a.2) := by
  induction l with
  | nil => rfl
  | cons b l ih =>
    simp only [List.orderedInsert, List.map_cons]
    by_cases h : keyLE a b
    · have h2 : keyLE (a.1, f a.2) (b.1, f b.2) := h
      simp [h, h2]
    · have h2 : ¬ keyLE (a.1, f a.2) (b.1, f b.2) := h
      simp [h, h2, ih]

/-- Sorting by key commutes with a change of the values. -/
theorem sortByKey_map {α β : Type} (f : α → β) (l : List (GoString × α)) :
    (sortByKey l).map (fun e => (e.1, f e.2)) = sortByKey (l.map (fun e => (e.1, f e.2))) := by
  induction l with
  | nil => rfl
  | cons a l ih =>
    simp only [sortByKey, List.insertionSort, List.map_cons] at ih ⊢
    rw [orderedInsert_map, ih]

theorem keysOf_sortByKey_nodup {α : Type} (ms : List (GoString × α))
    (h : (keysOf ms).Nodup) : (keysOf (sortByKey ms)).Nodup := by
  unfold keysOf at *
  exact ((sortByKey_perm ms).map Prod.fst).nodup_iff.2 h

/-- A list sorted by key whose keys are all different is strictly ascending. -/
theorem sorted_strict {α : Type} (ms : List (GoString × α)) (hs : ms.Sorted keyLE)
    (hn : (keysOf ms).Nodup) :
    ms.Pairwise (fun a b => stringLess a.1 b.1 = true) := by
  unfold keysOf at hn
  rw [List.Nodup, List.pairwise_map] at hn
  have := List.Pairwise.and hs hn
  refine this.imp ?_
  intro a b ⟨h1, h2⟩
  unfold keyLE at h1
  rcases stringLess_total a.1 b.1 with h | h | h
  · exact h
  · exact absurd h h2
  · rw [h] at h1; exact absurd h1 (by simp)

/-- Two maps with the same entries in a different order are sorted to the
same list. -/
theorem sortByKey_eq_of_perm {α : Type} (l1 l2 : List (GoString × α)) (hp : l1.Perm l2)
    (hn : (keysOf l1).Nodup) : sortByKey l1 = sortByKey l2 := by
  have hn2 : (keysOf l2).Nodup := by
    unfold keysOf at *
    exact (hp.map Prod.fst).nodup_iff.1 hn
  have s1 := sorted_strict _ (sortByKey_sorted l1) (keysOf_sortByKey_nodup l1 hn)
  have s2 := sorted_strict _ (sortByKey_sorted l2) (keysOf_sortByKey_nodup l2 hn2)
  have hperm : (sortByKey l1).Perm (sortByKey l2) :=
    ((sortByKey_perm l1).trans hp).trans (sortByKey_perm l2).symm
  haveI : IsAntisymm (GoString × α) (fun a b => stringLess a.1 b.1 = true) :=
    ⟨fun a b h1 h2 => by
      have := stringLess_asymm _ _ h1
      rw [this] at h2
      exact absurd h2 (by simp)⟩
  exact List.eq_of_perm_of_sorted hperm s1 s2

end Chef

namespace Chef

/-! ## Maps built by the decoder -/

theorem mapSet_append_new {α : Type} (m : List (GoString × α)) (k : GoString) (v : α)
    (h : k ∉ keysOf m) : mapSet m k v = m ++ [(k, v)] := by
  induction m with
  | nil => rfl
  | cons e t ih =>
    simp only [keysOf, List.map_cons, List.mem_cons, not_or] at h
    have h1 : ¬ e.1 = k := fun x => h.1 x.symm
    simp only [mapSet, h1, if_false, List.cons_append]
    rw [ih (by simpa [keysOf] using h.2)]

theorem foldl_mapSet_nodup {α : Type} (l acc : List (GoString × α))
    (h : (keysOf (acc ++ l)).Nodup) :
    l.foldl (fun m e => mapSet m e.1 e.2) acc = acc ++ l := by
  induction l generalizing acc with
  | nil => simp
  | cons e l ih =>
    have hk : e.1 ∉ keysOf acc := by
      simp only [keysOf, List.map_append, List.map_cons] at h
      have := (List.nodup_append.1 h).2.2
      intro hm
      exact this hm (List.mem_cons_self _ _)
    simp only [List.foldl_cons]
    rw [mapSet_append_new acc e.1 e.2 hk]
    have : acc ++ [(e.1, e.2)] ++ l = acc ++ e :: l := by simp
    rw [ih (acc ++ [(e.1, e.2)]) (by rw [this]; exact h), this]

/-- Members with keys that are all different become the map with the same
entries in the same order. -/
theorem buildMap_nodup {α : Type} (l : List (GoString × α)) (h : (keysOf l).Nodup) :
    buildMap l = l := by
  unfold buildMap
  simpa using foldl_mapSet_nodup l [] (by simpa using h)

theorem keysOf_mapSet {α : Type} (m : List (GoString × α)) (k : GoString) (v : α) :
    keysOf (mapSet m k v) = if k ∈ keysOf m then keysOf m else keysOf m ++ [k] := by
  induction m with
  | nil => simp [mapSet, keysOf]
  | cons e t ih =>
    by_cases h : e.1 = k
    · simp [mapSet, h, keysOf]
    · have h' : ¬ k = e.1 := fun x => h x.symm
      simp only [mapSet, h, if_false]
      simp only [keysOf, List.map_cons, List.mem_cons, h', false_or] at ih ⊢
      rw [ih]
      split_ifs <;> simp

theorem mapSet_nodup {α : Type} (m : List (GoString × α)) (k : GoString) (v : α)
    (h : (keysOf m).Nodup) : (keysOf (mapSet m k v)).Nodup := by
  rw [keysOf_mapSet]
  split_ifs with hk
  · exact h
  · exact List.Nodup.append h (List.nodup_singleton k) (by
      intro a ha hb
      simp at hb
      subst hb
      exact hk ha)

theorem foldl_mapSet_keys_nodup {α : Type} (l acc : List (GoString × α))
    (h : (keysOf acc).Nodup) :
    (keysOf (l.foldl (fun m e => mapSet m e.1 e.2) acc)).Nodup := by
  induction l generalizing acc with
  | nil => simpa using h
  | cons e l ih => exact ih _ (mapSet_nodup acc e.1 e.2 h)

/-- The keys of a map the decoder builds are all different. -/
theorem buildMap_keys_nodup {α : Type} (l : List (GoString × α)) :
    (keysOf (buildMap l)).Nodup :=
  foldl_mapSet_keys_nodup l [] (by simp [keysOf])

/-! ## Joined texts -/

theorem joinWith_cons_cons (sep x y : GoString) (rest : List GoString) :
    joinWith sep (x :: y :: rest) = x ++ sep ++ joinWith sep (y :: rest) := rfl

theorem joinWith_length (sep : GoString) (l : List GoString)
    (h : ∀ a ∈ l, 1 ≤ a.length) : l.length ≤ (joinWith sep l).length := by
  induction l with
  | nil => simp [joinWith]
  | cons x l ih =>
    cases l with
    | nil =>
      have := h x (List.mem_cons_self _ _)
      simpa [joinWith] using this
    | cons y l =>
      have h1 := h x (List.mem_cons_self _ _)
      have h2 := ih (fun a ha => h a (List.mem_cons_of_mem _ ha))
      simp only [joinWith_cons_cons, List.length_append, List.length_cons] at h2 ⊢
      omega

theorem joinWith_mem_length (sep : GoString) (l : List GoString) (a : GoString) (h : a ∈ l) :
    a.length ≤ (joinWith sep l).length := by
  induction l with
  | nil => cases h
  | cons x l ih =>
    cases l with
    | nil =>
      simp at h
      subst h
      simp [joinWith]
    | cons y l =>
      simp only [joinWith_cons_cons, List.length_append]
      rcases List.mem_cons.1 h with h | h
      · subst h; omega
      · have := ih h
        omega

theorem canonicalList_eq_map {F : Type} (xs : List (JVal F)) :
    canonicalList xs = xs.map canonical := by
  induction xs with
  | nil => simp [canonicalList]
  | cons x xs ih => simp [canonicalList, ih]

theorem canonicalEntries_eq_map {F : Type} (ms : List (GoString × JVal F)) :
    canonicalEntries ms = ms.map (fun e => (e.1, canonical e.2)) := by
  induction ms with
  | nil => simp [canonicalEntries]
  | cons x xs ih => simp [canonicalEntries, ih]

theorem wellFormedList_iff {F : Type} (xs : List (JVal F)) :
    wellFormedList xs ↔ ∀ x ∈ xs, wellFormed x := by
  induction xs with
  | nil => simp [wellFormedList]
  | cons x xs ih => simp [wellFormedList, ih]

theorem wellFormedEntries_iff {F : Type} (ms : List (GoString × JVal F)) :
    wellFormedEntries ms ↔ ∀ e ∈ ms, ValidUTF8 e.1 ∧ wellFormed e.2 := by
  induction ms with
  | nil => simp [wellFormedEntries]
  | cons x xs ih =>
    simp only [wellFormedEntries, ih, List.mem_cons, forall_eq_or_imp]
    tauto

theorem supportedList_iff {F : Type} (fc : FloatCodec F) (xs : List (JVal F)) :
    supportedList fc xs = true ↔ ∀ x ∈ xs, supported fc x = true := by
  induction xs with
  | nil => simp [supportedList]
  | cons x xs ih => simp [supportedList, ih]

theorem supportedEntries_iff {F : Type} (fc : FloatCodec F) (ms : List (GoString × JVal F)) :
    supportedEntries fc ms = true ↔ ∀ e ∈ ms, supported fc e.2 = true := by
  induction ms with
  | nil => simp [supportedEntries]
  | cons x xs ih => simp [supportedEntries, ih]

theorem supported_arr {F : Type} (fc : FloatCodec F) (xs : List (JVal F)) :
    supported fc (.arr xs) = true ↔ ∀ x ∈ xs, supported fc x = true := by
  rw [supported, supportedList_iff]

theorem supported_obj {F : Type} (fc : FloatCodec F) (ms : List (GoString × JVal F)) :
    supported fc (.obj ms) = true ↔ ∀ e ∈ ms, supported fc e.2 = true := by
  rw [supported, supportedEntries_iff]

theorem supported_num {F : Type} (fc : FloatCodec F) (f : F) :
    supported fc (.num f) = fc.finite f := by
  rw [supported]

end Chef

namespace Chef

/-! ## Decimal digits -/

theorem digitsValue_nil : digitsValue [] = 0 := rfl

theorem digitsValue_append_singleton (l : GoString) (c : Nat) :
    digitsValue (l ++ [c]) = digitsValue l * 10 + (c - 0x30) := by
  unfold digitsValue
  rw [List.foldl_append]
  rfl

theorem digitsValue_foldl (l : GoString) (a : Nat) :
    l.foldl (fun a c => a * 10 + (c - 0x30)) a = a * 10 ^ l.length + digitsValue l := by
  induction l generalizing a with
  | nil => simp [digitsValue]
  | cons c l ih =>
    unfold digitsValue
    simp only [List.foldl_cons, List.length_cons]
    rw [ih, ih (0 * 10 + (c - 0x30))]
    ring

theorem digitsValue_cons (c : Nat) (l : GoString) :
    digitsValue (c :: l) = (c - 0x30) * 10 ^ l.length + digitsValue l := by
  unfold digitsValue
  simp only [List.foldl_cons]
  rw [digitsValue_foldl]
  simp [digitsValue]

theorem digitsValue_append (l1 l2 : GoString) :
    digitsValue (l1 ++ l2) = digitsValue l1 * 10 ^ l2.length + digitsValue l2 := by
  unfold digitsValue
  rw [List.foldl_append, digitsValue_foldl]
  rfl

theorem digitsValue_replicate_zero (n : Nat) : digitsValue (List.replicate n 0x30) = 0 := by
  induction n with
  | zero => rfl
  | succ n ih =>
    rw [List.replicate_succ, digitsValue_cons, ih]
    simp

theorem digitsValue_zeros_append (n : Nat) (l : GoString) :
    digitsValue (List.replicate n 0x30 ++ l) = digitsValue l := by
  rw [digitsValue_append, digitsValue_replicate_zero]
  simp

theorem digitsValue_append_zeros (l : GoString) (n : Nat) :
    digitsValue (l ++ List.replicate n 0x30) = digitsValue l * 10 ^ n := by
  rw [digitsValue_append, digitsValue_replicate_zero]
  simp

theorem digitsValue_lt (l : GoString) (h : ∀ c ∈ l, isDigit c = true) :
    digitsValue l < 10 ^ l.length := by
  induction l using List.reverseRecOn with
  | nil => simp [digitsValue]
  | append_singleton l c ih =>
    rw [digitsValue_append_singleton, List.length_append, List.length_singleton, Nat.pow_succ]
    have h1 := ih (fun x hx => h x (List.mem_append_left _ hx))
    have h2 := h c (List.mem_append_right _ (List.mem_singleton_self c))
    simp only [isDigit, decide_eq_true_eq] at h2
    omega

/-- The digits written by `digitsAcc`: all decimal digits, the first not `0`
for a number that is not zero, standing for the number. -/
theorem digitsAcc_spec (fuel : Nat) : ∀ (n : Nat) (acc : GoString), n < fuel →
    ∃ ds, digitsAcc fuel n acc = ds ++ acc ∧ (∀ c ∈ ds, isDigit c = true) ∧
      digitsValue ds = n ∧ ds ≠ [] ∧ (0 < n → ds.head? ≠ some 0x30) ∧
      (0 < n → ds.length = decimalLength n n) ∧ digitsAcc fuel n [] = ds := by
  induction fuel with
  | zero => intro n acc h; omega
  | succ fuel ih =>
    intro n acc h
    by_cases h10 : n < 10
    · refine ⟨[0x30 + n], ?_, ?_, ?_, ?_, ?_, ?_, ?_⟩
      · simp only [digitsAcc, h10, if_true]; rfl
      · intro c hc
        simp only [List.mem_singleton] at hc
        subst hc
        simp only [isDigit, decide_eq_true_eq]
        omega
      · simp [digitsValue]
      · simp
      · intro hn
        simp only [List.head?_cons, ne_eq, Option.some.injEq]
        omega
      · intro hn
        obtain ⟨m, rfl⟩ : ∃ m, n = m + 1 := ⟨n - 1, by omega⟩
        have hz : (m + 1) / 10 = 0 := by omega
        simp only [decimalLength, hz, List.length_singleton]
        cases m <;> simp [decimalLength]
      · simp only [digitsAcc, h10, if_true]
    · have hlt : n / 10 < fuel := by omega
      obtain ⟨ds, h1, h2, h3, h4, h5, h6, h7⟩ := ih (n / 10) ((0x30 + n % 10) :: acc) hlt
      obtain ⟨ds2, g1, _, _, _, _, _, g7⟩ := ih (n / 10) [0x30 + n % 10] hlt
      have hds : ds2 = ds := by rw [← g7, h7]
      subst hds
      have hpos : 0 < n / 10 := by omega
      refine ⟨ds2 ++ [0x30 + n % 10], ?_, ?_, ?_, ?_, ?_, ?_, ?_⟩
      · simp only [digitsAcc, h10, if_false]
        rw [h1]
        simp
      · intro c hc
        rcases List.mem_append.1 hc with hc | hc
        · exact h2 c hc
        · simp only [List.mem_singleton] at hc
          subst hc
          simp only [isDigit, decide_eq_true_eq]
          omega
      · rw [digitsValue_append_singleton, h3]
        omega
      · simp
      · intro _
        cases ds2 with
        | nil => exact absurd rfl h4
        | cons d t =>
          have := h5 hpos
          simpa using this
      · intro hn
        obtain ⟨m, rfl⟩ : ∃ m, n = m + 1 := ⟨n - 1, by omega⟩
        have hd : decimalLength (m + 1) (m + 1) = decimalLength m ((m + 1) / 10) + 1 := by
          simp [decimalLength]
        rw [hd, List.length_append, List.length_singleton, h6 hpos]
        congr 1
        -- the bound of decimalLength is not reached
        have key : ∀ f g x, x ≤ f → x ≤ g → decimalLength f x = decimalLength g x := by
          intro f
          induction f with
          | zero =>
            intro g x hf _
            have : x = 0 := by omega
            subst this
            cases g <;> simp [decimalLength]
          | succ f ihf =>
            intro g x hf hg
            cases g with
            | zero =>
              have : x = 0 := by omega
              subst this
              simp [decimalLength]
            | succ g =>
              by_cases hx : x = 0
              · subst hx; simp [decimalLength]
              · simp only [decimalLength, hx, if_false]
                rw [ihf g (x / 10) (by omega) (by omega)]
        exact key _ _ _ (Nat.le_refl _) (by omega)
      · simp only [digitsAcc, h10, if_false]
        rw [g1]

theorem decimalDigits_spec (n : Nat) :
    (∀ c ∈ decimalDigits n, isDigit c = true) ∧ digitsValue (decimalDigits n) = n ∧
      decimalDigits n ≠ [] ∧ (0 < n → (decimalDigits n).head? ≠ some 0x30) ∧
      (0 < n → (decimalDigits n).length = decimalLength n n) := by
  obtain ⟨ds, h1, h2, h3, h4, h5, h6, _⟩ := digitsAcc_spec (n + 1) n [] (Nat.lt_succ_self n)
  have : decimalDigits n = ds := by
    unfold decimalDigits
    rw [h1, List.append_nil]
  rw [this]
  exact ⟨h2, h3, h4, h5, h6⟩

/-! ## Trailing zeros -/

theorem stripZeros_append_zero (l : GoString) : stripZeros (l ++ [0x30]) = stripZeros l := by
  unfold stripZeros
  rw [List.reverse_append]
  simp [List.dropWhile]

theorem stripZeros_append_nonzero (l : GoString) (c : Nat) (h : c ≠ 0x30) :
    stripZeros (l ++ [c]) = l ++ [c] := by
  unfold stripZeros
  rw [List.reverse_append]
  have hb : (c == 0x30) = false := by simpa using h
  simp [List.dropWhile, hb]

/-- A text is the text without its trailing zeros, then zeros. -/
theorem stripZeros_spec (l : GoString) :
    ∃ z, l = stripZeros l ++ List.replicate z 0x30 ∧
      (∀ d t, l = d :: t → d ≠ 0x30 → ∃ t2, stripZeros l = d :: t2) := by
  induction l using List.reverseRecOn with
  | nil => exact ⟨0, by simp [stripZeros], fun d t h => by cases h⟩
  | append_singleton l c ih =>
    by_cases hc : c = 0x30
    · subst hc
      obtain ⟨z, h1, h2⟩ := ih
      refine ⟨z + 1, ?_, ?_⟩
      · rw [stripZeros_append_zero]
        conv => lhs; rw [h1]
        rw [List.append_assoc]
        congr 1
        rw [List.replicate_succ']
      · intro d t hdt hd
        rw [stripZeros_append_zero]
        cases l with
        | nil =>
          simp only [List.nil_append, List.cons.injEq] at hdt
          exact absurd hdt.1.symm hd
        | cons d2 t2 =>
          simp only [List.cons_append, List.cons.injEq] at hdt
          obtain ⟨rfl, _⟩ := hdt
          exact h2 d2 t2 rfl hd
    · refine ⟨0, by rw [stripZeros_append_nonzero l c hc]; simp, ?_⟩
      intro d t hdt _
      rw [stripZeros_append_nonzero l c hc, hdt]
      exact ⟨t, rfl⟩

theorem stripZeros_mem (l : GoString) : ∀ c ∈ stripZeros l, c ∈ l := by
  obtain ⟨z, h, _⟩ := stripZeros_spec l
  intro c hc
  rw [h]
  exact List.mem_append_left _ hc

end Chef

namespace Chef

/-! ## Rounding to the nearest `float64` -/

theorem bitLength_spec (fuel : Nat) : ∀ n, 0 < n → n ≤ fuel →
    2 ^ (bitLength fuel n - 1) ≤ n ∧ n < 2 ^ bitLength fuel n ∧ 0 < bitLength fuel n := by
  induction fuel with
  | zero => intro n h1 h2; omega
  | succ fuel ih =>
    intro n h1 h2
    have hn : ¬ n = 0 := by omega
    simp only [bitLength, hn, if_false, Nat.add_sub_cancel]
    by_cases h : n / 2 = 0
    · have hn1 : n = 1 := by omega
      subst hn1
      cases fuel <;> simp [bitLength]
    · obtain ⟨a1, a2, a3⟩ := ih (n / 2) (by omega) (by omega)
      obtain ⟨k, hk⟩ : ∃ k, bitLength fuel (n / 2) = k + 1 := ⟨bitLength fuel (n / 2) - 1, by omega⟩
      rw [hk] at a1 a2 ⊢
      simp only [Nat.add_sub_cancel] at a1
      refine ⟨?_, ?_, Nat.succ_pos _⟩
      · rw [Nat.pow_succ]; omega
      · rw [Nat.pow_succ]; omega

theorem roundExp_eq (t expo : Nat)
    (h1 : 4503599627370496 * 2 ^ expo ≤ t ∨ expo = 0)
    (h2 : t < 9007199254740992 * 2 ^ expo) :
    (if t < 9007199254740992 then 0 else bitLength t t - 53) = expo := by
  by_cases ht : t < 9007199254740992
  · rw [if_pos ht]
    rcases h1 with h1 | h1
    · cases expo with
      | zero => rfl
      | succ e =>
        exfalso
        have : 2 ^ (e + 1) = 2 * 2 ^ e := by rw [Nat.pow_succ, Nat.mul_comm]
        have hp : 0 < 2 ^ e := Nat.two_pow_pos e
        rw [this] at h1
        nlinarith
    · exact h1.symm
  · rw [if_neg ht]
    have hne : t ≠ 0 := by omega
    have h52 : (4503599627370496 : Nat) = 2 ^ 52 := by norm_num
    have h53 : (9007199254740992 : Nat) = 2 ^ 53 := by norm_num
    have hlow : 2 ^ (52 + expo) ≤ t := by
      rcases h1 with h1 | h1
      · rw [Nat.pow_add, ← h52]; exact h1
      · subst h1; simp at h2; omega
    have hhigh : t < 2 ^ (53 + expo) := by
      rw [Nat.pow_add, ← h53]; exact h2
    obtain ⟨b1, b2, b3⟩ := bitLength_spec t t (by omega) (Nat.le_refl _)
    have a1 : 52 + expo < bitLength t t :=
      (Nat.pow_lt_pow_iff_right (by decide : 1 < 2)).1 (Nat.lt_of_le_of_lt hlow b2)
    have a2 : bitLength t t - 1 < 53 + expo :=
      (Nat.pow_lt_pow_iff_right (by decide : 1 < 2)).1 (Nat.lt_of_le_of_lt b1 hhigh)
    omega

/-- One rounding step: a quotient between the halfway points around `m`
rounds to `m`, the halfway points included when `m` is even. -/
theorem roundStep (a den m : Nat) (hden : 0 < den) (hm : 0 < m)
    (hlo : (2 * m - 1) * den < 2 * a ∨ ((2 * m - 1) * den = 2 * a ∧ m % 2 = 0))
    (hhi : 2 * a < (2 * m + 1) * den ∨ (2 * a = (2 * m + 1) * den ∧ m % 2 = 0)) :
    (if den < 2 * (a % den) ∨ (2 * (a % den) = den ∧ (a / den) % 2 = 1) then a / den + 1
      else a / den) = m := by
  have hdm := Nat.div_add_mod a den
  have hr := Nat.mod_lt a hden
  generalize a / den = q at hdm ⊢
  generalize a % den = r at hdm hr ⊢
  have h2m : (2 * m - 1) * den + den = 2 * m * den := by
    have : 2 * m - 1 + 1 = 2 * m := by omega
    rw [← Nat.succ_mul, Nat.succ_eq_add_one, this]
  have hlo2 : 2 * m * den ≤ 2 * a + den := by
    rcases hlo with h | h <;> omega
  have hhi2 : 2 * a ≤ 2 * m * den + den := by
    have : (2 * m + 1) * den = 2 * m * den + den := by rw [Nat.add_mul, Nat.one_mul]
    rcases hhi with h | h <;> omega
  -- q is m - 1 or m
  have hq1 : m ≤ q + 1 := by
    by_contra hc
    have : q + 2 ≤ m := by omega
    have h3 : (q + 2) * den ≤ m * den := Nat.mul_le_mul_right _ this
    have h4 : (q + 2) * den = den * q + 2 * den := by ring
    have h5 : 2 * m * den = 2 * (m * den) := by ring
    omega
  have hq2 : q ≤ m := by
    by_contra hc
    have : m + 1 ≤ q := by omega
    have h3 : (m + 1) * den ≤ q * den := Nat.mul_le_mul_right _ this
    have h4 : (m + 1) * den = m * den + den := by ring
    have h5 : 2 * m * den = 2 * (m * den) := by ring
    have h6 : q * den = den * q := Nat.mul_comm _ _
    omega
  have h5 : 2 * m * den = 2 * (m * den) := by ring
  by_cases hqm : q = m
  · subst hqm
    have h6 : q * den = den * q := Nat.mul_comm _ _
    have hnot : ¬ (den < 2 * r ∨ (2 * r = den ∧ q % 2 = 1)) := by
      rintro (h | ⟨h, hodd⟩)
      · have : (2 * q + 1) * den = 2 * q * den + den := by rw [Nat.add_mul, Nat.one_mul]
        rcases hhi with h7 | h7 <;> omega
      · have : (2 * q + 1) * den = 2 * q * den + den := by rw [Nat.add_mul, Nat.one_mul]
        rcases hhi with h7 | h7 <;> omega
    rw [if_neg hnot]
  · have hq : q + 1 = m := by omega
    subst hq
    have h6 : (q + 1) * den = den * q + den := by ring
    have hyes : den < 2 * r ∨ (2 * r = den ∧ q % 2 = 1) := by
      rcases hlo with h7 | h7
      · left; omega
      · by_cases h8 : den < 2 * r
        · left; exact h8
        · right; omega
    rw [if_pos hyes]

end Chef

namespace Chef

theorem roundGrid_unfold (a b : Nat) :
    roundGrid a b =
      (if (if b * 2 ^ (if a / b < 9007199254740992 then 0 else bitLength (a / b) (a / b) - 53)
            < 2 * (a % (b * 2 ^ (if a / b < 9007199254740992 then 0 else bitLength (a / b) (a / b) - 53)))
            ∨ (2 * (a % (b * 2 ^ (if a / b < 9007199254740992 then 0 else bitLength (a / b) (a / b) - 53)))
                = b * 2 ^ (if a / b < 9007199254740992 then 0 else bitLength (a / b) (a / b) - 53)
              ∧ (a / (b * 2 ^ (if a / b < 9007199254740992 then 0 else bitLength (a / b) (a / b) - 53)))
                % 2 = 1)
          then a / (b * 2 ^ (if a / b < 9007199254740992 then 0 else bitLength (a / b) (a / b) - 53)) + 1
          else a / (b * 2 ^ (if a / b < 9007199254740992 then 0 else bitLength (a / b) (a / b) - 53)))
          = 9007199254740992
        then (4503599627370496,
          (if a / b < 9007199254740992 then 0 else bitLength (a / b) (a / b) - 53) + 1)
        else
          ((if b * 2 ^ (if a / b < 9007199254740992 then 0 else bitLength (a / b) (a / b) - 53)
            < 2 * (a % (b * 2 ^ (if a / b < 9007199254740992 then 0 else bitLength (a / b) (a / b) - 53)))
            ∨ (2 * (a % (b * 2 ^ (if a / b < 9007199254740992 then 0 else bitLength (a / b) (a / b) - 53)))
                = b * 2 ^ (if a / b < 9007199254740992 then 0 else bitLength (a / b) (a / b) - 53)
              ∧ (a / (b * 2 ^ (if a / b < 9007199254740992 then 0 else bitLength (a / b) (a / b) - 53)))
                % 2 = 1)
          then a / (b * 2 ^ (if a / b < 9007199254740992 then 0 else bitLength (a / b) (a / b) - 53)) + 1
          else a / (b * 2 ^ (if a / b < 9007199254740992 then 0 else bitLength (a / b) (a / b) - 53))),
          (if a / b < 9007199254740992 then 0 else bitLength (a / b) (a / b) - 53))) := rfl

/-- When the exponent of the quotient is `ex` and the quotient lies between the
halfway points around `m` at that exponent, `roundGrid` gives `m`, carried to
the next exponent when `m` is `2 ^ 53`. -/
theorem roundGrid_of_step (a b ex m : Nat) (hb : 0 < b) (hm : 0 < m)
    (h1 : 4503599627370496 * 2 ^ ex ≤ a / b ∨ ex = 0)
    (h2 : a / b < 9007199254740992 * 2 ^ ex)
    (hlo : (2 * m - 1) * (b * 2 ^ ex) < 2 * a ∨
      ((2 * m - 1) * (b * 2 ^ ex) = 2 * a ∧ m % 2 = 0))
    (hhi : 2 * a < (2 * m + 1) * (b * 2 ^ ex) ∨
      (2 * a = (2 * m + 1) * (b * 2 ^ ex) ∧ m % 2 = 0)) :
    roundGrid a b =
      if m = 9007199254740992 then (4503599627370496, ex + 1) else (m, ex) := by
  have hden : 0 < b * 2 ^ ex := Nat.mul_pos hb (Nat.two_pow_pos ex)
  rw [roundGrid_unfold, roundExp_eq (a / b) ex h1 h2,
    roundStep a (b * 2 ^ ex) m hden hm hlo hhi]

/-- A quotient between the halfway points around the `float64` with
significand `mant` and exponent `expo` rounds to it. -/
theorem roundGrid_spec (a b mant expo : Nat) (hb : 0 < b) (hm0 : 0 < mant)
    (hm : mant < 9007199254740992) (hc : 4503599627370496 ≤ mant ∨ expo = 0)
    (hlo : (if mant = 4503599627370496 ∧ 0 < expo then 2 * mant * 2 ^ expo - 2 ^ (expo - 1)
        else 2 * mant * 2 ^ expo - 2 ^ expo) * b < 2 * a ∨
      ((if mant = 4503599627370496 ∧ 0 < expo then 2 * mant * 2 ^ expo - 2 ^ (expo - 1)
        else 2 * mant * 2 ^ expo - 2 ^ expo) * b = 2 * a ∧ mant % 2 = 0))
    (hhi : 2 * a < (2 * mant * 2 ^ expo + 2 ^ expo) * b ∨
      (2 * a = (2 * mant * 2 ^ expo + 2 ^ expo) * b ∧ mant % 2 = 0)) :
    roundGrid a b = (mant, expo) := by
  have hg : 0 < 2 ^ expo := Nat.two_pow_pos expo
  have hU : (2 * mant * 2 ^ expo + 2 ^ expo) * b = (2 * mant + 1) * (b * 2 ^ expo) := by ring
  rw [hU] at hhi
  have hhi2 : 2 * a ≤ (2 * mant + 1) * (b * 2 ^ expo) := by
    rcases hhi with h | h
    · exact Nat.le_of_lt h
    · exact Nat.le_of_eq h.1
  have hgb : 0 < b * 2 ^ expo := Nat.mul_pos hb hg
  -- the quotient is below the next binade
  have h2 : a / b < 9007199254740992 * 2 ^ expo := by
    rw [Nat.div_lt_iff_lt_mul hb]
    have e1 : (2 * mant + 1) * (b * 2 ^ expo) ≤ 18014398509481983 * (b * 2 ^ expo) :=
      Nat.mul_le_mul_right _ (by omega)
    have e2 : 9007199254740992 * 2 ^ expo * b = 9007199254740992 * (b * 2 ^ expo) := by ring
    rw [e2]
    omega
  by_cases hbd : mant = 4503599627370496 ∧ 0 < expo
  · -- just above a power of two
    obtain ⟨hmant, hexpo⟩ := hbd
    rw [if_pos ⟨hmant, hexpo⟩] at hlo
    obtain ⟨e, rfl⟩ : ∃ e, expo = e + 1 := ⟨expo - 1, by omega⟩
    simp only [Nat.add_sub_cancel] at hlo
    have hp : 2 ^ (e + 1) = 2 * 2 ^ e := by rw [Nat.pow_succ, Nat.mul_comm]
    have hge : 0 < 2 ^ e := Nat.two_pow_pos e
    subst hmant
    have hL : (2 * 4503599627370496 * 2 ^ (e + 1) - 2 ^ e) * b
        = 18014398509481983 * (b * 2 ^ e) := by
      have : 2 * 4503599627370496 * 2 ^ (e + 1) - 2 ^ e = 18014398509481983 * 2 ^ e := by
        rw [hp]; omega
      rw [this]; ring
    rw [hL] at hlo
    have hlo2 : 18014398509481983 * (b * 2 ^ e) ≤ 2 * a := by
      rcases hlo with h | h
      · exact Nat.le_of_lt h
      · exact Nat.le_of_eq h.1
    have hbe : 0 < b * 2 ^ e := Nat.mul_pos hb hge
    by_cases hside : 4503599627370496 * 2 ^ (e + 1) * b ≤ a
    · -- at or above the float: exponent e + 1
      have h1 : 4503599627370496 * 2 ^ (e + 1) ≤ a / b := (Nat.le_div_iff_mul_le hb).2 hside
      have hstep := roundGrid_of_step a b (e + 1) 4503599627370496 hb (by decide) (Or.inl h1) h2
        (Or.inl (by
          have e1 : (2 * 4503599627370496 - 1) * (b * 2 ^ (e + 1))
              = 9007199254740991 * (b * 2 ^ (e + 1)) := by norm_num
          have e2 : 4503599627370496 * 2 ^ (e + 1) * b
              = 4503599627370496 * (b * 2 ^ (e + 1)) := by ring
          rw [e1]
          rw [e2] at hside
          omega))
        hhi
      rw [hstep]
      simp
    · -- below the float: exponent e, carried
      have hside2 : a < 4503599627370496 * 2 ^ (e + 1) * b := Nat.lt_of_not_le hside
      have e2 : 4503599627370496 * 2 ^ (e + 1) * b = 9007199254740992 * (b * 2 ^ e) := by
        rw [hp]; ring
      rw [e2] at hside2
      have h1 : 4503599627370496 * 2 ^ e ≤ a / b := by
        rw [Nat.le_div_iff_mul_le hb]
        have : 4503599627370496 * 2 ^ e * b = 4503599627370496 * (b * 2 ^ e) := by ring
        rw [this]
        omega
      have h2b : a / b < 9007199254740992 * 2 ^ e := by
        rw [Nat.div_lt_iff_lt_mul hb]
        have : 9007199254740992 * 2 ^ e * b = 9007199254740992 * (b * 2 ^ e) := by ring
        rw [this]
        exact hside2
      have hstep := roundGrid_of_step a b e 9007199254740992 hb (by decide) (Or.inl h1) h2b
        (by
          have e1 : (2 * 9007199254740992 - 1) * (b * 2 ^ e)
              = 18014398509481983 * (b * 2 ^ e) := by norm_num
          rw [e1]
          rcases hlo with h | h
          · exact Or.inl h
          · exact Or.inr ⟨h.1, by decide⟩)
        (Or.inl (by
          have e1 : (2 * 9007199254740992 + 1) * (b * 2 ^ e)
              = 18014398509481985 * (b * 2 ^ e) := by norm_num
          rw [e1]
          omega))
      rw [hstep]
      simp
  · rw [if_neg hbd] at hlo
    have hL : (2 * mant * 2 ^ expo - 2 ^ expo) * b = (2 * mant - 1) * (b * 2 ^ expo) := by
      have : 2 * mant * 2 ^ expo - 2 ^ expo = (2 * mant - 1) * 2 ^ expo := by
        rw [Nat.sub_mul, Nat.one_mul]
      rw [this]; ring
    rw [hL] at hlo
    have hlo2 : (2 * mant - 1) * (b * 2 ^ expo) ≤ 2 * a := by
      rcases hlo with h | h
      · exact Nat.le_of_lt h
      · exact Nat.le_of_eq h.1
    have h1 : 4503599627370496 * 2 ^ expo ≤ a / b ∨ expo = 0 := by
      by_cases h0 : expo = 0
      · exact Or.inr h0
      · left
        have hmant : 4503599627370497 ≤ mant := by
          rcases hc with h | h
          · by_contra hcon
            exact hbd ⟨by omega, by omega⟩
          · exact absurd h h0
        rw [Nat.le_div_iff_mul_le hb]
        have e1 : 9007199254740993 * (b * 2 ^ expo) ≤ (2 * mant - 1) * (b * 2 ^ expo) :=
          Nat.mul_le_mul_right _ (by omega)
        have e2 : 4503599627370496 * 2 ^ expo * b = 4503599627370496 * (b * 2 ^ expo) := by ring
        rw [e2]
        omega
    have hstep := roundGrid_of_step a b expo mant hb hm0 h1 h2 hlo hhi
    rw [hstep, if_neg (by omega)]

end Chef

namespace Chef

/-! ## The shortest digits lie between the halfway points -/

theorem roundDown_ok (v l u p : Nat) (incl : Bool) (hl : 0 < l) (hvu : v < u)
    (h : if incl = true then l ≤ v / p * p else l < v / p * p) :
    0 < v / p ∧ (l < v / p * p ∨ (l = v / p * p ∧ incl = true)) ∧
      (v / p * p < u ∨ (v / p * p = u ∧ incl = true)) := by
  have hdiv : v / p * p ≤ v := Nat.div_mul_le_self v p
  have hle : l ≤ v / p * p := by
    cases incl <;> simp at h <;> omega
  refine ⟨?_, ?_, Or.inl (by omega)⟩
  · by_contra hc
    have : v / p = 0 := Nat.eq_zero_of_not_pos hc
    rw [this, Nat.zero_mul] at hle
    omega
  · cases incl
    · simp at h; exact Or.inl h
    · simp at h
      rcases Nat.lt_or_eq_of_le h with h2 | h2
      · exact Or.inl h2
      · exact Or.inr ⟨h2, rfl⟩

theorem roundUp_ok (v l u p : Nat) (incl : Bool) (hp : 0 < p) (hlv : l < v)
    (h : if incl = true then v / p * p + p ≤ u else v / p * p + p < u) :
    0 < v / p + 1 ∧ (l < (v / p + 1) * p ∨ (l = (v / p + 1) * p ∧ incl = true)) ∧
      ((v / p + 1) * p < u ∨ ((v / p + 1) * p = u ∧ incl = true)) := by
  have hup : (v / p + 1) * p = v / p * p + p := by rw [Nat.add_mul, Nat.one_mul]
  have hdm := Nat.div_add_mod v p
  have hr := Nat.mod_lt v hp
  have hcomm : v / p * p = p * (v / p) := Nat.mul_comm _ _
  rw [hup]
  refine ⟨Nat.succ_pos _, Or.inl (by omega), ?_⟩
  cases incl
  · simp at h; exact Or.inl h
  · simp at h
    rcases Nat.lt_or_eq_of_le h with h2 | h2
    · exact Or.inl h2
    · exact Or.inr ⟨h2, rfl⟩

theorem shortestLoop_succ (v l u : Nat) (incl : Bool) (k : Nat) :
    shortestLoop v l u incl (k + 1) =
      if (if incl = true then l ≤ v / 10 ^ (k + 1) * 10 ^ (k + 1)
            else l < v / 10 ^ (k + 1) * 10 ^ (k + 1)) ∧
          (if incl = true then v / 10 ^ (k + 1) * 10 ^ (k + 1) + 10 ^ (k + 1) ≤ u
            else v / 10 ^ (k + 1) * 10 ^ (k + 1) + 10 ^ (k + 1) < u) then
        (if 10 ^ (k + 1) < 2 * (v - v / 10 ^ (k + 1) * 10 ^ (k + 1)) ∨
            (2 * (v - v / 10 ^ (k + 1) * 10 ^ (k + 1)) = 10 ^ (k + 1) ∧
              v / 10 ^ (k + 1) % 2 = 1) then
          (v / 10 ^ (k + 1) + 1, k + 1) else (v / 10 ^ (k + 1), k + 1))
      else if (if incl = true then l ≤ v / 10 ^ (k + 1) * 10 ^ (k + 1)
            else l < v / 10 ^ (k + 1) * 10 ^ (k + 1)) then (v / 10 ^ (k + 1), k + 1)
      else if (if incl = true then v / 10 ^ (k + 1) * 10 ^ (k + 1) + 10 ^ (k + 1) ≤ u
            else v / 10 ^ (k + 1) * 10 ^ (k + 1) + 10 ^ (k + 1) < u) then
        (v / 10 ^ (k + 1) + 1, k + 1)
      else shortestLoop v l u incl k := rfl

theorem shortestLoop_spec (v l u : Nat) (incl : Bool) (hl : 0 < l) (hlv : l < v) (hvu : v < u) :
    ∀ n, 0 < (shortestLoop v l u incl n).1 ∧
      (l < (shortestLoop v l u incl n).1 * 10 ^ (shortestLoop v l u incl n).2 ∨
        (l = (shortestLoop v l u incl n).1 * 10 ^ (shortestLoop v l u incl n).2 ∧ incl = true)) ∧
      ((shortestLoop v l u incl n).1 * 10 ^ (shortestLoop v l u incl n).2 < u ∨
        ((shortestLoop v l u incl n).1 * 10 ^ (shortestLoop v l u incl n).2 = u ∧ incl = true)) := by
  intro n
  induction n with
  | zero =>
    simp only [shortestLoop, Nat.pow_zero, Nat.mul_one]
    exact ⟨by omega, Or.inl hlv, Or.inl hvu⟩
  | succ k ih =>
    have hp : 0 < 10 ^ (k + 1) := Nat.pos_pow_of_pos _ (by decide)
    rw [shortestLoop_succ]
    by_cases hd : (if incl = true then l ≤ v / 10 ^ (k + 1) * 10 ^ (k + 1)
        else l < v / 10 ^ (k + 1) * 10 ^ (k + 1))
    · by_cases hu : (if incl = true then v / 10 ^ (k + 1) * 10 ^ (k + 1) + 10 ^ (k + 1) ≤ u
          else v / 10 ^ (k + 1) * 10 ^ (k + 1) + 10 ^ (k + 1) < u)
      · rw [if_pos ⟨hd, hu⟩]
        by_cases hr : 10 ^ (k + 1) < 2 * (v - v / 10 ^ (k + 1) * 10 ^ (k + 1)) ∨
            (2 * (v - v / 10 ^ (k + 1) * 10 ^ (k + 1)) = 10 ^ (k + 1) ∧
              v / 10 ^ (k + 1) % 2 = 1)
        · rw [if_pos hr]
          exact roundUp_ok v l u _ incl hp hlv hu
        · rw [if_neg hr]
          exact roundDown_ok v l u _ incl hl hvu hd
      · rw [if_neg (fun h => hu h.2), if_pos hd]
        exact roundDown_ok v l u _ incl hl hvu hd
    · rw [if_neg (fun h => hd h.1), if_neg hd]
      by_cases hu : (if incl = true then v / 10 ^ (k + 1) * 10 ^ (k + 1) + 10 ^ (k + 1) ≤ u
          else v / 10 ^ (k + 1) * 10 ^ (k + 1) + 10 ^ (k + 1) < u)
      · rw [if_pos hu]
        exact roundUp_ok v l u _ incl hp hlv hu
      · rw [if_neg hu]
        exact ih

theorem decimalLength_pos_digits (c : Nat) (hc : 0 < c) :
    10 ^ (decimalLength c c - 1) ≤ c ∧ 0 < decimalLength c c := by
  obtain ⟨h1, h2, h3, h4, h5⟩ := decimalDigits_spec c
  have hlen := h5 hc
  cases hds : decimalDigits c with
  | nil => exact absurd hds h3
  | cons d t =>
    rw [hds] at h1 h2 h4 hlen
    have hd := h1 d (List.mem_cons_self _ _)
    simp only [isDigit, decide_eq_true_eq] at hd
    have hd0 : d ≠ 0x30 := by
      have := h4 hc
      simpa using this
    rw [digitsValue_cons] at h2
    simp only [List.length_cons] at hlen
    rw [← hlen]
    simp only [Nat.add_sub_cancel]
    refine ⟨?_, Nat.succ_pos _⟩
    have h1le : 1 ≤ d - 0x30 := by omega
    have : 1 * 10 ^ t.length ≤ (d - 0x30) * 10 ^ t.length := Nat.mul_le_mul_right _ h1le
    omega

/-- The shortest digits of a finite `float64` that is not zero: a decimal
between the halfway points, written with digits of which the first is not `0`. -/
theorem shortestDigits_spec (f : Float64) (hm : 0 < f.mant) :
    ∃ w d t,
      ((if f.mant = 4503599627370496 ∧ 0 < f.expo then 2 * f.mant * 2 ^ f.expo - 2 ^ (f.expo - 1)
          else 2 * f.mant * 2 ^ f.expo - 2 ^ f.expo) * 5 ^ 1075 < w ∨
        ((if f.mant = 4503599627370496 ∧ 0 < f.expo then
            2 * f.mant * 2 ^ f.expo - 2 ^ (f.expo - 1)
          else 2 * f.mant * 2 ^ f.expo - 2 ^ f.expo) * 5 ^ 1075 = w ∧ f.mant % 2 = 0)) ∧
      (w < (2 * f.mant * 2 ^ f.expo + 2 ^ f.expo) * 5 ^ 1075 ∨
        (w = (2 * f.mant * 2 ^ f.expo + 2 ^ f.expo) * 5 ^ 1075 ∧ f.mant % 2 = 0)) ∧
      (shortestDigits f).1 = d :: t ∧ d ≠ 0x30 ∧
      (∀ c ∈ (shortestDigits f).1, isDigit c = true) ∧
      (shortestDigits f).1.length ≤ (shortestDigits f).2 ∧
      w = digitsValue (shortestDigits f).1 *
        10 ^ ((shortestDigits f).2 - (shortestDigits f).1.length) ∧
      10 ^ ((shortestDigits f).2 - 1) ≤ w := by
  have hg : 0 < 2 ^ f.expo := Nat.two_pow_pos _
  have h5 : 0 < 5 ^ 1075 := Nat.pos_pow_of_pos _ (by decide)
  generalize hlo : (if f.mant = 4503599627370496 ∧ 0 < f.expo then
      2 * f.mant * 2 ^ f.expo - 2 ^ (f.expo - 1)
    else 2 * f.mant * 2 ^ f.expo - 2 ^ f.expo) = lo
  have hvv : 2 * 2 ^ f.expo ≤ 2 * f.mant * 2 ^ f.expo := by
    have : 2 * 1 ≤ 2 * f.mant := by omega
    exact Nat.mul_le_mul_right _ this
  have hlo_pos : 0 < lo ∧ lo < 2 * f.mant * 2 ^ f.expo := by
    rw [← hlo]
    split
    · rename_i hb
      obtain ⟨e, he⟩ : ∃ e, f.expo = e + 1 := ⟨f.expo - 1, by omega⟩
      rw [he] at hvv ⊢
      simp only [Nat.add_sub_cancel]
      have : 2 ^ (e + 1) = 2 * 2 ^ e := by rw [Nat.pow_succ, Nat.mul_comm]
      have hge : 0 < 2 ^ e := Nat.two_pow_pos _
      omega
    · omega
  have spec := shortestLoop_spec (2 * f.mant * 2 ^ f.expo * 5 ^ 1075) (lo * 5 ^ 1075)
    ((2 * f.mant * 2 ^ f.expo + 2 ^ f.expo) * 5 ^ 1075) (decide (f.mant % 2 = 0))
    (Nat.mul_pos hlo_pos.1 h5)
    (Nat.mul_lt_mul_of_pos_right hlo_pos.2 h5)
    (Nat.mul_lt_mul_of_pos_right (by omega) h5)
    (decimalLength (2 * f.mant * 2 ^ f.expo * 5 ^ 1075) (2 * f.mant * 2 ^ f.expo * 5 ^ 1075))
  have hsd : shortestDigits f =
      (stripZeros (decimalDigits (shortestLoop (2 * f.mant * 2 ^ f.expo * 5 ^ 1075)
          (lo * 5 ^ 1075) ((2 * f.mant * 2 ^ f.expo + 2 ^ f.expo) * 5 ^ 1075)
          (decide (f.mant % 2 = 0))
          (decimalLength (2 * f.mant * 2 ^ f.expo * 5 ^ 1075)
            (2 * f.mant * 2 ^ f.expo * 5 ^ 1075))).1),
        decimalLength (shortestLoop (2 * f.mant * 2 ^ f.expo * 5 ^ 1075)
          (lo * 5 ^ 1075) ((2 * f.mant * 2 ^ f.expo + 2 ^ f.expo) * 5 ^ 1075)
          (decide (f.mant % 2 = 0))
          (decimalLength (2 * f.mant * 2 ^ f.expo * 5 ^ 1075)
            (2 * f.mant * 2 ^ f.expo * 5 ^ 1075))).1
          (shortestLoop (2 * f.mant * 2 ^ f.expo * 5 ^ 1075)
          (lo * 5 ^ 1075) ((2 * f.mant * 2 ^ f.expo + 2 ^ f.expo) * 5 ^ 1075)
          (decide (f.mant % 2 = 0))
          (decimalLength (2 * f.mant * 2 ^ f.expo * 5 ^ 1075)
            (2 * f.mant * 2 ^ f.expo * 5 ^ 1075))).1
        + (shortestLoop (2 * f.mant * 2 ^ f.expo * 5 ^ 1075)
          (lo * 5 ^ 1075) ((2 * f.mant * 2 ^ f.expo + 2 ^ f.expo) * 5 ^ 1075)
          (decide (f.mant % 2 = 0))
          (decimalLength (2 * f.mant * 2 ^ f.expo * 5 ^ 1075)
            (2 * f.mant * 2 ^ f.expo * 5 ^ 1075))).2) := by
    rw [← hlo]
    rfl
  rw [hsd]
  generalize shortestLoop (2 * f.mant * 2 ^ f.expo * 5 ^ 1075)
          (lo * 5 ^ 1075) ((2 * f.mant * 2 ^ f.expo + 2 ^ f.expo) * 5 ^ 1075)
          (decide (f.mant % 2 = 0))
          (decimalLength (2 * f.mant * 2 ^ f.expo * 5 ^ 1075)
            (2 * f.mant * 2 ^ f.expo * 5 ^ 1075)) = r at spec
  obtain ⟨c, k⟩ := r
  simp only at spec ⊢
  obtain ⟨hc, hlow, hupp⟩ := spec
  obtain ⟨g1, g2, g3, g4, g5⟩ := decimalDigits_spec c
  obtain ⟨z, hz, hhead⟩ := stripZeros_spec (decimalDigits c)
  cases hds : decimalDigits c with
  | nil => exact absurd hds g3
  | cons d t0 =>
    have hd0 : d ≠ 0x30 := by
      have := g4 hc
      rw [hds] at this
      simpa using this
    obtain ⟨t, ht⟩ := hhead d t0 hds hd0
    rw [← hds]
    have hlen : (stripZeros (decimalDigits c)).length + z = decimalLength c c := by
      rw [← g5 hc]
      conv => rhs; rw [hz]
      simp
    have hval : c = digitsValue (stripZeros (decimalDigits c)) * 10 ^ z := by
      conv => lhs; rw [← g2, hz]
      rw [digitsValue_append_zeros]
    refine ⟨c * 10 ^ k, d, t, ?_, ?_, ht, hd0, ?_, by omega, ?_, ?_⟩
    · rcases hlow with h | h
      · exact Or.inl h
      · exact Or.inr ⟨h.1, by simpa using h.2⟩
    · rcases hupp with h | h
      · exact Or.inl h
      · exact Or.inr ⟨h.1, by simpa using h.2⟩
    · intro x hx
      exact g1 x (stripZeros_mem _ x hx)
    · have : decimalLength c c + k - (stripZeros (decimalDigits c)).length = z + k := by omega
      rw [this, Nat.pow_add, ← Nat.mul_assoc, ← hval]
    · have hp := (decimalLength_pos_digits c hc)
      have : decimalLength c c + k - 1 = (decimalLength c c - 1) + k := by omega
      rw [this, Nat.pow_add]
      exact Nat.mul_le_mul_right _ hp.1

end Chef

namespace Chef

/-! ## Number literals from their parts -/

theorem spanDigits_digits (ds rest : GoString) (h : ∀ c ∈ ds, isDigit c = true)
    (hr : ∀ c r, rest = c :: r → isDigit c = false) : spanDigits (ds ++ rest) = (ds, rest) := by
  induction ds with
  | nil =>
    cases rest with
    | nil => rfl
    | cons c r =>
      have := hr c r rfl
      simp [spanDigits_cons, this]
  | cons d ds ih =>
    rw [List.cons_append, spanDigits_cons, if_pos (h d (List.mem_cons_self _ _)),
      ih (fun x hx => h x (List.mem_cons_of_mem _ hx))]

theorem spanDigits_only (ds : GoString) (h : ∀ c ∈ ds, isDigit c = true) :
    spanDigits ds = (ds, []) := by
  have := spanDigits_digits ds [] h (fun c r hc => by cases hc)
  simpa using this

theorem exponentText_head (ex : Option (Nat × GoString)) (c : Nat) (r : GoString)
    (h : exponentText ex = c :: r) : isDigit c = false ∧ c ≠ 0x2E := by
  cases ex with
  | none => cases h
  | some e =>
    simp only [exponentText, List.cons.injEq] at h
    rw [← h.1]
    exact ⟨by decide, by decide⟩

theorem tailText_head (fp : GoString) (ex : Option (Nat × GoString)) (c : Nat) (r : GoString)
    (h : fractionText fp ++ exponentText ex = c :: r) : isDigit c = false := by
  by_cases hfp : fp = []
  · rw [fractionText, if_pos hfp, List.nil_append] at h
    exact (exponentText_head ex c r h).1
  · rw [fractionText, if_neg hfp, List.cons_append] at h
    simp only [List.cons.injEq] at h
    rw [← h.1]
    decide

theorem scanExp_nil (acc : GoString) : scanExp acc [] = some (acc, []) := rfl

theorem scanExp_signed (acc ed : GoString) (s : Nat) (hs : s = 0x2D ∨ s = 0x2B) :
    scanExp acc (0x65 :: s :: ed) =
      if (spanDigits ed).1 = [] then none
      else some (acc ++ 0x65 :: s :: (spanDigits ed).1, (spanDigits ed).2) := by
  have h1 : (0x65 : Nat) = 0x65 ∨ (0x65 : Nat) = 0x45 := Or.inl rfl
  have h2 : s = 0x2B ∨ s = 0x2D := hs.symm
  simp only [scanExp, if_pos h2, true_or, if_true]

theorem scanExp_text (acc : GoString) (ex : Option (Nat × GoString)) (hex : ExponentPart ex) :
    scanExp acc (exponentText ex) = some (acc ++ exponentText ex, []) := by
  cases ex with
  | none => simp [exponentText, scanExp_nil]
  | some e =>
    obtain ⟨s, ed⟩ := e
    simp only [ExponentPart] at hex
    obtain ⟨hs, hne, hd⟩ := hex
    simp only [exponentText]
    rw [scanExp_signed acc ed s hs, spanDigits_only ed hd]
    simp only
    rw [if_neg hne]

theorem scanFrac_dot (acc r : GoString) :
    scanFrac acc (0x2E :: r) =
      if (spanDigits r).1 = [] then none
      else scanExp (acc ++ 0x2E :: (spanDigits r).1) (spanDigits r).2 := by
  simp only [scanFrac, if_true]

theorem scanFrac_other (acc : GoString) (c : Nat) (r : GoString) (h : c ≠ 0x2E) :
    scanFrac acc (c :: r) = scanExp acc (c :: r) := by
  simp only [scanFrac, if_neg h]

theorem scanFrac_text (acc fp : GoString) (ex : Option (Nat × GoString))
    (hfp : ∀ c ∈ fp, isDigit c = true) (hex : ExponentPart ex) :
    scanFrac acc (fractionText fp ++ exponentText ex) =
      some (acc ++ (fractionText fp ++ exponentText ex), []) := by
  by_cases h : fp = []
  · rw [fractionText, if_pos h, List.nil_append]
    cases hx : exponentText ex with
    | nil => simp [scanFrac]
    | cons c r =>
      rw [scanFrac_other acc c r (exponentText_head ex c r hx).2, ← hx]
      exact scanExp_text acc ex hex
  · rw [fractionText, if_neg h, List.cons_append, scanFrac_dot,
      spanDigits_digits fp _ hfp (fun c r hc => (exponentText_head ex c r hc).1)]
    simp only
    rw [if_neg h, scanExp_text _ ex hex]
    simp

theorem scanInt_text (acc ip tail : GoString) (hip : IntegerDigits ip)
    (htail : ∀ c r, tail = c :: r → isDigit c = false) :
    scanInt acc (ip ++ tail) = scanFrac (acc ++ ip) tail := by
  rcases hip with h | ⟨d, t, h, h1, h2, h3⟩
  · subst h
    simp [scanInt]
  · subst h
    have hd0 : ¬ d = 0x30 := by omega
    simp only [List.cons_append, scanInt, if_neg hd0, if_pos (And.intro h1 h2)]
    rw [spanDigits_digits t tail h3 htail]

theorem integerDigits_head (ip : GoString) (hip : IntegerDigits ip) :
    ∃ d t, ip = d :: t ∧ d ≠ 0x2D := by
  rcases hip with h | ⟨d, t, h, h1, h2, _⟩
  · exact ⟨0x30, [], h, by decide⟩
  · exact ⟨d, t, h, by omega⟩

/-- The scanner accepts a number literal built from its parts, whole. -/
theorem scanNumber_numberText (neg : Bool) (ip fp : GoString) (ex : Option (Nat × GoString))
    (hip : IntegerDigits ip) (hfp : ∀ c ∈ fp, isDigit c = true) (hex : ExponentPart ex) :
    scanNumber (numberText neg ip fp ex) = some (numberText neg ip fp ex, []) := by
  obtain ⟨d, t, hdt, hd⟩ := integerDigits_head ip hip
  cases neg with
  | true =>
    have e1 : numberText true ip fp ex = 0x2D :: (ip ++ (fractionText fp ++ exponentText ex)) := by
      simp [numberText]
    rw [e1]
    simp only [scanNumber, if_true]
    rw [scanInt_text _ ip _ hip (tailText_head fp ex), scanFrac_text _ fp ex hfp hex]
    simp
  | false =>
    have e1 : numberText false ip fp ex = ip ++ (fractionText fp ++ exponentText ex) := by
      simp [numberText]
    rw [e1]
    have : scanNumber (ip ++ (fractionText fp ++ exponentText ex)) =
        scanInt [] (ip ++ (fractionText fp ++ exponentText ex)) := by
      rw [hdt]
      simp only [List.cons_append, scanNumber, if_neg hd]
    rw [this, scanInt_text _ ip _ hip (tailText_head fp ex), scanFrac_text _ fp ex hfp hex]
    simp

theorem integerDigits_all (ip : GoString) (hip : IntegerDigits ip) :
    ∀ c ∈ ip, isDigit c = true := by
  rcases hip with h | ⟨d, t, h, h1, h2, h3⟩
  · subst h
    intro c hc
    simp only [List.mem_singleton] at hc
    subst hc
    decide
  · subst h
    intro c hc
    rcases List.mem_cons.1 hc with hc | hc
    · subst hc
      simp only [isDigit, decide_eq_true_eq]
      omega
    · exact h3 c hc

theorem readExp_text (ex : Option (Nat × GoString)) (hex : ExponentPart ex) :
    readExp (exponentText ex) = exponentOf ex := by
  cases ex with
  | none => rfl
  | some e =>
    obtain ⟨s, ed⟩ := e
    simp only [ExponentPart] at hex
    obtain ⟨hs, _, hd⟩ := hex
    have h1 : (0x65 : Nat) = 0x65 ∨ (0x65 : Nat) = 0x45 := Or.inl rfl
    simp only [exponentText, exponentOf, readExp, if_pos h1]
    rcases hs with h | h
    · subst h
      simp only [if_true, spanDigits_only ed hd, decide_True, true_or]
    · subst h
      have h2 : ¬ ((0x2B : Nat) = 0x2D) := by decide
      simp only [if_neg h2, if_true, spanDigits_only ed hd, decide_eq_false h2, true_or]

theorem readFloat_unfold (s : GoString) :
    readFloat s =
      ⟨(match s with
        | c :: _ => decide (c = 0x2D)
        | [] => false),
        digitsValue ((spanDigits (if (match s with
          | c :: _ => decide (c = 0x2D)
          | [] => false) = true then s.tail else s)).1 ++
          (match (spanDigits (if (match s with
            | c :: _ => decide (c = 0x2D)
            | [] => false) = true then s.tail else s)).2 with
          | c :: r => if c = 0x2E then spanDigits r
            else ([], (spanDigits (if (match s with
              | c :: _ => decide (c = 0x2D)
              | [] => false) = true then s.tail else s)).2)
          | [] => ([], [])).1),
        (match (spanDigits (if (match s with
            | c :: _ => decide (c = 0x2D)
            | [] => false) = true then s.tail else s)).2 with
          | c :: r => if c = 0x2E then spanDigits r
            else ([], (spanDigits (if (match s with
              | c :: _ => decide (c = 0x2D)
              | [] => false) = true then s.tail else s)).2)
          | [] => ([], [])).1.length,
        (readExp (match (spanDigits (if (match s with
            | c :: _ => decide (c = 0x2D)
            | [] => false) = true then s.tail else s)).2 with
          | c :: r => if c = 0x2E then spanDigits r
            else ([], (spanDigits (if (match s with
              | c :: _ => decide (c = 0x2D)
              | [] => false) = true then s.tail else s)).2)
          | [] => ([], [])).2).1,
        (readExp (match (spanDigits (if (match s with
            | c :: _ => decide (c = 0x2D)
            | [] => false) = true then s.tail else s)).2 with
          | c :: r => if c = 0x2E then spanDigits r
            else ([], (spanDigits (if (match s with
              | c :: _ => decide (c = 0x2D)
              | [] => false) = true then s.tail else s)).2)
          | [] => ([], [])).2).2⟩ := rfl

/-- What `readFloat` finds after the sign. -/
theorem readFloat_body (ip fp : GoString) (ex : Option (Nat × GoString))
    (hip : IntegerDigits ip) (hfp : ∀ c ∈ fp, isDigit c = true) :
    spanDigits (ip ++ (fractionText fp ++ exponentText ex)) =
        (ip, fractionText fp ++ exponentText ex) ∧
      (match fractionText fp ++ exponentText ex with
        | c :: r => if c = 0x2E then spanDigits r
          else ([], fractionText fp ++ exponentText ex)
        | [] => ([], [])) = (fp, exponentText ex) := by
  refine ⟨spanDigits_digits ip _ (integerDigits_all ip hip) (tailText_head fp ex), ?_⟩
  by_cases h : fp = []
  · subst h
    simp only [fractionText, if_true, List.nil_append]
    cases hx : exponentText ex with
    | nil => rfl
    | cons c r =>
      simp only
      rw [if_neg (exponentText_head ex c r hx).2]
  · simp only [fractionText, if_neg h, List.cons_append, if_true]
    exact spanDigits_digits fp _ hfp (fun c r hc => (exponentText_head ex c r hc).1)

/-- What `readFloat` finds in a number literal built from its parts. -/
theorem readFloat_numberText (neg : Bool) (ip fp : GoString) (ex : Option (Nat × GoString))
    (hip : IntegerDigits ip) (hfp : ∀ c ∈ fp, isDigit c = true) (hex : ExponentPart ex) :
    readFloat (numberText neg ip fp ex) =
      ⟨neg, digitsValue (ip ++ fp), fp.length, (exponentOf ex).1, (exponentOf ex).2⟩ := by
  obtain ⟨d, t, hdt, hd⟩ := integerDigits_head ip hip
  obtain ⟨hb1, hb2⟩ := readFloat_body ip fp ex hip hfp
  cases neg with
  | true =>
    have e1 : numberText true ip fp ex = 0x2D :: (ip ++ (fractionText fp ++ exponentText ex)) := by
      simp [numberText]
    rw [e1, readFloat_unfold]
    simp only [decide_True, if_true, List.tail_cons]
    rw [hb1]
    simp only
    rw [hb2, readExp_text ex hex]
  | false =>
    have e1 : numberText false ip fp ex = ip ++ (fractionText fp ++ exponentText ex) := by
      simp [numberText]
    have hneg : (match ip ++ (fractionText fp ++ exponentText ex) with
        | c :: _ => decide (c = 0x2D)
        | [] => false) = false := by
      rw [hdt]
      simp [hd]
    rw [e1, readFloat_unfold, hneg]
    simp only [Bool.false_eq_true, if_false]
    rw [hb1]
    simp only
    rw [hb2, readExp_text ex hex]

end Chef

namespace Chef

/-! ## The text the encoder writes for a `float64` -/

theorem decimalDigits_small (x : Nat) (h : x < 10) : decimalDigits x = [0x30 + x] := by
  simp [decimalDigits, digitsAcc, h]

theorem cleanExp_unfold (b : GoString) :
    cleanExp b =
      match b.reverse with
      | d :: z :: s :: e :: rest =>
        if e = 0x65 ∧ (s = 0x2D ∨ s = 0x2B) ∧ z = 0x30 then (d :: s :: e :: rest).reverse else b
      | _ => b := rfl

/-- The clean-up drops the `0` of an exponent below ten and nothing else. -/
theorem cleanExp_exponent (pre : GoString) (s x : Nat) (hs : s = 0x2D ∨ s = 0x2B) :
    cleanExp (pre ++ 0x65 :: s :: expDigits x) = pre ++ 0x65 :: s :: decimalDigits x := by
  by_cases hx : x < 10
  · rw [decimalDigits_small x hx, cleanExp_unfold]
    simp only [expDigits, if_pos hx, List.reverse_append, List.reverse_cons, List.reverse_nil,
      List.nil_append, List.cons_append, List.append_assoc, List.singleton_append]
    simp [hs]
  · have hed : expDigits x = decimalDigits x := by simp [expDigits, hx]
    rw [hed]
    obtain ⟨g1, g2, g3, g4, g5⟩ := decimalDigits_spec x
    rw [cleanExp_unfold]
    generalize decimalDigits x = ds at g1 g2 g3 g4 g5
    have hlen : 2 ≤ ds.length := by
      by_contra hc
      have h1 := digitsValue_lt ds g1
      have : ds.length ≤ 1 := by omega
      have : 10 ^ ds.length ≤ 10 ^ 1 := Nat.pow_le_pow_right (by decide) this
      omega
    have hs65 : s ≠ 0x65 := by rcases hs with h | h <;> omega
    -- the last digits of the exponent
    rcases List.eq_nil_or_concat ds with h | ⟨l1, c1, h⟩
    · exact absurd h g3
    · subst h
      rcases List.eq_nil_or_concat l1 with h | ⟨l2, c2, h⟩
      · subst h; simp at hlen
      · subst h
        rcases List.eq_nil_or_concat l2 with h | ⟨l3, c3, h⟩
        · subst h
          have hc2 : c2 ≠ 0x30 := by
            have := g4 (by omega)
            simpa using this
          simp [hc2]
        · subst h
          rcases List.eq_nil_or_concat l3 with h | ⟨l4, c4, h⟩
          · subst h
            simp [hs65]
          · subst h
            have hc4 : isDigit c4 = true := g1 c4 (by simp)
            have hc4e : c4 ≠ 0x65 := by
              simp only [isDigit, decide_eq_true_eq] at hc4
              omega
            simp [hc4e]

theorem exponentPart_digits (s x : Nat) (hs : s = 0x2D ∨ s = 0x2B) :
    ExponentPart (some (s, decimalDigits x)) := by
  obtain ⟨g1, _, g3, _, _⟩ := decimalDigits_spec x
  exact ⟨hs, g3, g1⟩

/-- The `%e` form after the clean-up, from its parts. -/
theorem cleanExp_fmtE (neg : Bool) (d : Nat) (t : GoString) (n : Nat) :
    cleanExp (fmtE neg (d :: t) n) =
      numberText neg [d] t
        (some (if n < 1076 then (0x2D, decimalDigits (1076 - n))
          else (0x2B, decimalDigits (n - 1076)))) := by
  have hform : ∀ (s x : Nat), (s = 0x2D ∨ s = 0x2B) →
      cleanExp (((if neg = true then [0x2D] else []) ++
        (d :: (if t = [] then [] else 0x2E :: t))) ++ 0x65 :: s :: expDigits x) =
      numberText neg [d] t (some (s, decimalDigits x)) := by
    intro s x hs
    rw [cleanExp_exponent _ s x hs]
    simp [numberText, fractionText, exponentText]
  by_cases h : n < 1076
  · rw [if_pos h, ← hform 0x2D (1076 - n) (Or.inl rfl)]
    simp [fmtE, h]
  · rw [if_neg h, ← hform 0x2B (n - 1076) (Or.inr rfl)]
    simp [fmtE, h]

/-- The `%f` form of a number below one, from its parts. -/
theorem fmtF_small (neg : Bool) (ds : GoString) (n : Nat) (hds : ds ≠ []) (h : n ≤ 1075) :
    fmtF neg ds n = numberText neg [0x30] (List.replicate (1075 - n) 0x30 ++ ds) none := by
  have hne : List.replicate (1075 - n) 0x30 ++ ds ≠ [] := by simp [hds]
  simp [fmtF, numberText, fractionText, exponentText, Nat.not_lt.2 h, hds]

/-- The `%f` form of a number with a fraction, from its parts. -/
theorem fmtF_mixed (neg : Bool) (ds : GoString) (n : Nat) (h1 : 1075 < n)
    (h2 : n - 1075 < ds.length) :
    fmtF neg ds n = numberText neg (ds.take (n - 1075)) (ds.drop (n - 1075)) none := by
  have hne : ds.drop (n - 1075) ≠ [] := by
    intro hc
    have := congrArg List.length hc
    simp at this
    omega
  have hz : n - 1075 - ds.length = 0 := by omega
  simp only [fmtF, if_pos h1, if_pos h2, hz, List.replicate_zero, List.append_nil, numberText,
    fractionText, if_neg hne, exponentText]

/-- The `%f` form of a whole number, from its parts. -/
theorem fmtF_whole (neg : Bool) (ds : GoString) (n : Nat) (h1 : 1075 < n)
    (h2 : ds.length ≤ n - 1075) :
    fmtF neg ds n =
      numberText neg (ds ++ List.replicate (n - 1075 - ds.length) 0x30) [] none := by
  have ht : ds.take (n - 1075) = ds := List.take_of_length_le h2
  simp only [fmtF, if_pos h1, if_neg (Nat.not_lt.2 h2), ht, List.append_nil, numberText,
    fractionText, if_true, exponentText, List.nil_append]

end Chef

namespace Chef

/-! ## `ParseFloat` reads back what the encoder writes -/

theorem expValue_append_singleton (l : GoString) (c : Nat) :
    expValue (l ++ [c]) = if expValue l < 10000 then expValue l * 10 + (c - 0x30)
      else expValue l := by
  unfold expValue
  rw [List.foldl_append]
  rfl

/-- The bound on the exponent digits is not reached by an exponent below 100000. -/
theorem expValue_digits (l : GoString) (h : digitsValue l < 100000) :
    expValue l = digitsValue l := by
  induction l using List.reverseRecOn with
  | nil => rfl
  | append_singleton l c ih =>
    rw [digitsValue_append_singleton] at h ⊢
    rw [expValue_append_singleton, ih (by omega), if_pos (by omega)]

theorem expValue_decimalDigits (x : Nat) (h : x < 100000) :
    expValue (decimalDigits x) = x := by
  obtain ⟨_, g2, _⟩ := decimalDigits_spec x
  rw [expValue_digits _ (by rw [g2]; exact h), g2]

theorem Float64.mant_lt (f : Float64) : f.mant < 9007199254740992 := by
  have := f.frac.isLt
  unfold Float64.mant
  split <;> omega

theorem Float64.canonical (f : Float64) : 4503599627370496 ≤ f.mant ∨ f.expo = 0 := by
  unfold Float64.mant Float64.expo
  by_cases h : f.biased.val = 0
  · right; omega
  · left; rw [if_neg h]; omega

theorem Float64.expo_le (f : Float64) (h : f.isFinite = true) : f.expo ≤ 2045 := by
  simp only [Float64.isFinite, decide_eq_true_eq] at h
  unfold Float64.expo
  omega

/-- A finite `float64` is assembled from its own parts. -/
theorem Float64.ofParts_parts (f : Float64) (h : f.isFinite = true) :
    Float64.ofParts f.sign f.mant f.expo = f := by
  simp only [Float64.isFinite, decide_eq_true_eq] at h
  obtain ⟨sg, ⟨b, hb⟩, ⟨fr, hfr⟩⟩ := f
  simp only at h
  by_cases hb0 : b = 0
  · subst hb0
    simp only [Float64.ofParts, Float64.mant, Float64.expo, if_true]
    rw [if_pos hfr]
    simp [Nat.mod_eq_of_lt hfr]
  · simp only [Float64.ofParts, Float64.mant, Float64.expo, if_neg hb0]
    rw [if_neg (by omega)]
    have e1 : (b - 1 + 1) % 2048 = b := by
      rw [Nat.sub_add_cancel (by omega)]
      exact Nat.mod_eq_of_lt hb
    have e2 : (4503599627370496 + fr - 4503599627370496) % 4503599627370496 = fr := by
      rw [Nat.add_sub_cancel_left]
      exact Nat.mod_eq_of_lt hfr
    simp [e1, e2, hfr]

theorem parseFloat_unfold (s : GoString) :
    parseFloat s =
      if 2045 < (roundGrid (readFloat s).scaled.1 (readFloat s).scaled.2).2 then
        Float64.inf (readFloat s).neg
      else Float64.ofParts (readFloat s).neg
        (roundGrid (readFloat s).scaled.1 (readFloat s).scaled.2).1
        (roundGrid (readFloat s).scaled.1 (readFloat s).scaled.2).2 := rfl

theorem two_five_pow : 2 * 2 ^ 1074 * 5 ^ 1075 = 10 ^ 1075 := by
  have : (10 : Nat) ^ 1075 = 2 ^ 1075 * 5 ^ 1075 := by
    rw [← Nat.mul_pow]
  rw [this, Nat.pow_succ 2 1074]
  ring

/-- The literal of a decimal between the halfway points of a finite
`float64` is read as that `float64`: `w` is the decimal times `10 ^ 1075`. -/
theorem parseFloat_decimal (s : GoString) (f : Float64) (hfin : f.isFinite = true)
    (hm : 0 < f.mant) (dec : Decimal) (hread : readFloat s = dec) (hneg : dec.neg = f.sign)
    (w : Nat)
    (hval : if dec.expNeg = true then dec.digits * 10 ^ 1075 = w * 10 ^ (dec.fracLen + dec.exp)
      else dec.digits * 10 ^ dec.exp * 10 ^ 1075 = w * 10 ^ dec.fracLen)
    (hlo : (if f.mant = 4503599627370496 ∧ 0 < f.expo then
          2 * f.mant * 2 ^ f.expo - 2 ^ (f.expo - 1)
        else 2 * f.mant * 2 ^ f.expo - 2 ^ f.expo) * 5 ^ 1075 < w ∨
      ((if f.mant = 4503599627370496 ∧ 0 < f.expo then
            2 * f.mant * 2 ^ f.expo - 2 ^ (f.expo - 1)
          else 2 * f.mant * 2 ^ f.expo - 2 ^ f.expo) * 5 ^ 1075 = w ∧ f.mant % 2 = 0))
    (hhi : w < (2 * f.mant * 2 ^ f.expo + 2 ^ f.expo) * 5 ^ 1075 ∨
      (w = (2 * f.mant * 2 ^ f.expo + 2 ^ f.expo) * 5 ^ 1075 ∧ f.mant % 2 = 0)) :
    parseFloat s = f := by
  have h5 : 0 < 5 ^ 1075 := Nat.pos_pow_of_pos _ (by decide)
  -- the scaled fraction stands for the same decimal
  have hscaled : 0 < dec.scaled.2 ∧ 2 * dec.scaled.1 * 5 ^ 1075 = w * dec.scaled.2 := by
    unfold Decimal.scaled
    by_cases he : dec.expNeg = true
    · rw [if_pos he] at hval ⊢
      refine ⟨Nat.pos_pow_of_pos _ (by decide), ?_⟩
      simp only
      rw [← hval, ← two_five_pow]
      ring
    · rw [if_neg he] at hval ⊢
      refine ⟨Nat.pos_pow_of_pos _ (by decide), ?_⟩
      simp only
      rw [← hval, ← two_five_pow]
      ring
  obtain ⟨hb, hab⟩ := hscaled
  generalize hadef : dec.scaled.1 = a at hab
  generalize hbdef : dec.scaled.2 = b at hab hb
  generalize hlodef : (if f.mant = 4503599627370496 ∧ 0 < f.expo then
      2 * f.mant * 2 ^ f.expo - 2 ^ (f.expo - 1)
    else 2 * f.mant * 2 ^ f.expo - 2 ^ f.expo) = lo at hlo
  generalize hudef : 2 * f.mant * 2 ^ f.expo + 2 ^ f.expo = up at hhi
  generalize hp5 : 5 ^ 1075 = p5 at h5 hab hlo hhi
  have hlo2 : lo * b < 2 * a ∨ (lo * b = 2 * a ∧ f.mant % 2 = 0) := by
    rcases hlo with h | ⟨h, hev⟩
    · left
      have h1 : lo * p5 * b < w * b := Nat.mul_lt_mul_of_pos_right h hb
      rw [← hab] at h1
      have h2 : lo * b * p5 < 2 * a * p5 := by
        have : lo * b * p5 = lo * p5 * b := by ring
        rw [this]; exact h1
      exact Nat.lt_of_mul_lt_mul_right h2
    · right
      refine ⟨?_, hev⟩
      have h1 : lo * p5 * b = 2 * a * p5 := by rw [h, hab]
      have h2 : lo * b * p5 = 2 * a * p5 := by
        have : lo * b * p5 = lo * p5 * b := by ring
        rw [this]; exact h1
      exact Nat.eq_of_mul_eq_mul_right h5 h2
  have hhi2 : 2 * a < up * b ∨ (2 * a = up * b ∧ f.mant % 2 = 0) := by
    rcases hhi with h | ⟨h, hev⟩
    · left
      have h1 : w * b < up * p5 * b := Nat.mul_lt_mul_of_pos_right h hb
      rw [← hab] at h1
      have h2 : 2 * a * p5 < up * b * p5 := by
        have : up * b * p5 = up * p5 * b := by ring
        rw [this]; exact h1
      exact Nat.lt_of_mul_lt_mul_right h2
    · right
      refine ⟨?_, hev⟩
      have h1 : 2 * a * p5 = up * p5 * b := by rw [← h, hab]
      have h2 : 2 * a * p5 = up * b * p5 := by
        have : up * b * p5 = up * p5 * b := by ring
        rw [this]; exact h1
      exact Nat.eq_of_mul_eq_mul_right h5 h2
  rw [← hlodef] at hlo2
  rw [← hudef] at hhi2
  have hround := roundGrid_spec a b f.mant f.expo hb hm f.mant_lt f.canonical hlo2 hhi2
  rw [parseFloat_unfold, hread, hadef, hbdef, hround]
  simp only
  rw [if_neg (by have := f.expo_le hfin; omega), hneg, Float64.ofParts_parts f hfin]

end Chef

namespace Chef

/-- A number literal built from its parts that stands for a decimal between
the halfway points of a finite `float64` is accepted by the scanner and read
as that `float64`. -/
theorem numberText_roundtrip (f : Float64) (hfin : f.isFinite = true) (hm : 0 < f.mant)
    (w : Nat)
    (hlo : (if f.mant = 4503599627370496 ∧ 0 < f.expo then
          2 * f.mant * 2 ^ f.expo - 2 ^ (f.expo - 1)
        else 2 * f.mant * 2 ^ f.expo - 2 ^ f.expo) * 5 ^ 1075 < w ∨
      ((if f.mant = 4503599627370496 ∧ 0 < f.expo then
            2 * f.mant * 2 ^ f.expo - 2 ^ (f.expo - 1)
          else 2 * f.mant * 2 ^ f.expo - 2 ^ f.expo) * 5 ^ 1075 = w ∧ f.mant % 2 = 0))
    (hhi : w < (2 * f.mant * 2 ^ f.expo + 2 ^ f.expo) * 5 ^ 1075 ∨
      (w = (2 * f.mant * 2 ^ f.expo + 2 ^ f.expo) * 5 ^ 1075 ∧ f.mant % 2 = 0))
    (ip fp : GoString) (ex : Option (Nat × GoString))
    (hip : IntegerDigits ip) (hfp : ∀ c ∈ fp, isDigit c = true) (hex : ExponentPart ex)
    (hval : if (exponentOf ex).1 = true then
        digitsValue (ip ++ fp) * 10 ^ 1075 = w * 10 ^ (fp.length + (exponentOf ex).2)
      else digitsValue (ip ++ fp) * 10 ^ (exponentOf ex).2 * 10 ^ 1075 = w * 10 ^ fp.length) :
    scanNumber (numberText f.sign ip fp ex) = some (numberText f.sign ip fp ex, []) ∧
      parseFloat (numberText f.sign ip fp ex) = f :=
  ⟨scanNumber_numberText f.sign ip fp ex hip hfp hex,
    parseFloat_decimal _ f hfin hm _ (readFloat_numberText f.sign ip fp ex hip hfp hex) rfl w
      hval hlo hhi⟩

theorem decimal_shift (D a b c : Nat) (h : b + c = a) :
    D * 10 ^ a = D * 10 ^ b * 10 ^ c := by
  rw [← h, Nat.pow_add, Nat.mul_assoc]

theorem decimal_shift2 (D x a b c : Nat) (h : b + c = x + a) :
    D * 10 ^ x * 10 ^ a = D * 10 ^ b * 10 ^ c := by
  rw [Nat.mul_assoc, Nat.mul_assoc, ← Nat.pow_add, ← Nat.pow_add, h]

/-- The number of digits of a decimal between the halfway points of a finite
`float64`, times `10 ^ 1075`, is at most 1400. -/
theorem shortest_length_le (f : Float64) (hfin : f.isFinite = true) (w n : Nat)
    (hhi : w < (2 * f.mant * 2 ^ f.expo + 2 ^ f.expo) * 5 ^ 1075 ∨
      (w = (2 * f.mant * 2 ^ f.expo + 2 ^ f.expo) * 5 ^ 1075 ∧ f.mant % 2 = 0))
    (hn : 10 ^ (n - 1) ≤ w) : n ≤ 1400 := by
  have hw : w ≤ (2 * f.mant * 2 ^ f.expo + 2 ^ f.expo) * 5 ^ 1075 := by
    rcases hhi with h | h
    · exact Nat.le_of_lt h
    · exact Nat.le_of_eq h.1
  have h1 : 2 * f.mant * 2 ^ f.expo + 2 ^ f.expo = (2 * f.mant + 1) * 2 ^ f.expo := by ring
  have h2 : (2 * f.mant + 1) * 2 ^ f.expo ≤ 18014398509481984 * 2 ^ 2045 :=
    Nat.mul_le_mul (by have := f.mant_lt; omega)
      (Nat.pow_le_pow_right (by decide) (f.expo_le hfin))
  have h3 : (2 * f.mant * 2 ^ f.expo + 2 ^ f.expo) * 5 ^ 1075
      ≤ 18014398509481984 * 2 ^ 2045 * 5 ^ 1075 := by
    rw [h1]
    exact Nat.mul_le_mul_right _ h2
  have h4 : 18014398509481984 * 2 ^ 2045 * 5 ^ 1075 < 10 ^ 1399 := by
    have a1 : (18014398509481984 : Nat) = 2 ^ 54 := by norm_num
    have a2 : (2 : Nat) ^ 54 * 2 ^ 2045 = 2 ^ 1024 * 2 ^ 1075 := by
      rw [← Nat.pow_add, ← Nat.pow_add]
    have a3 : (2 : Nat) ^ 1075 * 5 ^ 1075 = 10 ^ 1075 := by rw [← Nat.mul_pow]
    have a4 : (2 : Nat) ^ 1024 < 10 ^ 324 := by
      have b1 : (2 : Nat) ^ 1024 = (2 ^ 32) ^ 32 := by rw [← Nat.pow_mul]
      have b2 : (10 : Nat) ^ 324 = (10 ^ 10) ^ 32 * 10 ^ 4 := by
        rw [← Nat.pow_mul, ← Nat.pow_add]
      have b3 : ((2 : Nat) ^ 32) ^ 32 < (10 ^ 10) ^ 32 :=
        Nat.pow_lt_pow_left (by norm_num) (by decide)
      rw [b1, b2]
      have b4 : 0 < ((10 : Nat) ^ 10) ^ 32 := Nat.pos_pow_of_pos _ (by norm_num)
      nlinarith
    have a5 : (10 : Nat) ^ 1399 = 10 ^ 324 * 10 ^ 1075 := by rw [← Nat.pow_add]
    rw [a1, a2, Nat.mul_assoc, a3, a5]
    exact Nat.mul_lt_mul_of_pos_right a4 (Nat.pos_pow_of_pos _ (by decide))
  have h5 : 10 ^ (n - 1) < 10 ^ 1399 := by omega
  have h6 : n - 1 < 1399 := (Nat.pow_lt_pow_iff_right (by decide)).1 h5
  omega

theorem roundGrid_zero : roundGrid 0 1 = (0, 0) := by
  rw [roundGrid_unfold]
  simp

/-- The encoder writes a finite `float64` as a number literal that the
scanner accepts whole and that `ParseFloat` reads back as the same value. -/
theorem floatEncode_roundtrip (f : Float64) (hfin : f.isFinite = true) :
    scanNumber (floatEncode f) = some (floatEncode f, []) ∧ parseFloat (floatEncode f) = f := by
  by_cases hm0 : f.mant = 0
  · -- zero
    have htext : floatEncode f = numberText f.sign [0x30] [] none := by
      unfold floatEncode
      rw [if_pos hm0]
      simp [fmtF, numberText, fractionText, exponentText]
    have hip : IntegerDigits [0x30] := Or.inl rfl
    have hfp : ∀ c ∈ ([] : GoString), isDigit c = true := fun c hc => by cases hc
    have hex : ExponentPart none := trivial
    rw [htext]
    refine ⟨scanNumber_numberText f.sign _ _ _ hip hfp hex, ?_⟩
    rw [parseFloat_unfold, readFloat_numberText f.sign _ _ _ hip hfp hex]
    have hsc : (Decimal.mk f.sign (digitsValue ([0x30] ++ [])) ([] : GoString).length
        (exponentOf none).1 (exponentOf none).2).scaled = (0, 1) := by
      simp [Decimal.scaled, exponentOf, digitsValue]
    rw [hsc]
    simp only
    rw [roundGrid_zero]
    simp only
    rw [if_neg (by decide)]
    have hexpo : f.expo = 0 := by
      rcases f.canonical with h | h
      · omega
      · exact h
    have := Float64.ofParts_parts f hfin
    rw [hm0, hexpo] at this
    exact this
  · have hm : 0 < f.mant := Nat.pos_of_ne_zero hm0
    obtain ⟨w, d, t, hlo, hhi, hds, hd0, hdig, hlen, hw, hpow⟩ := shortestDigits_spec f hm
    have hT := shortest_length_le f hfin w _ hhi hpow
    generalize hsd1 : (shortestDigits f).1 = ds at hds hdig hlen hw
    generalize hsd2 : (shortestDigits f).2 = n at hlen hw hpow hT
    subst hds
    simp only [List.length_cons] at hlen hw
    have hdd : isDigit d = true := hdig d (List.mem_cons_self _ _)
    have hdt : ∀ c ∈ t, isDigit c = true := fun c hc => hdig c (List.mem_cons_of_mem _ hc)
    have hd19 : 0x31 ≤ d ∧ d ≤ 0x39 := by
      simp only [isDigit, decide_eq_true_eq] at hdd
      omega
    have hnil : ∀ c ∈ ([] : GoString), isDigit c = true := fun c hc => by cases hc
    -- the `%e` form
    have hE : scanNumber (cleanExp (fmtE f.sign (d :: t) n))
          = some (cleanExp (fmtE f.sign (d :: t) n), []) ∧
        parseFloat (cleanExp (fmtE f.sign (d :: t) n)) = f := by
      rw [cleanExp_fmtE]
      have hip : IntegerDigits [d] := Or.inr ⟨d, [], rfl, hd19.1, hd19.2, hnil⟩
      by_cases hn : n < 1076
      · rw [if_pos hn]
        refine numberText_roundtrip f hfin hm w hlo hhi [d] t _ hip hdt
          (exponentPart_digits _ _ (Or.inl rfl)) ?_
        generalize hP : (10 : Nat) ^ 1075 = P
        simp only [exponentOf, decide_True, if_true, List.singleton_append]
        rw [expValue_decimalDigits _ (by omega), hw, ← hP]
        exact decimal_shift _ _ _ _ (by omega)
      · rw [if_neg hn]
        generalize hxn : n - 1076 = x
        refine numberText_roundtrip f hfin hm w hlo hhi [d] t _ hip hdt
          (exponentPart_digits _ _ (Or.inr rfl)) ?_
        have hx : exponentOf (some (0x2B, decimalDigits x))
            = (false, expValue (decimalDigits x)) := rfl
        generalize hP : (10 : Nat) ^ 1075 = P
        rw [hx]
        simp only [Bool.false_eq_true, if_false, List.singleton_append]
        rw [expValue_decimalDigits _ (by omega), hw, ← hP]
        exact decimal_shift2 _ _ _ _ _ (by omega)
    -- the `%f` form
    have hF : scanNumber (fmtF f.sign (d :: t) n) = some (fmtF f.sign (d :: t) n, []) ∧
        parseFloat (fmtF f.sign (d :: t) n) = f := by
      by_cases h1 : n ≤ 1075
      · rw [fmtF_small f.sign (d :: t) n (by simp) h1]
        refine numberText_roundtrip f hfin hm w hlo hhi [0x30] _ none (Or.inl rfl) ?_ trivial ?_
        · intro c hc
          rcases List.mem_append.1 hc with hc | hc
          · rw [List.eq_of_mem_replicate hc]
            decide
          · exact hdig c hc
        · generalize hP : (10 : Nat) ^ 1075 = P
          simp only [exponentOf, Bool.false_eq_true, if_false, Nat.pow_zero, Nat.mul_one,
            List.singleton_append, List.length_append, List.length_replicate, List.length_cons]
          have e1 : digitsValue (0x30 :: (List.replicate (1075 - n) 0x30 ++ d :: t))
              = digitsValue (d :: t) := by
            have : (0x30 : Nat) :: (List.replicate (1075 - n) 0x30 ++ d :: t)
                = List.replicate (1075 - n + 1) 0x30 ++ d :: t := by
              rw [List.replicate_succ]; rfl
            rw [this, digitsValue_zeros_append]
          rw [e1, hw, ← hP]
          exact decimal_shift _ _ _ _ (by omega)
      · have h1b : 1075 < n := Nat.lt_of_not_le h1
        by_cases h2 : n - 1075 < (d :: t).length
        · rw [fmtF_mixed f.sign (d :: t) n h1b h2]
          simp only [List.length_cons] at h2
          obtain ⟨j, hj⟩ : ∃ j, n - 1075 = j + 1 := ⟨n - 1075 - 1, by omega⟩
          have hip : IntegerDigits ((d :: t).take (n - 1075)) := by
            rw [hj, List.take_succ_cons]
            exact Or.inr ⟨d, t.take j, rfl, hd19.1, hd19.2,
              fun c hc => hdt c (List.mem_of_mem_take hc)⟩
          refine numberText_roundtrip f hfin hm w hlo hhi _ _ none hip
            (fun c hc => hdig c (List.mem_of_mem_drop hc)) trivial ?_
          generalize hP : (10 : Nat) ^ 1075 = P
          simp only [exponentOf, Bool.false_eq_true, if_false, Nat.pow_zero, Nat.mul_one,
            List.take_append_drop, List.length_drop, List.length_cons]
          rw [hw, ← hP]
          exact decimal_shift _ _ _ _ (by omega)
        · have h2b : (d :: t).length ≤ n - 1075 := Nat.le_of_not_lt h2
          rw [fmtF_whole f.sign (d :: t) n h1b h2b]
          simp only [List.length_cons] at h2b
          have hip : IntegerDigits (d :: t ++ List.replicate (n - 1075 - (t.length + 1)) 0x30) :=
            Or.inr ⟨d, t ++ List.replicate (n - 1075 - (t.length + 1)) 0x30,
              List.cons_append _ _ _, hd19.1,
              hd19.2, fun c hc => by
                rcases List.mem_append.1 hc with hc | hc
                · exact hdt c hc
                · rw [List.eq_of_mem_replicate hc]
                  decide⟩
          refine numberText_roundtrip f hfin hm w hlo hhi _ [] none hip hnil trivial ?_
          generalize hP : (10 : Nat) ^ 1075 = P
          simp only [exponentOf, Bool.false_eq_true, if_false, Nat.pow_zero, Nat.mul_one,
            List.append_nil, List.length_nil, List.length_cons]
          rw [digitsValue_append_zeros, hw, ← hP]
          have e2 : digitsValue (d :: t) * 10 ^ (n - 1075 - (t.length + 1)) * 10 ^ 1075
              = digitsValue (d :: t) * 10 ^ (n - (t.length + 1)) := by
            rw [Nat.mul_assoc, ← Nat.pow_add]
            have : n - 1075 - (t.length + 1) + 1075 = n - (t.length + 1) := by omega
            rw [this]
          exact e2
    unfold floatEncode
    rw [if_neg hm0]
    simp only [hsd1, hsd2]
    split
    · exact hE
    · exact hF

/-- The encoder on some numbers: the plain form between `1e-6` and `1e21`, the
exponent form outside, the exponent without a leading zero. -/
theorem floatEncode_examples :
    floatEncode (parseFloat (lit "0.1")) = lit "0.1" ∧
    floatEncode (parseFloat (lit "1.50E3")) = lit "1500" ∧
    floatEncode (parseFloat (lit "-0")) = lit "-0" ∧
    floatEncode (parseFloat (lit "100000000000000000000")) = lit "100000000000000000000" ∧
    floatEncode (parseFloat (lit "1000000000000000000000")) = lit "1e+21" ∧
    floatEncode (parseFloat (lit "0.000001")) = lit "0.000001" ∧
    floatEncode (parseFloat (lit "0.0000001")) = lit "1e-7" ∧
    floatEncode (parseFloat (lit "9007199254740993")) = lit "9007199254740992" ∧
    floatEncode (parseFloat (lit "1.7976931348623157e308")) = lit "1.7976931348623157e+308" ∧
    parseFloat (lit "1.7976931348623159e308") = Float64.inf false ∧
    parseFloat (lit "-1e999") = Float64.inf true ∧
    floatEncode (parseFloat (lit "1e-400")) = lit "0" := by
  decide!

end Chef

namespace Chef

/-! ## The decoder on the encoder's output -/

theorem skipSpace_cons (c : Nat) (rest : GoString) (h : isSpace c = false) :
    skipSpace (c :: rest) = c :: rest := by
  simp [skipSpace, h]

theorem delimited_endsNumber (rest : GoString) (h : delimited rest) : endsNumber rest := by
  cases rest with
  | nil => trivial
  | cons c t =>
    simp only [delimited] at h
    simp only [endsNumber, isDigit]
    rcases h with h | h | h <;> subst h <;> decide

theorem delimited_skipSpace (rest : GoString) (h : delimited rest) : skipSpace rest = rest := by
  cases rest with
  | nil => rfl
  | cons c t =>
    simp only [delimited] at h
    apply skipSpace_cons
    rcases h with h | h | h <;> subst h <;> decide

/-- The first byte the encoder writes for a value: no white space, no `]`. -/
theorem encodeValue_head {F : Type} (fc : FloatCodec F)
    (H1 : ∀ f, fc.finite f = true → scanNumber (fc.format f) = some (fc.format f, []))
    (v : JVal F) (hsup : supported fc v = true) :
    ∃ c t, encodeValue fc v = c :: t ∧ isSpace c = false ∧ c ≠ 0x5D := by
  cases v with
  | null => exact ⟨0x6E, _, rfl, by decide, by decide⟩
  | bool b => cases b
              · exact ⟨0x66, _, rfl, by decide, by decide⟩
              · exact ⟨0x74, _, rfl, by decide, by decide⟩
  | num f =>
    obtain ⟨c, t, h, hc⟩ := scanNumber_head _ _ (H1 f hsup)
    refine ⟨c, t, by simpa [encodeValue] using h, ?_, ?_⟩
    · rcases hc with hc | hc
      · subst hc; decide
      · simp only [isDigit, decide_eq_true_eq] at hc
        simp only [isSpace, decide_eq_false_iff_not]
        omega
    · rcases hc with hc | hc
      · subst hc; decide
      · simp only [isDigit, decide_eq_true_eq] at hc
        omega
  | str s =>
    exact ⟨0x22, appendStringLoop s.length s ++ [0x22], by simp [encodeValue, appendString],
      by decide, by decide⟩
  | arr xs =>
    exact ⟨0x5B, joinWith [0x2C] (encodeList fc xs) ++ [0x5D], by simp [encodeValue],
      by decide, by decide⟩
  | obj ms =>
    exact ⟨0x7B, joinWith [0x2C] ((sortByKey (encodeEntries fc ms)).map memberText) ++ [0x7D],
      by simp [encodeValue], by decide, by decide⟩

theorem encodeValue_length_pos {F : Type} (fc : FloatCodec F)
    (H1 : ∀ f, fc.finite f = true → scanNumber (fc.format f) = some (fc.format f, []))
    (v : JVal F) (hsup : supported fc v = true) :
    1 ≤ (encodeValue fc v).length := by
  obtain ⟨c, t, h, _⟩ := encodeValue_head fc H1 v hsup
  rw [h]
  simp

theorem parseElems_succ {F : Type} (pv : GoString → Option (JVal F × GoString))
    (fuel : Nat) (inp : GoString) :
    parseElems pv (fuel + 1) inp =
      match pv inp with
      | none => none
      | some (v, rest) =>
        match skipSpace rest with
        | [] => none
        | c :: rest1 =>
          if c = 0x2C then (parseElems pv fuel rest1).map fun p => (v :: p.1, p.2)
          else if c = 0x5D then some ([v], rest1)
          else none := rfl

/-- The elements of an array the encoder wrote are decoded one by one. -/
theorem parseElems_encode {F : Type} (enc : JVal F → GoString) (canon : JVal F → JVal F)
    (pv : GoString → Option (JVal F × GoString)) (xs : List (JVal F)) (hne : xs ≠ [])
    (hpv : ∀ x ∈ xs, ∀ rest, delimited rest → pv (enc x ++ rest) = some (canon x, rest)) :
    ∀ fuel, xs.length ≤ fuel → ∀ tail,
      parseElems pv fuel (joinWith [0x2C] (xs.map enc) ++ 0x5D :: tail)
        = some (xs.map canon, tail) := by
  induction xs with
  | nil => exact absurd rfl hne
  | cons x xs ih =>
    intro fuel hf tail
    obtain ⟨f, rfl⟩ : ∃ f, fuel = f + 1 := ⟨fuel - 1, by simp at hf; omega⟩
    cases xs with
    | nil =>
      simp only [List.map_cons, List.map_nil, joinWith]
      rw [parseElems_succ, hpv x (List.mem_cons_self _ _) _ (by simp [delimited])]
      simp [skipSpace, isSpace]
    | cons y ys =>
      simp only [List.map_cons, joinWith_cons_cons, List.append_assoc, List.singleton_append]
      rw [parseElems_succ, hpv x (List.mem_cons_self _ _) _ (by simp [delimited])]
      have := ih (by simp) (fun z hz => hpv z (List.mem_cons_of_mem _ hz)) f
        (by simp at hf ⊢; omega) tail
      simp only [List.map_cons] at this
      simp [skipSpace, isSpace, this]

theorem parseMembers_succ {F : Type} (pv : GoString → Option (JVal F × GoString))
    (fuel : Nat) (inp : GoString) :
    parseMembers pv (fuel + 1) inp =
      match skipSpace inp with
      | [] => none
      | q :: rest =>
        if q = 0x22 then
          match scanString rest with
          | none => none
          | some (body, rest1) =>
            match unquote body with
            | none => none
            | some key =>
              match skipSpace rest1 with
              | [] => none
              | colon :: rest2 =>
                if colon = 0x3A then
                  match pv rest2 with
                  | none => none
                  | some (v, rest3) =>
                    match skipSpace rest3 with
                    | [] => none
                    | c :: rest4 =>
                      if c = 0x2C then
                        (parseMembers pv fuel rest4).map fun p => ((key, v) :: p.1, p.2)
                      else if c = 0x7D then some ([(key, v)], rest4)
                      else none
                else none
        else none := rfl

/-- One member the encoder wrote, up to the value: the key is found again. -/
theorem memberText_append (k : GoString) (hk : ValidUTF8 k) (t : GoString) :
    ∃ body, (∀ rest, memberText (k, t) ++ rest = 0x22 :: (body ++ 0x22 :: 0x3A :: (t ++ rest))) ∧
      (∀ r2, scanString (body ++ 0x22 :: r2) = some (body, r2)) ∧ unquote body = some k := by
  obtain ⟨rs, hs, rfl⟩ := hk
  refine ⟨escapeRunes rs, ?_, fun r2 => scanString_escapeRunes rs hs r2,
    unquote_escapeRunes rs hs⟩
  intro rest
  simp [memberText, appendString_valid rs hs]

/-- The members of an object the encoder wrote are decoded one by one. -/
theorem parseMembers_encode {F : Type} (enc : JVal F → GoString) (canon : JVal F → JVal F)
    (pv : GoString → Option (JVal F × GoString)) (ms : List (GoString × JVal F))
    (hne : ms ≠ [])
    (hkey : ∀ e ∈ ms, ValidUTF8 e.1)
    (hpv : ∀ e ∈ ms, ∀ rest, delimited rest → pv (enc e.2 ++ rest) = some (canon e.2, rest)) :
    ∀ fuel, ms.length ≤ fuel → ∀ tail,
      parseMembers pv fuel
          (joinWith [0x2C] (ms.map fun e => memberText (e.1, enc e.2)) ++ 0x7D :: tail)
        = some (ms.map (fun e => (e.1, canon e.2)), tail) := by
  induction ms with
  | nil => exact absurd rfl hne
  | cons e ms ih =>
    intro fuel hf tail
    obtain ⟨f, rfl⟩ : ∃ f, fuel = f + 1 := ⟨fuel - 1, by simp at hf; omega⟩
    cases ms with
    | nil =>
      simp only [List.map_cons, List.map_nil, joinWith]
      obtain ⟨body, hb, hscan, hunq⟩ :=
        memberText_append e.1 (hkey e (List.mem_cons_self _ _)) (enc e.2)
      rw [parseMembers_succ, hb, skipSpace_cons _ _ (by decide)]
      simp only [if_true, hscan, hunq]
      rw [skipSpace_cons _ _ (by decide)]
      simp only [if_true]
      rw [hpv e (List.mem_cons_self _ _) _ (by simp [delimited])]
      simp [skipSpace, isSpace]
    | cons y ys =>
      simp only [List.map_cons, joinWith_cons_cons, List.append_assoc, List.singleton_append]
      obtain ⟨body, hb, hscan, hunq⟩ :=
        memberText_append e.1 (hkey e (List.mem_cons_self _ _)) (enc e.2)
      rw [parseMembers_succ, hb, skipSpace_cons _ _ (by decide)]
      simp only [if_true, hscan, hunq]
      rw [skipSpace_cons _ _ (by decide)]
      simp only [if_true]
      rw [hpv e (List.mem_cons_self _ _) _ (by simp [delimited])]
      have := ih (by simp) (fun z hz => hkey z (List.mem_cons_of_mem _ hz))
        (fun z hz => hpv z (List.mem_cons_of_mem _ hz)) f (by simp at hf ⊢; omega) tail
      simp only [List.map_cons] at this
      simp [skipSpace, isSpace, this]

end Chef

namespace Chef

theorem parseValue_succ {F : Type} (fc : FloatCodec F) (n depth : Nat) (inp : GoString) :
    parseValue fc (n + 1) depth inp =
      match skipSpace inp with
      | [] => none
      | c :: rest =>
        if c = 0x7B then
          if maxNestingDepth < depth + 1 then none
          else
            match skipSpace rest with
            | [] => none
            | d :: rest1 =>
              if d = 0x7D then some (.obj [], rest1)
              else (parseMembers (parseValue fc n (depth + 1)) rest.length rest).map
                fun p => (.obj (buildMap p.1), p.2)
        else if c = 0x5B then
          if maxNestingDepth < depth + 1 then none
          else
            match skipSpace rest with
            | [] => none
            | d :: rest1 =>
              if d = 0x5D then some (.arr [], rest1)
              else (parseElems (parseValue fc n (depth + 1)) rest.length rest).map
                fun p => (.arr p.1, p.2)
        else if c = 0x22 then
          match scanString rest with
          | none => none
          | some (body, rest1) => (unquote body).map fun s => (.str s, rest1)
        else if c = 0x74 then
          match rest with
          | 0x72 :: 0x75 :: 0x65 :: rest1 => some (.bool true, rest1)
          | _ => none
        else if c = 0x66 then
          match rest with
          | 0x61 :: 0x6C :: 0x73 :: 0x65 :: rest1 => some (.bool false, rest1)
          | _ => none
        else if c = 0x6E then
          match rest with
          | 0x75 :: 0x6C :: 0x6C :: rest1 => some (.null, rest1)
          | _ => none
        else if c = 0x2D ∨ isDigit c then
          (scanNumber (c :: rest)).map fun p => (numberValue fc p.1, p.2)
        else none := rfl

theorem parseValue_number {F : Type} (fc : FloatCodec F)
    (H1 : ∀ f, fc.finite f = true → scanNumber (fc.format f) = some (fc.format f, []))
    (H2 : ∀ f, fc.finite f = true → fc.parse (fc.format f) = f) (f : F) (hf : fc.finite f = true)
    (n depth : Nat) (rest : GoString) (hrest : delimited rest) :
    parseValue fc (n + 1) depth (fc.format f ++ rest) = some (.num f, rest) := by
  obtain ⟨c, t, h, hc⟩ := scanNumber_head _ _ (H1 f hf)
  have hscan := scanNumber_append _ rest (H1 f hf) (delimited_endsNumber rest hrest)
  rw [parseValue_succ]
  rw [h] at hscan ⊢
  have hsp : isSpace c = false := by
    rcases hc with hc | hc
    · subst hc; decide
    · simp only [isDigit, decide_eq_true_eq] at hc
      simp only [isSpace, decide_eq_false_iff_not]
      omega
  rw [List.cons_append, skipSpace_cons _ _ hsp]
  rw [List.cons_append] at hscan
  have hnum : numberValue fc (c :: t) = .num f := by
    rw [← h]
    simp [numberValue, H2 f hf]
  have e1 : ¬ c = 0x7B := by
    rcases hc with hc | hc
    · subst hc; decide
    · simp only [isDigit, decide_eq_true_eq] at hc; omega
  have e2 : ¬ c = 0x5B := by
    rcases hc with hc | hc
    · subst hc; decide
    · simp only [isDigit, decide_eq_true_eq] at hc; omega
  have e3 : ¬ c = 0x22 := by
    rcases hc with hc | hc
    · subst hc; decide
    · simp only [isDigit, decide_eq_true_eq] at hc; omega
  have e4 : ¬ c = 0x74 := by
    rcases hc with hc | hc
    · subst hc; decide
    · simp only [isDigit, decide_eq_true_eq] at hc; omega
  have e5 : ¬ c = 0x66 := by
    rcases hc with hc | hc
    · subst hc; decide
    · simp only [isDigit, decide_eq_true_eq] at hc; omega
  have e6 : ¬ c = 0x6E := by
    rcases hc with hc | hc
    · subst hc; decide
    · simp only [isDigit, decide_eq_true_eq] at hc; omega
  simp only [e1, e2, e3, e4, e5, e6, if_false, hc, if_true, hscan, Option.map_some', hnum]

theorem parseValue_string {F : Type} (fc : FloatCodec F) (s : GoString) (hs : ValidUTF8 s)
    (n depth : Nat) (rest : GoString) :
    parseValue fc (n + 1) depth (appendString s ++ rest) = some (.str s, rest) := by
  obtain ⟨rs, hrs, rfl⟩ := hs
  rw [appendString_valid rs hrs, parseValue_succ]
  simp only [List.cons_append, List.append_assoc, List.singleton_append]
  rw [skipSpace_cons _ _ (by decide)]
  simp [scanString_escapeRunes rs hrs, unquote_escapeRunes rs hrs]

end Chef

namespace Chef

theorem encodeValue_arr {F : Type} (fc : FloatCodec F) (xs : List (JVal F)) :
    encodeValue fc (.arr xs) = 0x5B :: (joinWith [0x2C] (xs.map (encodeValue fc)) ++ [0x5D]) := by
  rw [encodeValue, encodeList_eq_map]

theorem encodeValue_obj {F : Type} (fc : FloatCodec F) (ms : List (GoString × JVal F)) :
    encodeValue fc (.obj ms) =
      0x7B :: (joinWith [0x2C]
        ((sortByKey ms).map fun e => memberText (e.1, encodeValue fc e.2)) ++ [0x7D]) := by
  rw [encodeValue, encodeEntries_eq_map, ← sortByKey_map, List.map_map]
  rfl

theorem canonical_obj {F : Type} (ms : List (GoString × JVal F)) :
    canonical (.obj ms) = .obj ((sortByKey ms).map fun e => (e.1, canonical e.2)) := by
  rw [canonical, canonicalEntries_eq_map, ← sortByKey_map]

theorem canonical_arr {F : Type} (xs : List (JVal F)) :
    canonical (.arr xs) = .arr (xs.map canonical) := by
  rw [canonical, canonicalList_eq_map]

theorem memberText_length (k t : GoString) : 1 ≤ (memberText (k, t)).length := by
  simp [memberText, appendString]

theorem memberText_value_length (k t : GoString) : t.length < (memberText (k, t)).length := by
  simp [memberText, appendString]
  omega

theorem joinWith_head (sep a : GoString) (l : List GoString) (tail : GoString) (c : Nat)
    (t : GoString) (h : a = c :: t) : ∃ t2, joinWith sep (a :: l) ++ tail = c :: t2 := by
  subst h
  cases l with
  | nil => exact ⟨t ++ tail, by simp [joinWith]⟩
  | cons y ys =>
    exact ⟨t ++ sep ++ joinWith sep (y :: ys) ++ tail, by simp [joinWith_cons_cons]⟩

theorem parseValue_array {F : Type} (fc : FloatCodec F) (m depth : Nat) (body : GoString)
    (c : Nat) (t2 : GoString) (hd : depth + 1 ≤ maxNestingDepth) (hbody : body = c :: t2)
    (hsp : isSpace c = false) (hnb : c ≠ 0x5D) :
    parseValue fc (m + 1) depth (0x5B :: body) =
      (parseElems (parseValue fc m (depth + 1)) body.length body).map
        fun p => (.arr p.1, p.2) := by
  rw [parseValue_succ, skipSpace_cons _ _ (by decide)]
  simp only [show ¬ ((0x5B : Nat) = 0x7B) by decide, if_false, if_true,
    show ¬ (maxNestingDepth < depth + 1) by omega]
  rw [hbody, skipSpace_cons _ _ hsp]
  simp only [hnb, if_false]

theorem parseValue_object {F : Type} (fc : FloatCodec F) (m depth : Nat) (body : GoString)
    (c : Nat) (t2 : GoString) (hd : depth + 1 ≤ maxNestingDepth) (hbody : body = c :: t2)
    (hsp : isSpace c = false) (hnb : c ≠ 0x7D) :
    parseValue fc (m + 1) depth (0x7B :: body) =
      (parseMembers (parseValue fc m (depth + 1)) body.length body).map
        fun p => (.obj (buildMap p.1), p.2) := by
  rw [parseValue_succ, skipSpace_cons _ _ (by decide)]
  simp only [if_true, if_false, show ¬ (maxNestingDepth < depth + 1) by omega]
  rw [hbody, skipSpace_cons _ _ hsp]
  simp only [hnb, if_false]

theorem parseValue_empty_array {F : Type} (fc : FloatCodec F) (m depth : Nat)
    (rest : GoString) (hd : depth + 1 ≤ maxNestingDepth) :
    parseValue fc (m + 1) depth (0x5B :: 0x5D :: rest) = some (.arr [], rest) := by
  rw [parseValue_succ, skipSpace_cons _ _ (by decide)]
  simp only [show ¬ ((0x5B : Nat) = 0x7B) by decide, if_false, if_true,
    show ¬ (maxNestingDepth < depth + 1) by omega]
  rw [skipSpace_cons _ _ (by decide)]
  simp

theorem parseValue_empty_object {F : Type} (fc : FloatCodec F) (m depth : Nat)
    (rest : GoString) (hd : depth + 1 ≤ maxNestingDepth) :
    parseValue fc (m + 1) depth (0x7B :: 0x7D :: rest) = some (.obj [], rest) := by
  rw [parseValue_succ, skipSpace_cons _ _ (by decide)]
  simp only [if_true, if_false, show ¬ (maxNestingDepth < depth + 1) by omega]
  rw [skipSpace_cons _ _ (by decide)]
  simp

theorem nestingList_le {F : Type} (xs : List (JVal F)) (x : JVal F) (h : x ∈ xs) :
    nesting x ≤ nestingList xs := by
  induction xs with
  | nil => cases h
  | cons y ys ih =>
    rw [nestingList]
    rcases List.mem_cons.1 h with h | h
    · subst h; exact Nat.le_max_left _ _
    · exact Nat.le_trans (ih h) (Nat.le_max_right _ _)

theorem nestingEntries_le {F : Type} (ms : List (GoString × JVal F)) (e : GoString × JVal F)
    (h : e ∈ ms) : nesting e.2 ≤ nestingEntries ms := by
  induction ms with
  | nil => cases h
  | cons y ys ih =>
    rw [nestingEntries]
    rcases List.mem_cons.1 h with h | h
    · subst h; exact Nat.le_max_left _ _
    · exact Nat.le_trans (ih h) (Nat.le_max_right _ _)

/-- The decoder reads back what the encoder wrote: the value with the
entries of every map in key order. -/
theorem parseValue_encodeValue {F : Type} (fc : FloatCodec F)
    (H1 : ∀ f, fc.finite f = true → scanNumber (fc.format f) = some (fc.format f, []))
    (H2 : ∀ f, fc.finite f = true → fc.parse (fc.format f) = f) (v : JVal F) :
    wellFormed v → supported fc v = true → ∀ n, (encodeValue fc v).length ≤ n →
      ∀ depth, depth + nesting v ≤ maxNestingDepth → ∀ rest, delimited rest →
      parseValue fc n depth (encodeValue fc v ++ rest) = some (canonical v, rest) := by
  induction v using JVal.induct_aux with
  | hnull =>
    intro _ _ n hn depth _ rest _
    obtain ⟨m, rfl⟩ : ∃ m, n = m + 1 := ⟨n - 1, by
      have : (encodeValue fc (JVal.null : JVal F)).length = 4 := rfl
      omega⟩
    rfl
  | hbool b =>
    intro _ hsup n hn depth _ rest _
    obtain ⟨m, rfl⟩ : ∃ m, n = m + 1 := ⟨n - 1, by
      have := encodeValue_length_pos fc H1 (.bool b) hsup
      omega⟩
    cases b <;> rfl
  | hnum f =>
    intro _ hsup n hn depth _ rest hrest
    obtain ⟨m, rfl⟩ : ∃ m, n = m + 1 := ⟨n - 1, by
      have := encodeValue_length_pos fc H1 (.num f) hsup
      omega⟩
    rw [supported_num] at hsup
    exact parseValue_number fc H1 H2 f hsup m depth rest hrest
  | hstr s =>
    intro hwf hsup n hn depth _ rest _
    obtain ⟨m, rfl⟩ : ∃ m, n = m + 1 := ⟨n - 1, by
      have := encodeValue_length_pos fc H1 (.str s) hsup
      omega⟩
    exact parseValue_string fc s hwf m depth rest
  | harr xs ih =>
    intro hwf hsup n hn depth hdepth rest _
    rw [supported_arr] at hsup
    rw [nesting] at hdepth
    rw [wellFormed, wellFormedList_iff] at hwf
    rw [encodeValue_arr] at hn ⊢
    obtain ⟨m, rfl⟩ : ∃ m, n = m + 1 := ⟨n - 1, by simp at hn; omega⟩
    rw [canonical_arr]
    have hshape : 0x5B :: (joinWith [0x2C] (xs.map (encodeValue fc)) ++ [0x5D]) ++ rest
        = 0x5B :: (joinWith [0x2C] (xs.map (encodeValue fc)) ++ 0x5D :: rest) := by simp
    rw [hshape]
    cases xs with
    | nil => exact parseValue_empty_array fc m depth rest (by omega)
    | cons x xs =>
      have hpv : ∀ z ∈ x :: xs, ∀ r, delimited r →
          parseValue fc m (depth + 1) (encodeValue fc z ++ r) = some (canonical z, r) := by
        intro z hz r hr
        have hnz := nestingList_le _ z hz
        refine ih z hz (hwf z hz) (hsup z hz) m ?_ (depth + 1) (by omega) r hr
        have := joinWith_mem_length [0x2C] ((x :: xs).map (encodeValue fc)) (encodeValue fc z)
          (List.mem_map_of_mem _ hz)
        simp only [List.length_cons, List.length_append] at hn
        omega
      have hlen : (x :: xs).length ≤
          (joinWith [0x2C] ((x :: xs).map (encodeValue fc)) ++ 0x5D :: rest).length := by
        have := joinWith_length [0x2C] ((x :: xs).map (encodeValue fc)) (by
          intro a ha
          obtain ⟨z, hz, rfl⟩ := List.mem_map.1 ha
          exact encodeValue_length_pos fc H1 z (hsup z hz))
        simp only [List.length_map] at this
        simp only [List.length_append]
        omega
      have hel := parseElems_encode (encodeValue fc) canonical (parseValue fc m (depth + 1))
        (x :: xs)
        (by simp) hpv _ hlen rest
      obtain ⟨c, t, hc, hsp, hnb⟩ := encodeValue_head fc H1 x
        (hsup x (List.mem_cons_self _ _))
      obtain ⟨t2, ht2⟩ := joinWith_head [0x2C] (encodeValue fc x) (xs.map (encodeValue fc))
        (0x5D :: rest) c t hc
      have ht3 : joinWith [0x2C] ((x :: xs).map (encodeValue fc)) ++ 0x5D :: rest = c :: t2 :=
        ht2
      rw [parseValue_array fc m depth _ c t2 (by omega) ht3 hsp hnb, hel]
      rfl
  | hobj ms ih =>
    intro hwf hsup n hn depth hdepth rest _
    rw [supported_obj] at hsup
    rw [nesting] at hdepth
    rw [wellFormed, wellFormedEntries_iff] at hwf
    obtain ⟨hnodup, hwfe⟩ := hwf
    rw [encodeValue_obj] at hn ⊢
    obtain ⟨m, rfl⟩ : ∃ m, n = m + 1 := ⟨n - 1, by simp at hn; omega⟩
    rw [canonical_obj]
    have hperm := sortByKey_perm ms
    have hSnodup : (keysOf (sortByKey ms)).Nodup := keysOf_sortByKey_nodup ms hnodup
    generalize sortByKey ms = S at hn hperm hSnodup ⊢
    have hshape : 0x7B :: (joinWith [0x2C]
          (S.map fun e => memberText (e.1, encodeValue fc e.2)) ++ [0x7D]) ++ rest
        = 0x7B :: (joinWith [0x2C]
          (S.map fun e => memberText (e.1, encodeValue fc e.2)) ++ 0x7D :: rest) := by simp
    rw [hshape]
    cases S with
    | nil => exact parseValue_empty_object fc m depth rest (by omega)
    | cons x xs =>
      have hmem : ∀ z ∈ x :: xs, z ∈ ms := fun z hz => hperm.subset hz
      have hpv : ∀ z ∈ x :: xs, ∀ r, delimited r →
          parseValue fc m (depth + 1) (encodeValue fc z.2 ++ r) = some (canonical z.2, r) := by
        intro z hz r hr
        have hnz := nestingEntries_le _ z (hmem z hz)
        refine ih z (hmem z hz) (hwfe z (hmem z hz)).2 (hsup z (hmem z hz)) m ?_ (depth + 1)
          (by omega) r hr
        have := joinWith_mem_length [0x2C]
          ((x :: xs).map fun e => memberText (e.1, encodeValue fc e.2))
          (memberText (z.1, encodeValue fc z.2))
          (List.mem_map_of_mem (fun e => memberText (e.1, encodeValue fc e.2)) hz)
        have h2 := memberText_value_length z.1 (encodeValue fc z.2)
        simp only [List.length_cons, List.length_append] at hn
        omega
      have hlen : (x :: xs).length ≤
          (joinWith [0x2C] ((x :: xs).map fun e => memberText (e.1, encodeValue fc e.2))
            ++ 0x7D :: rest).length := by
        have := joinWith_length [0x2C]
          ((x :: xs).map fun e => memberText (e.1, encodeValue fc e.2)) (by
          intro a ha
          obtain ⟨z, _, rfl⟩ := List.mem_map.1 ha
          exact memberText_length _ _)
        simp only [List.length_map] at this
        simp only [List.length_append]
        omega
      have hel := parseMembers_encode (encodeValue fc) canonical
        (parseValue fc m (depth + 1)) (x :: xs)
        (by simp) (fun z hz => (hwfe z (hmem z hz)).1) hpv _ hlen rest
      obtain ⟨t2, ht2⟩ := joinWith_head [0x2C] (memberText (x.1, encodeValue fc x.2))
        (xs.map fun e => memberText (e.1, encodeValue fc e.2)) (0x7D :: rest) 0x22
        (appendStringLoop x.1.length x.1 ++ [0x22] ++ 0x3A :: encodeValue fc x.2)
        (by simp [memberText, appendString])
      have hbm : buildMap ((x :: xs).map fun e => (e.1, canonical e.2))
          = (x :: xs).map fun e => (e.1, canonical e.2) := by
        apply buildMap_nodup
        unfold keysOf at hSnodup ⊢
        rw [List.map_map]
        exact hSnodup
      have ht3 : joinWith [0x2C] ((x :: xs).map fun e => memberText (e.1, encodeValue fc e.2))
          ++ 0x7D :: rest = 0x22 :: t2 := ht2
      rw [parseValue_object fc m depth _ 0x22 t2 (by omega) ht3 (by decide) (by decide), hel]
      simp only [Option.map_some', hbm]

end Chef

namespace Chef

/-! ## The encoder does not depend on the order of the entries -/

theorem encodeValue_canonical {F : Type} (fc : FloatCodec F) (v : JVal F) :
    encodeValue fc (canonical v) = encodeValue fc v := by
  induction v using JVal.induct_aux with
  | hnull => rfl
  | hbool b => rfl
  | hnum f => rfl
  | hstr s => rfl
  | harr xs ih =>
    rw [canonical_arr, encodeValue_arr, encodeValue_arr, List.map_map]
    congr 2
    apply congrArg
    apply List.map_congr_left
    intro x hx
    exact ih x hx
  | hobj ms ih =>
    rw [canonical_obj, encodeValue_obj, encodeValue_obj]
    rw [← sortByKey_map, sortByKey_idem, List.map_map]
    congr 2
    apply congrArg
    apply List.map_congr_left
    intro e he
    simp only [Function.comp]
    rw [ih e ((sortByKey_perm ms).subset he)]

/-! ## The decoder builds well-formed values -/

theorem isScalar_runeError : isScalar runeError := by
  unfold isScalar runeError
  omega

/-- What `EncodeRune` writes is always the encoding of a scalar value. -/
theorem encodeRune_scalar (r : Nat) : ∃ r2, isScalar r2 ∧ encodeRune r = encodeRune r2 := by
  by_cases h : isScalar r
  · exact ⟨r, h, rfl⟩
  · refine ⟨runeError, isScalar_runeError, ?_⟩
    unfold isScalar at h
    have h1 : ¬ r < 0x80 := by omega
    have h2 : ¬ r < 0x800 := by omega
    have h3 : 0x10FFFF < r ∨ (0xD800 ≤ r ∧ r ≤ 0xDFFF) := by omega
    simp only [encodeRune, h1, h2, h3, if_false, if_true]
    rfl

theorem validUTF8_nil : ValidUTF8 [] := ⟨[], by simp, rfl⟩

theorem validUTF8_rune (r : Nat) (s : GoString) (h : ValidUTF8 s) :
    ValidUTF8 (encodeRune r ++ s) := by
  obtain ⟨rs, hrs, rfl⟩ := h
  obtain ⟨r2, hr2, he⟩ := encodeRune_scalar r
  refine ⟨r2 :: rs, ?_, by rw [he]; rfl⟩
  intro x hx
  rcases List.mem_cons.1 hx with hx | hx
  · subst hx; exact hr2
  · exact hrs x hx

theorem validUTF8_ascii (c : Nat) (s : GoString) (hc : c < 0x80) (h : ValidUTF8 s) :
    ValidUTF8 (c :: s) := by
  have := validUTF8_rune c s h
  rwa [encodeRune_ascii c hc] at this

theorem unquoteLoop_valid (fuel : Nat) :
    ∀ body s, unquoteLoop fuel body = some s → ValidUTF8 s := by
  induction fuel with
  | zero => intro body s h; simp [unquoteLoop] at h
  | succ fuel ih =>
    intro body s h
    cases body with
    | nil =>
      rw [unquoteLoop_nil] at h
      cases h
      exact validUTF8_nil
    | cons c rest =>
      rw [unquoteLoop_cons] at h
      have key : ∀ (inp pre : GoString), (∀ t, ValidUTF8 t → ValidUTF8 (pre ++ t)) →
          (unquoteLoop fuel inp).map (pre ++ ·) = some s → ValidUTF8 s := by
        intro inp pre hpre hm
        cases hu : unquoteLoop fuel inp with
        | none => rw [hu] at hm; cases hm
        | some t =>
          rw [hu] at hm
          simp only [Option.map_some', Option.some.injEq] at hm
          rw [← hm]
          exact hpre t (ih inp t hu)
      have keyc : ∀ (inp : GoString) (b : Nat), b < 0x80 →
          (unquoteLoop fuel inp).map (b :: ·) = some s → ValidUTF8 s := by
        intro inp b hb hm
        exact key inp [b] (fun t ht => validUTF8_ascii b t hb ht) hm
      by_cases h1 : c = 0x5C
      · rw [if_pos h1] at h
        cases rest with
        | nil => cases h
        | cons e rest1 =>
          simp only at h
          by_cases g1 : e = 0x22 ∨ e = 0x5C ∨ e = 0x2F ∨ e = 0x27
          · rw [if_pos g1] at h
            exact keyc _ e (by omega) h
          · rw [if_neg g1] at h
            by_cases g2 : e = 0x62
            · rw [if_pos g2] at h
              exact keyc _ _ (by omega) h
            · rw [if_neg g2] at h
              by_cases g3 : e = 0x66
              · rw [if_pos g3] at h
                exact keyc _ _ (by omega) h
              · rw [if_neg g3] at h
                by_cases g4 : e = 0x6E
                · rw [if_pos g4] at h
                  exact keyc _ _ (by omega) h
                · rw [if_neg g4] at h
                  by_cases g5 : e = 0x72
                  · rw [if_pos g5] at h
                    exact keyc _ _ (by omega) h
                  · rw [if_neg g5] at h
                    by_cases g6 : e = 0x74
                    · rw [if_pos g6] at h
                      exact keyc _ _ (by omega) h
                    · rw [if_neg g6] at h
                      by_cases g7 : e = 0x75
                      · rw [if_pos g7] at h
                        cases hg : getu4 (c :: e :: rest1) with
                        | none => rw [hg] at h; cases h
                        | some rr =>
                          rw [hg] at h
                          simp only at h
                          by_cases k1 : isSurrogate rr = true
                          · rw [if_pos k1] at h
                            by_cases k2 : utf16DecodeRune rr (getu4 (List.drop 4 rest1))
                                ≠ runeError
                            · rw [if_pos k2] at h
                              exact key _ _ (fun t ht => validUTF8_rune _ t ht) h
                            · rw [if_neg k2] at h
                              exact key _ _ (fun t ht => validUTF8_rune _ t ht) h
                          · rw [if_neg k1] at h
                            exact key _ _ (fun t ht => validUTF8_rune _ t ht) h
                      · rw [if_neg g7] at h
                        cases h
      · rw [if_neg h1] at h
        by_cases h2 : c = 0x22 ∨ c < 0x20
        · rw [if_pos h2] at h
          cases h
        · rw [if_neg h2] at h
          by_cases h3 : c < 0x80
          · rw [if_pos h3] at h
            exact keyc _ c h3 h
          · rw [if_neg h3] at h
            exact key _ _ (fun t ht => validUTF8_rune _ t ht) h

theorem unquote_valid (body s : GoString) (h : unquote body = some s) : ValidUTF8 s :=
  unquoteLoop_valid _ body s h

end Chef

namespace Chef

theorem mem_mapSet {α : Type} (m : List (GoString × α)) (k : GoString) (v : α)
    (e : GoString × α) (h : e ∈ mapSet m k v) : e ∈ m ∨ e = (k, v) := by
  induction m with
  | nil =>
    simp only [mapSet, List.mem_singleton] at h
    exact Or.inr h
  | cons x t ih =>
    by_cases hx : x.1 = k
    · simp only [mapSet, hx, if_true, List.mem_cons] at h
      rcases h with h | h
      · exact Or.inr h
      · exact Or.inl (List.mem_cons_of_mem _ h)
    · simp only [mapSet, hx, if_false, List.mem_cons] at h
      rcases h with h | h
      · exact Or.inl (h ▸ List.mem_cons_self _ _)
      · rcases ih h with h | h
        · exact Or.inl (List.mem_cons_of_mem _ h)
        · exact Or.inr h

theorem mem_foldl_mapSet {α : Type} (l acc : List (GoString × α)) (e : GoString × α)
    (h : e ∈ l.foldl (fun m x => mapSet m x.1 x.2) acc) : e ∈ acc ∨ e ∈ l := by
  induction l generalizing acc with
  | nil => exact Or.inl h
  | cons x l ih =>
    rcases ih _ h with h | h
    · rcases mem_mapSet acc x.1 x.2 e h with h | h
      · exact Or.inl h
      · exact Or.inr (h ▸ List.mem_cons_self _ _)
    · exact Or.inr (List.mem_cons_of_mem _ h)

/-- Every entry of the map the decoder builds is one of the members read. -/
theorem mem_buildMap {α : Type} (l : List (GoString × α)) (e : GoString × α)
    (h : e ∈ buildMap l) : e ∈ l := by
  rcases mem_foldl_mapSet l [] e h with h | h
  · cases h
  · exact h

theorem parseElems_inv {F : Type} (P : JVal F → Prop)
    (pv : GoString → Option (JVal F × GoString))
    (hpv : ∀ inp v r, pv inp = some (v, r) → P v) (fuel : Nat) :
    ∀ inp vs r, parseElems pv fuel inp = some (vs, r) → ∀ v ∈ vs, P v := by
  induction fuel with
  | zero => intro inp vs r h; simp [parseElems] at h
  | succ fuel ih =>
    intro inp vs r h
    rw [parseElems_succ] at h
    cases h1 : pv inp with
    | none => rw [h1] at h; cases h
    | some p =>
      obtain ⟨v, rest⟩ := p
      rw [h1] at h
      simp only at h
      cases h2 : skipSpace rest with
      | nil => rw [h2] at h; cases h
      | cons c rest1 =>
        rw [h2] at h
        simp only at h
        by_cases hc : c = 0x2C
        · rw [if_pos hc] at h
          cases h3 : parseElems pv fuel rest1 with
          | none => rw [h3] at h; cases h
          | some q =>
            rw [h3] at h
            simp only [Option.map_some', Option.some.injEq, Prod.mk.injEq] at h
            intro x hx
            rw [← h.1] at hx
            rcases List.mem_cons.1 hx with hx | hx
            · subst hx; exact hpv _ _ _ h1
            · exact ih rest1 q.1 q.2 (by rw [h3]) x hx
        · rw [if_neg hc] at h
          by_cases hd : c = 0x5D
          · rw [if_pos hd] at h
            simp only [Option.some.injEq, Prod.mk.injEq] at h
            intro x hx
            rw [← h.1] at hx
            simp only [List.mem_singleton] at hx
            subst hx
            exact hpv _ _ _ h1
          · rw [if_neg hd] at h
            cases h

theorem parseMembers_inv {F : Type} (P : JVal F → Prop)
    (pv : GoString → Option (JVal F × GoString))
    (hpv : ∀ inp v r, pv inp = some (v, r) → P v) (fuel : Nat) :
    ∀ inp ms r, parseMembers pv fuel inp = some (ms, r) →
      ∀ e ∈ ms, ValidUTF8 e.1 ∧ P e.2 := by
  induction fuel with
  | zero => intro inp vs r h; simp [parseMembers] at h
  | succ fuel ih =>
    intro inp ms r h
    rw [parseMembers_succ] at h
    cases h0 : skipSpace inp with
    | nil => rw [h0] at h; cases h
    | cons q rest =>
      rw [h0] at h
      simp only at h
      by_cases hq : q = 0x22
      · rw [if_pos hq] at h
        cases hs : scanString rest with
        | none => rw [hs] at h; cases h
        | some p =>
          obtain ⟨body, rest1⟩ := p
          rw [hs] at h
          simp only at h
          cases hu : unquote body with
          | none => rw [hu] at h; cases h
          | some key =>
            rw [hu] at h
            simp only at h
            cases h2 : skipSpace rest1 with
            | nil => rw [h2] at h; cases h
            | cons colon rest2 =>
              rw [h2] at h
              simp only at h
              by_cases hcol : colon = 0x3A
              · rw [if_pos hcol] at h
                cases h1 : pv rest2 with
                | none => rw [h1] at h; cases h
                | some p =>
                  obtain ⟨v, rest3⟩ := p
                  rw [h1] at h
                  simp only at h
                  cases h3 : skipSpace rest3 with
                  | nil => rw [h3] at h; cases h
                  | cons c rest4 =>
                    rw [h3] at h
                    simp only at h
                    have hkv : ValidUTF8 key ∧ P v :=
                      ⟨unquote_valid body key hu, hpv _ _ _ h1⟩
                    by_cases hc : c = 0x2C
                    · rw [if_pos hc] at h
                      cases h4 : parseMembers pv fuel rest4 with
                      | none => rw [h4] at h; cases h
                      | some q2 =>
                        rw [h4] at h
                        simp only [Option.map_some', Option.some.injEq, Prod.mk.injEq] at h
                        intro x hx
                        rw [← h.1] at hx
                        rcases List.mem_cons.1 hx with hx | hx
                        · subst hx; exact hkv
                        · exact ih rest4 q2.1 q2.2 (by rw [h4]) x hx
                    · rw [if_neg hc] at h
                      by_cases hd : c = 0x7D
                      · rw [if_pos hd] at h
                        simp only [Option.some.injEq, Prod.mk.injEq] at h
                        intro x hx
                        rw [← h.1] at hx
                        simp only [List.mem_singleton] at hx
                        subst hx
                        exact hkv
                      · rw [if_neg hd] at h
                        cases h
              · rw [if_neg hcol] at h
                cases h
      · rw [if_neg hq] at h
        cases h

theorem nestingList_bound {F : Type} (xs : List (JVal F)) (b : Nat)
    (h : ∀ x ∈ xs, nesting x ≤ b) : nestingList xs ≤ b := by
  induction xs with
  | nil => simp [nestingList]
  | cons y ys ih =>
    rw [nestingList]
    exact Nat.max_le.2 ⟨h y (List.mem_cons_self _ _),
      ih (fun x hx => h x (List.mem_cons_of_mem _ hx))⟩

theorem nestingEntries_bound {F : Type} (ms : List (GoString × JVal F)) (b : Nat)
    (h : ∀ e ∈ ms, nesting e.2 ≤ b) : nestingEntries ms ≤ b := by
  induction ms with
  | nil => simp [nestingEntries]
  | cons y ys ih =>
    rw [nestingEntries]
    exact Nat.max_le.2 ⟨h y (List.mem_cons_self _ _),
      ih (fun x hx => h x (List.mem_cons_of_mem _ hx))⟩

/-- Every value the decoder returns is well formed and nested no deeper
than the scanner allows. -/
theorem parseValue_inv {F : Type} (fc : FloatCodec F) (n : Nat) :
    ∀ depth, depth ≤ maxNestingDepth → ∀ inp v r, parseValue fc n depth inp = some (v, r) →
      wellFormed v ∧ depth + nesting v ≤ maxNestingDepth := by
  induction n with
  | zero => intro depth _ inp v r h; simp [parseValue] at h
  | succ n ih =>
    intro depth hlim inp v r h
    rw [parseValue_succ] at h
    cases h0 : skipSpace inp with
    | nil => rw [h0] at h; cases h
    | cons c rest =>
      rw [h0] at h
      simp only at h
      by_cases c1 : c = 0x7B
      · rw [if_pos c1] at h
        by_cases hdep : maxNestingDepth < depth + 1
        · rw [if_pos hdep] at h; cases h
        rw [if_neg hdep] at h
        cases h2 : skipSpace rest with
        | nil => rw [h2] at h; cases h
        | cons d rest1 =>
          rw [h2] at h
          simp only at h
          by_cases hd : d = 0x7D
          · rw [if_pos hd] at h
            simp only [Option.some.injEq, Prod.mk.injEq] at h
            rw [← h.1]
            refine ⟨by simp [wellFormed, wellFormedEntries, keysOf], ?_⟩
            simp only [nesting, nestingEntries]
            omega
          · rw [if_neg hd] at h
            cases h3 : parseMembers (parseValue fc n (depth + 1)) rest.length rest with
            | none => rw [h3] at h; cases h
            | some q =>
              rw [h3] at h
              simp only [Option.map_some', Option.some.injEq, Prod.mk.injEq] at h
              have hinv := parseMembers_inv
                (fun v => wellFormed v ∧ depth + 1 + nesting v ≤ maxNestingDepth) _
                (ih (depth + 1) (by omega)) _ _ q.1 q.2 (by rw [h3])
              rw [← h.1]
              constructor
              · rw [wellFormed, wellFormedEntries_iff]
                refine ⟨buildMap_keys_nodup _, ?_⟩
                intro e he
                have := hinv e (mem_buildMap _ e he)
                exact ⟨this.1, this.2.1⟩
              · rw [nesting]
                have := nestingEntries_bound (buildMap q.1) (maxNestingDepth - (depth + 1))
                  (by
                    intro e he
                    have := (hinv e (mem_buildMap _ e he)).2.2
                    omega)
                omega
      · rw [if_neg c1] at h
        by_cases c2 : c = 0x5B
        · rw [if_pos c2] at h
          by_cases hdep : maxNestingDepth < depth + 1
          · rw [if_pos hdep] at h; cases h
          rw [if_neg hdep] at h
          cases h2 : skipSpace rest with
          | nil => rw [h2] at h; cases h
          | cons d rest1 =>
            rw [h2] at h
            simp only at h
            by_cases hd : d = 0x5D
            · rw [if_pos hd] at h
              simp only [Option.some.injEq, Prod.mk.injEq] at h
              rw [← h.1]
              refine ⟨by simp [wellFormed, wellFormedList], ?_⟩
              simp only [nesting, nestingList]
              omega
            · rw [if_neg hd] at h
              cases h3 : parseElems (parseValue fc n (depth + 1)) rest.length rest with
              | none => rw [h3] at h; cases h
              | some q =>
                rw [h3] at h
                simp only [Option.map_some', Option.some.injEq, Prod.mk.injEq] at h
                have hinv := parseElems_inv
                  (fun v => wellFormed v ∧ depth + 1 + nesting v ≤ maxNestingDepth) _
                  (ih (depth + 1) (by omega)) _ _ q.1 q.2 (by rw [h3])
                rw [← h.1]
                constructor
                · rw [wellFormed, wellFormedList_iff]
                  exact fun x hx => (hinv x hx).1
                · rw [nesting]
                  have := nestingList_bound q.1 (maxNestingDepth - (depth + 1))
                    (by
                      intro x hx
                      have := (hinv x hx).2
                      omega)
                  omega
        · rw [if_neg c2] at h
          by_cases c3 : c = 0x22
          · rw [if_pos c3] at h
            cases hs : scanString rest with
            | none => rw [hs] at h; cases h
            | some p =>
              obtain ⟨body, rest1⟩ := p
              rw [hs] at h
              simp only at h
              cases hu : unquote body with
              | none => rw [hu] at h; cases h
              | some s =>
                rw [hu] at h
                simp only [Option.map_some', Option.some.injEq, Prod.mk.injEq] at h
                rw [← h.1, wellFormed, nesting]
                exact ⟨unquote_valid body s hu, hlim⟩
          · rw [if_neg c3] at h
            by_cases c4 : c = 0x74
            · rw [if_pos c4] at h
              split at h
              · simp only [Option.some.injEq, Prod.mk.injEq] at h
                rw [← h.1]; exact ⟨trivial, hlim⟩
              · cases h
            · rw [if_neg c4] at h
              by_cases c5 : c = 0x66
              · rw [if_pos c5] at h
                split at h
                · simp only [Option.some.injEq, Prod.mk.injEq] at h
                  rw [← h.1]; exact ⟨trivial, hlim⟩
                · cases h
              · rw [if_neg c5] at h
                by_cases c6 : c = 0x6E
                · rw [if_pos c6] at h
                  split at h
                  · simp only [Option.some.injEq, Prod.mk.injEq] at h
                    rw [← h.1]; exact ⟨trivial, hlim⟩
                  · cases h
                · rw [if_neg c6] at h
                  by_cases c7 : c = 0x2D ∨ isDigit c = true
                  · rw [if_pos c7] at h
                    cases hs : scanNumber (c :: rest) with
                    | none => rw [hs] at h; cases h
                    | some p =>
                      rw [hs] at h
                      simp only [Option.map_some', Option.some.injEq, Prod.mk.injEq] at h
                      rw [← h.1]
                      unfold numberValue
                      exact ⟨trivial, hlim⟩
                  · rw [if_neg c7] at h
                    cases h

theorem parseValue_wf {F : Type} (fc : FloatCodec F) (n depth : Nat)
    (hd : depth ≤ maxNestingDepth) (inp : GoString) (v : JVal F) (r : GoString)
    (h : parseValue fc n depth inp = some (v, r)) : wellFormed v :=
  (parseValue_inv fc n depth hd inp v r h).1

end Chef

namespace Chef

/-! ## Order of members -/

theorem sameList_length {F : Type} (xs : List (JVal F)) :
    ∀ ys, sameList xs ys → xs.length = ys.length := by
  induction xs with
  | nil => intro ys h; simp only [sameList] at h; subst h; rfl
  | cons x xs ih =>
    intro ys h
    simp only [sameList] at h
    obtain ⟨y, rest, rfl, _, h2⟩ := h
    simp [ih rest h2]

theorem sameList_map {F α : Type} (g : JVal F → α) (xs : List (JVal F))
    (hg : ∀ x ∈ xs, ∀ y, wellFormed y → sameValue x y → g x = g y) :
    ∀ ys, (∀ y ∈ ys, wellFormed y) → sameList xs ys → xs.map g = ys.map g := by
  induction xs with
  | nil => intro ys _ h; simp only [sameList] at h; subst h; rfl
  | cons x xs ih =>
    intro ys hw h
    simp only [sameList] at h
    obtain ⟨y, rest, rfl, h1, h2⟩ := h
    simp only [List.map_cons]
    rw [hg x (List.mem_cons_self _ _) y (hw y (List.mem_cons_self _ _)) h1,
      ih (fun z hz => hg z (List.mem_cons_of_mem _ hz)) rest
        (fun z hz => hw z (List.mem_cons_of_mem _ hz)) h2]

theorem sameEntries_iff {F : Type} (ms ns : List (GoString × JVal F)) :
    sameEntries ms ns ↔ ∀ e ∈ ms, ∃ e2 ∈ ns, e2.1 = e.1 ∧ sameValue e.2 e2.2 := by
  induction ms with
  | nil => simp [sameEntries]
  | cons e ms ih => simp only [sameEntries, ih, List.mem_cons, forall_eq_or_imp]

theorem nodup_of_keys {α : Type} (l : List (GoString × α)) (h : (keysOf l).Nodup) :
    l.Nodup := List.Nodup.of_map Prod.fst h

/-- Two values that are the same up to the order of members are encoded to
the same bytes. -/
theorem encodeValue_same {F : Type} (fc : FloatCodec F) (v : JVal F) :
    ∀ w, wellFormed v → wellFormed w → sameValue v w → encodeValue fc v = encodeValue fc w := by
  induction v using JVal.induct_aux with
  | hnull => intro w _ _ h; simp only [sameValue] at h; rw [h]
  | hbool b => intro w _ _ h; simp only [sameValue] at h; rw [h]
  | hnum f => intro w _ _ h; simp only [sameValue] at h; rw [h]
  | hstr s => intro w _ _ h; simp only [sameValue] at h; rw [h]
  | harr xs ih =>
    intro w hv hw h
    simp only [sameValue] at h
    obtain ⟨ys, rfl, hl⟩ := h
    rw [wellFormed, wellFormedList_iff] at hv hw
    rw [encodeValue_arr, encodeValue_arr]
    have : xs.map (encodeValue fc) = ys.map (encodeValue fc) :=
      sameList_map (encodeValue fc) xs (fun x hx y hy hs => ih x hx y (hv x hx) hy hs) ys hw hl
    rw [this]
  | hobj ms ih =>
    intro w hv hw h
    simp only [sameValue] at h
    obtain ⟨ns, rfl, hlen, hent⟩ := h
    rw [wellFormed, wellFormedEntries_iff] at hv hw
    rw [sameEntries_iff] at hent
    have hsub : ms.map (fun e => (e.1, encodeValue fc e.2))
        ⊆ ns.map (fun e => (e.1, encodeValue fc e.2)) := by
      intro p hp
      obtain ⟨e, he, rfl⟩ := List.mem_map.1 hp
      obtain ⟨e2, he2, hk, hs⟩ := hent e he
      have := ih e he e2.2 (hv.2 e he).2 (hw.2 e2 he2).2 hs
      rw [List.mem_map]
      exact ⟨e2, he2, by rw [hk, this]⟩
    have hk1 : (keysOf (ms.map (fun e => (e.1, encodeValue fc e.2)))).Nodup := by
      unfold keysOf
      rw [List.map_map]
      exact hv.1
    have hperm : (ms.map (fun e => (e.1, encodeValue fc e.2))).Perm
        (ns.map (fun e => (e.1, encodeValue fc e.2))) := by
      apply List.Subperm.perm_of_length_le
      · exact List.subperm_of_subset (nodup_of_keys _ hk1) hsub
      · simp [hlen]
    rw [encodeValue, encodeValue, encodeEntries_eq_map, encodeEntries_eq_map,
      sortByKey_eq_of_perm _ _ hperm hk1]

theorem keysAscendingList_iff {F : Type} (xs : List (JVal F)) :
    keysAscendingList xs ↔ ∀ x ∈ xs, keysAscending x := by
  induction xs with
  | nil => simp [keysAscendingList]
  | cons x xs ih => simp [keysAscendingList, ih]

theorem keysAscendingEntries_iff {F : Type} (ms : List (GoString × JVal F)) :
    keysAscendingEntries ms ↔ ∀ e ∈ ms, keysAscending e.2 := by
  induction ms with
  | nil => simp [keysAscendingEntries]
  | cons x xs ih => simp [keysAscendingEntries, ih]

/-- The canonical form of a well-formed value has the keys of every map in
strictly ascending order. -/
theorem canonical_keysAscending {F : Type} (v : JVal F) :
    wellFormed v → keysAscending (canonical v) := by
  induction v using JVal.induct_aux with
  | hnull => intro _; trivial
  | hbool b => intro _; trivial
  | hnum f => intro _; trivial
  | hstr s => intro _; trivial
  | harr xs ih =>
    intro hv
    rw [wellFormed, wellFormedList_iff] at hv
    rw [canonical_arr, keysAscending, keysAscendingList_iff]
    intro x hx
    obtain ⟨z, hz, rfl⟩ := List.mem_map.1 hx
    exact ih z hz (hv z hz)
  | hobj ms ih =>
    intro hv
    rw [wellFormed, wellFormedEntries_iff] at hv
    rw [canonical_obj, keysAscending, keysAscendingEntries_iff]
    constructor
    · have hs := sorted_strict _ (sortByKey_sorted ms) (keysOf_sortByKey_nodup ms hv.1)
      unfold keysOf
      rw [List.map_map, List.pairwise_map]
      exact hs
    · intro e he
      obtain ⟨z, hz, rfl⟩ := List.mem_map.1 he
      have hzm := (sortByKey_perm ms).subset hz
      exact ih z hzm (hv.2 z hzm).2

/-- Two values that are the same up to the order of members are both
supported by the encoder or both not. -/
theorem supported_same {F : Type} (fc : FloatCodec F) (v : JVal F) :
    ∀ w, wellFormed v → wellFormed w → sameValue v w → supported fc v = supported fc w := by
  induction v using JVal.induct_aux with
  | hnull => intro w _ _ h; simp only [sameValue] at h; rw [h]
  | hbool b => intro w _ _ h; simp only [sameValue] at h; rw [h]
  | hnum f => intro w _ _ h; simp only [sameValue] at h; rw [h]
  | hstr s => intro w _ _ h; simp only [sameValue] at h; rw [h]
  | harr xs ih =>
    intro w hv hw h
    simp only [sameValue] at h
    obtain ⟨ys, rfl, hl⟩ := h
    rw [wellFormed, wellFormedList_iff] at hv hw
    have hmap : xs.map (supported fc) = ys.map (supported fc) :=
      sameList_map (supported fc) xs (fun x hx y hy hs => ih x hx y (hv x hx) hy hs) ys hw hl
    rw [Bool.eq_iff_iff, supported_arr, supported_arr]
    constructor
    · intro h y hy
      have : supported fc y ∈ xs.map (supported fc) := by
        rw [hmap]; exact List.mem_map_of_mem _ hy
      obtain ⟨x, hx, hxy⟩ := List.mem_map.1 this
      rw [← hxy]; exact h x hx
    · intro h x hx
      have : supported fc x ∈ ys.map (supported fc) := by
        rw [← hmap]; exact List.mem_map_of_mem _ hx
      obtain ⟨y, hy, hxy⟩ := List.mem_map.1 this
      rw [← hxy]; exact h y hy
  | hobj ms ih =>
    intro w hv hw h
    simp only [sameValue] at h
    obtain ⟨ns, rfl, hlen, hent⟩ := h
    rw [wellFormed, wellFormedEntries_iff] at hv hw
    rw [sameEntries_iff] at hent
    have hsub : ms.map (fun e => (e.1, supported fc e.2))
        ⊆ ns.map (fun e => (e.1, supported fc e.2)) := by
      intro p hp
      obtain ⟨e, he, rfl⟩ := List.mem_map.1 hp
      obtain ⟨e2, he2, hk, hs⟩ := hent e he
      have := ih e he e2.2 (hv.2 e he).2 (hw.2 e2 he2).2 hs
      rw [List.mem_map]
      exact ⟨e2, he2, by rw [hk, this]⟩
    have hk1 : (keysOf (ms.map (fun e => (e.1, supported fc e.2)))).Nodup := by
      unfold keysOf
      rw [List.map_map]
      exact hv.1
    have hperm : (ms.map (fun e => (e.1, supported fc e.2))).Perm
        (ns.map (fun e => (e.1, supported fc e.2))) := by
      apply List.Subperm.perm_of_length_le
      · exact List.subperm_of_subset (nodup_of_keys _ hk1) hsub
      · simp [hlen]
    rw [Bool.eq_iff_iff, supported_obj, supported_obj]
    constructor
    · intro h e he
      have : (e.1, supported fc e.2) ∈ ms.map (fun e => (e.1, supported fc e.2)) :=
        hperm.symm.subset (List.mem_map_of_mem (fun e => (e.1, supported fc e.2)) he)
      obtain ⟨e1, he1, heq⟩ := List.mem_map.1 this
      have h2 := congrArg Prod.snd heq
      simp only at h2
      rw [← h2]; exact h e1 he1
    · intro h e he
      have : (e.1, supported fc e.2) ∈ ns.map (fun e => (e.1, supported fc e.2)) :=
        hperm.subset (List.mem_map_of_mem (fun e => (e.1, supported fc e.2)) he)
      obtain ⟨e1, he1, heq⟩ := List.mem_map.1 this
      have h2 := congrArg Prod.snd heq
      simp only at h2
      rw [← h2]; exact h e1 he1

theorem supported_canonical {F : Type} (fc : FloatCodec F) (v : JVal F) :
    supported fc (canonical v) = supported fc v := by
  induction v using JVal.induct_aux with
  | hnull => rfl
  | hbool b => rfl
  | hnum f => rfl
  | hstr s => rfl
  | harr xs ih =>
    rw [canonical_arr, Bool.eq_iff_iff, supported_arr, supported_arr]
    constructor
    · intro h x hx
      rw [← ih x hx]
      exact h _ (List.mem_map_of_mem _ hx)
    · intro h y hy
      obtain ⟨x, hx, rfl⟩ := List.mem_map.1 hy
      rw [ih x hx]
      exact h x hx
  | hobj ms ih =>
    rw [canonical_obj, Bool.eq_iff_iff, supported_obj, supported_obj]
    constructor
    · intro h e he
      have hes : e ∈ sortByKey ms := (sortByKey_perm ms).symm.subset he
      rw [← ih e he]
      exact h (e.1, canonical e.2) (List.mem_map_of_mem (fun e => (e.1, canonical e.2)) hes)
    · intro h y hy
      obtain ⟨e, he, rfl⟩ := List.mem_map.1 hy
      have hem : e ∈ ms := (sortByKey_perm ms).subset he
      simp only
      rw [ih e hem]
      exact h e hem

end Chef

namespace Chef

/-! ## `jsonStateFunc` -/

theorem parseDocument_inv {F : Type} (fc : FloatCodec F) (x : GoString) (v : JVal F)
    (h : parseDocument fc x = some v) : wellFormed v ∧ nesting v ≤ maxNestingDepth := by
  unfold parseDocument at h
  cases hp : parseValue fc (x.length + 1) 0 x with
  | none => rw [hp] at h; cases h
  | some p =>
    obtain ⟨w, rest⟩ := p
    rw [hp] at h
    simp only at h
    split_ifs at h
    cases h
    have := parseValue_inv fc _ 0 (Nat.zero_le _) _ _ _ hp
    exact ⟨this.1, by omega⟩

theorem parseDocument_wf {F : Type} (fc : FloatCodec F) (x : GoString) (v : JVal F)
    (h : parseDocument fc x = some v) : wellFormed v :=
  (parseDocument_inv fc x v h).1

theorem jsonUnmarshal_eq {F : Type} (fc : FloatCodec F) (x : GoString)
    (m : List (GoString × JVal F)) :
    jsonUnmarshal fc x = some m ↔ parseDocument fc x = some (.obj m) := by
  unfold jsonUnmarshal
  cases hp : parseDocument fc x with
  | none => simp
  | some v => cases v <;> simp

theorem jsonUnmarshal_none {F : Type} (fc : FloatCodec F) (x : GoString)
    (h : ∀ m, parseDocument fc x ≠ some (.obj m)) : jsonUnmarshal fc x = none := by
  cases hu : jsonUnmarshal fc x with
  | none => rfl
  | some m => exact absurd ((jsonUnmarshal_eq fc x m).1 hu) (h m)

theorem jsonUnmarshal_wf {F : Type} (fc : FloatCodec F) (x : GoString)
    (m : List (GoString × JVal F)) (h : jsonUnmarshal fc x = some m) : wellFormed (.obj m) :=
  parseDocument_wf fc x _ ((jsonUnmarshal_eq fc x m).1 h)

/-- The decoder on the whole output of the encoder. -/
theorem parseDocument_encodeValue {F : Type} (fc : FloatCodec F)
    (H1 : ∀ f, fc.finite f = true → scanNumber (fc.format f) = some (fc.format f, []))
    (H2 : ∀ f, fc.finite f = true → fc.parse (fc.format f) = f) (v : JVal F)
    (hwf : wellFormed v) (hsup : supported fc v = true) (hn : nesting v ≤ maxNestingDepth) :
    parseDocument fc (encodeValue fc v) = some (canonical v) := by
  have := parseValue_encodeValue fc H1 H2 v hwf hsup ((encodeValue fc v).length + 1) (by omega) 0
    (by omega) [] trivial
  rw [List.append_nil] at this
  unfold parseDocument
  rw [this]
  simp [skipSpace]

theorem jsonStateFunc_str {F : Type} (fc : FloatCodec F) (x : GoString) :
    jsonStateFunc fc (.str x) =
      match jsonMarshal fc (jsonUnmarshal fc x) with
      | some jsonValue => jsonValue
      | none => [] := rfl

theorem jsonStateFunc_null {F : Type} (fc : FloatCodec F) :
    jsonStateFunc fc (.str (lit "null")) = lit "null" := rfl

theorem jsonStateFunc_empty {F : Type} (fc : FloatCodec F) :
    jsonStateFunc fc (.str []) = lit "null" := rfl

theorem jsonStateFunc_of_none {F : Type} (fc : FloatCodec F) (x : GoString)
    (h : ∀ m, parseDocument fc x ≠ some (.obj m)) :
    jsonStateFunc fc (.str x) = lit "null" := by
  rw [jsonStateFunc_str, jsonUnmarshal_none fc x h]
  rfl

/-- When `Marshal` does not fail the result is what the encoder wrote. -/
theorem jsonStateFunc_of_some {F : Type} (fc : FloatCodec F) (x : GoString)
    (m : List (GoString × JVal F)) (h : jsonUnmarshal fc x = some m)
    (hsup : supported fc (.obj m) = true) :
    jsonStateFunc fc (.str x) = encodeValue fc (.obj m) := by
  rw [jsonStateFunc_str, h]
  simp only [jsonMarshal, hsup, if_true]

/-- When `Marshal` fails the result is the empty string. -/
theorem jsonStateFunc_of_unsupported {F : Type} (fc : FloatCodec F) (x : GoString)
    (m : List (GoString × JVal F)) (h : jsonUnmarshal fc x = some m)
    (hsup : supported fc (.obj m) = false) :
    jsonStateFunc fc (.str x) = [] := by
  rw [jsonStateFunc_str, h]
  simp only [jsonMarshal, hsup, Bool.false_eq_true, if_false]

/-- The result is empty exactly when `Marshal` fails: the decoded object
holds an infinity. -/
theorem jsonStateFunc_eq_nil {F : Type} (fc : FloatCodec F) (x : GoString) :
    jsonStateFunc fc (.str x) = [] ↔
      ∃ m, jsonUnmarshal fc x = some m ∧ supported fc (.obj m) = false := by
  cases hu : jsonUnmarshal fc x with
  | none =>
    have : jsonStateFunc fc (.str x) = lit "null" := by
      rw [jsonStateFunc_str, hu]; rfl
    rw [this]
    constructor
    · intro h; cases h
    · rintro ⟨m, hm, _⟩; cases hm
  | some m =>
    cases hs : supported fc (.obj m) with
    | true =>
      rw [jsonStateFunc_of_some fc x m hu hs, encodeValue_obj]
      constructor
      · intro h; cases h
      · rintro ⟨m2, hm, h2⟩
        simp only [Option.some.injEq] at hm
        subst hm
        rw [hs] at h2
        cases h2
    | false =>
      rw [jsonStateFunc_of_unsupported fc x m hu hs]
      exact ⟨fun _ => ⟨m, rfl, hs⟩, fun _ => rfl⟩

theorem jsonStateFunc_idem {F : Type} (fc : FloatCodec F)
    (H1 : ∀ f, fc.finite f = true → scanNumber (fc.format f) = some (fc.format f, []))
    (H2 : ∀ f, fc.finite f = true → fc.parse (fc.format f) = f) (x : GoString)
    (hx : jsonStateFunc fc (.str x) ≠ []) :
    jsonStateFunc fc (.str (jsonStateFunc fc (.str x))) = jsonStateFunc fc (.str x) := by
  cases hu : jsonUnmarshal fc x with
  | none =>
    have : jsonStateFunc fc (.str x) = lit "null" := by
      rw [jsonStateFunc_str, hu]; rfl
    rw [this]
    exact jsonStateFunc_null fc
  | some m =>
    have hsup : supported fc (.obj m) = true := by
      cases hs : supported fc (.obj m) with
      | true => rfl
      | false => exact absurd (jsonStateFunc_of_unsupported fc x m hu hs) hx
    have hinv := parseDocument_inv fc x _ ((jsonUnmarshal_eq fc x m).1 hu)
    rw [jsonStateFunc_of_some fc x m hu hsup]
    have hdoc := parseDocument_encodeValue fc H1 H2 (.obj m) hinv.1 hsup hinv.2
    have hsupc : supported fc (canonical (.obj m)) = true := by
      rw [supported_canonical]; exact hsup
    rw [canonical_obj] at hdoc hsupc
    have hu2 := (jsonUnmarshal_eq fc _ _).2 hdoc
    rw [jsonStateFunc_of_some fc _ _ hu2 hsupc, ← canonical_obj, encodeValue_canonical]

/-- The text `{"a":1e999}` decodes to an object with an infinity. -/
theorem docOverflow_unmarshal :
    jsonUnmarshal float64Codec docOverflow
      = some [(lit "a", numberValue float64Codec (lit "1e999"))] := rfl

theorem docOverflow_unsupported :
    supported float64Codec (.obj [(lit "a", numberValue float64Codec (lit "1e999"))])
      = false := by
  decide!

theorem jsonStateFunc_docOverflow :
    jsonStateFunc float64Codec (.str docOverflow) = [] :=
  jsonStateFunc_of_unsupported float64Codec docOverflow _ docOverflow_unmarshal
    docOverflow_unsupported

/-- C7 (as stated, refuted): for the text `{"a":1e999}`, a JSON object,
`jsonStateFunc` returns the empty string, because `Marshal` fails on the
infinity, and the empty string is then normalised to `null`: the second
application does not return what the first returned. -/
theorem jsonStateFunc_not_idempotent :
    jsonStateFunc float64Codec (.str docOverflow) = [] ∧
    jsonStateFunc float64Codec (.str (jsonStateFunc float64Codec (.str docOverflow)))
      = lit "null" ∧
    jsonStateFunc float64Codec (.str (jsonStateFunc float64Codec (.str docOverflow)))
      ≠ jsonStateFunc float64Codec (.str docOverflow) := by
  rw [jsonStateFunc_docOverflow]
  exact ⟨rfl, jsonStateFunc_empty float64Codec, by
    rw [jsonStateFunc_empty]; decide⟩

/-- C7 (amended): `jsonStateFunc` is idempotent on every string on which
`Marshal` does not fail, that is on which the result is not the empty
string; the sentinel `null` is mapped to itself. The result is empty exactly
when the text decodes to an object that holds an infinity, a number beyond the
range of `float64`. -/
theorem jsonStateFunc_idempotent (x : GoString)
    (hx : jsonStateFunc float64Codec (.str x) ≠ []) :
    jsonStateFunc float64Codec (.str (jsonStateFunc float64Codec (.str x)))
      = jsonStateFunc float64Codec (.str x) ∧
    jsonStateFunc float64Codec (.str (lit "null")) = lit "null" ∧
    (∀ y, jsonStateFunc float64Codec (.str y) = [] ↔
      ∃ m, jsonUnmarshal float64Codec y = some m ∧
        supported float64Codec (.obj m) = false) :=
  ⟨jsonStateFunc_idem float64Codec (fun f hf => (floatEncode_roundtrip f hf).1)
      (fun f hf => (floatEncode_roundtrip f hf).2) x hx,
    jsonStateFunc_null float64Codec, jsonStateFunc_eq_nil float64Codec⟩

theorem docNested_result :
    jsonStateFunc float64Codec (.str docNested) = lit "\x7b\"a\":2,\"b\":[1,\"x\"]\x7d" := by
  decide!

theorem jsonStateFunc_idempotent_witness :
    jsonStateFunc float64Codec (.str docNested) ≠ [] ∧
    jsonStateFunc float64Codec (.str (jsonStateFunc float64Codec (.str docNested)))
      = jsonStateFunc float64Codec (.str docNested) :=
  ⟨by rw [docNested_result]; decide,
    (jsonStateFunc_idempotent docNested (by rw [docNested_result]; decide)).1⟩

/-- C9: on a string that is not the text of a JSON object (not JSON at all,
or JSON with another top-level value) `jsonStateFunc` returns `null`; it
returns a string for every input and has no error result. -/
theorem jsonStateFunc_not_object {F : Type} (fc : FloatCodec F) (x : GoString)
    (h : ∀ m, parseDocument fc x ≠ some (.obj m)) :
    jsonStateFunc fc (.str x) = lit "null" ∧
    jsonStateFunc fc (.str (lit "not json")) = lit "null" ∧
    jsonStateFunc fc (.str (lit "[1,2]")) = lit "null" ∧
    jsonStateFunc fc (.str (lit "\"text\"")) = lit "null" ∧
    jsonStateFunc fc (.str (lit "42")) = lit "null" ∧
    jsonStateFunc fc (.str docTruncated) = lit "null" ∧
    jsonStateFunc fc (.str []) = lit "null" ∧
    (∀ value, ∃ s, jsonStateFunc fc value = s) := by
  refine ⟨jsonStateFunc_of_none fc x h, rfl, ?_, rfl, ?_, ?_, rfl, fun value => ⟨_, rfl⟩⟩
  · apply jsonStateFunc_of_none
    intro m hm
    have : parseDocument fc (lit "[1,2]")
        = some (.arr [numberValue fc (lit "1"), numberValue fc (lit "2")]) := rfl
    rw [this] at hm
    cases hm
  · apply jsonStateFunc_of_none
    intro m hm
    have : parseDocument fc (lit "42") = some (numberValue fc (lit "42")) := rfl
    rw [this] at hm
    unfold numberValue at hm
    cases hm
  · apply jsonStateFunc_of_none
    intro m hm
    have : parseDocument fc docTruncated = none := rfl
    rw [this] at hm
    cases hm

theorem jsonStateFunc_not_object_witness :
    jsonStateFunc float64Codec (.str (lit "[true, 7]")) = lit "null" :=
  (jsonStateFunc_not_object float64Codec (lit "[true, 7]") (by
    intro m hm
    have : parseDocument float64Codec (lit "[true, 7]")
        = some (.arr [.bool true, numberValue float64Codec (lit "7")]) := rfl
    rw [this] at hm
    cases hm)).1

end Chef

namespace Chef

/-! ## No white space outside strings -/

theorem isDigit_plain (c : Nat) (h : isDigit c = true) : c ≠ 0x22 ∧ isSpace c = false := by
  simp only [isDigit, decide_eq_true_eq] at h
  simp only [isSpace, decide_eq_false_iff_not]
  omega

theorem spanDigits_fst (l : GoString) : ∀ c ∈ (spanDigits l).1, isDigit c = true := by
  induction l with
  | nil => intro c hc; simp [spanDigits] at hc
  | cons x l ih =>
    intro c hc
    rw [spanDigits_cons] at hc
    by_cases hx : isDigit x = true
    · rw [if_pos hx] at hc
      rcases List.mem_cons.1 hc with hc | hc
      · subst hc; exact hx
      · exact ih c hc
    · rw [if_neg hx] at hc
      cases hc

theorem scanExp_bytes (acc inp l r : GoString)
    (hacc : ∀ c ∈ acc, c ≠ 0x22 ∧ isSpace c = false) (h : scanExp acc inp = some (l, r)) :
    ∀ c ∈ l, c ≠ 0x22 ∧ isSpace c = false := by
  have hd : ∀ (ds : GoString), ∀ c ∈ (spanDigits ds).1, c ≠ 0x22 ∧ isSpace c = false :=
    fun ds c hc => isDigit_plain c (spanDigits_fst ds c hc)
  cases inp with
  | nil =>
    simp only [scanExp, Option.some.injEq, Prod.mk.injEq] at h
    rw [← h.1]; exact hacc
  | cons e r1 =>
    by_cases he : e = 0x65 ∨ e = 0x45
    · have hep : e ≠ 0x22 ∧ isSpace e = false := by
        rcases he with he | he <;> subst he <;> decide
      cases r1 with
      | nil => simp [scanExp, he] at h
      | cons s r2 =>
        by_cases hs : s = 0x2B ∨ s = 0x2D
        · have hsp : s ≠ 0x22 ∧ isSpace s = false := by
            rcases hs with hs | hs <;> subst hs <;> decide
          simp only [scanExp, he, hs, if_true] at h
          by_cases hz : (spanDigits r2).1 = []
          · simp [hz] at h
          · simp only [hz, if_false, Option.some.injEq, Prod.mk.injEq] at h
            intro c hc
            rw [← h.1] at hc
            simp only [List.mem_append, List.mem_cons] at hc
            rcases hc with hc | hc | hc | hc
            · exact hacc c hc
            · subst hc; exact hep
            · subst hc; exact hsp
            · exact hd r2 c hc
        · simp only [scanExp, he, hs, if_true, if_false] at h
          by_cases hz : (spanDigits (s :: r2)).1 = []
          · simp [hz] at h
          · simp only [hz, if_false, Option.some.injEq, Prod.mk.injEq] at h
            intro c hc
            rw [← h.1] at hc
            simp only [List.mem_append, List.mem_cons] at hc
            rcases hc with hc | hc | hc
            · exact hacc c hc
            · subst hc; exact hep
            · exact hd (s :: r2) c hc
    · simp only [scanExp, he, if_false, Option.some.injEq, Prod.mk.injEq] at h
      rw [← h.1]; exact hacc

theorem scanFrac_bytes (acc inp l r : GoString)
    (hacc : ∀ c ∈ acc, c ≠ 0x22 ∧ isSpace c = false) (h : scanFrac acc inp = some (l, r)) :
    ∀ c ∈ l, c ≠ 0x22 ∧ isSpace c = false := by
  cases inp with
  | nil =>
    simp only [scanFrac, Option.some.injEq, Prod.mk.injEq] at h
    rw [← h.1]; exact hacc
  | cons d r1 =>
    by_cases hd : d = 0x2E
    · simp only [scanFrac, hd, if_true] at h
      by_cases hz : (spanDigits r1).1 = []
      · simp [hz] at h
      · simp only [hz, if_false] at h
        refine scanExp_bytes _ _ l r ?_ h
        intro c hc
        simp only [List.mem_append, List.mem_cons] at hc
        rcases hc with hc | hc | hc
        · exact hacc c hc
        · subst hc; decide
        · exact isDigit_plain c (spanDigits_fst r1 c hc)
    · simp only [scanFrac, hd, if_false] at h
      exact scanExp_bytes acc _ l r hacc h

theorem scanInt_bytes (acc inp l r : GoString)
    (hacc : ∀ c ∈ acc, c ≠ 0x22 ∧ isSpace c = false) (h : scanInt acc inp = some (l, r)) :
    ∀ c ∈ l, c ≠ 0x22 ∧ isSpace c = false := by
  cases inp with
  | nil => simp [scanInt] at h
  | cons d r1 =>
    by_cases hd : d = 0x30
    · simp only [scanInt, hd, if_true] at h
      refine scanFrac_bytes _ _ l r ?_ h
      intro c hc
      simp only [List.mem_append, List.mem_singleton] at hc
      rcases hc with hc | hc
      · exact hacc c hc
      · subst hc; decide
    · by_cases hd2 : 0x31 ≤ d ∧ d ≤ 0x39
      · simp only [scanInt, hd, hd2, if_false, if_true, and_self] at h
        refine scanFrac_bytes _ _ l r ?_ h
        intro c hc
        simp only [List.mem_append, List.mem_cons] at hc
        rcases hc with hc | hc | hc
        · exact hacc c hc
        · subst hc
          exact isDigit_plain c (by simp only [isDigit, decide_eq_true_eq]; omega)
        · exact isDigit_plain c (spanDigits_fst r1 c hc)
      · simp [scanInt, hd, hd2] at h

/-- A number literal has no quote and no white space. -/
theorem scanNumber_bytes (inp l r : GoString) (h : scanNumber inp = some (l, r)) :
    ∀ c ∈ l, c ≠ 0x22 ∧ isSpace c = false := by
  cases inp with
  | nil => simp [scanNumber] at h
  | cons c0 r0 =>
    by_cases hc : c0 = 0x2D
    · simp only [scanNumber, hc, if_true] at h
      refine scanInt_bytes _ _ l r ?_ h
      intro c hc
      simp only [List.mem_singleton] at hc
      subst hc; decide
    · simp only [scanNumber, hc, if_false] at h
      exact scanInt_bytes [] _ l r (fun c hc => by cases hc) h

theorem noSpace_plain (l rest : GoString) (h : ∀ c ∈ l, c ≠ 0x22 ∧ isSpace c = false) :
    noSpaceOutsideStrings .outside (l ++ rest) = noSpaceOutsideStrings .outside rest := by
  induction l with
  | nil => rfl
  | cons c l ih =>
    obtain ⟨h1, h2⟩ := h c (List.mem_cons_self _ _)
    simp only [List.cons_append, noSpaceOutsideStrings, h1, if_false, h2, Bool.not_false,
      Bool.true_and]
    exact ih (fun x hx => h x (List.mem_cons_of_mem _ hx))

theorem noSpace_inString_plain (l rest : GoString) (h : ∀ c ∈ l, c ≠ 0x22 ∧ c ≠ 0x5C) :
    noSpaceOutsideStrings .inString (l ++ rest) = noSpaceOutsideStrings .inString rest := by
  induction l with
  | nil => rfl
  | cons c l ih =>
    obtain ⟨h1, h2⟩ := h c (List.mem_cons_self _ _)
    simp only [List.cons_append, noSpaceOutsideStrings, h1, h2, if_false]
    exact ih (fun x hx => h x (List.mem_cons_of_mem _ hx))

theorem hexDigit_plain (n : Nat) (h : n < 16) : hexDigit n ≠ 0x22 ∧ hexDigit n ≠ 0x5C := by
  unfold hexDigit
  split_ifs <;> constructor <;> omega

theorem noSpace_escapeRune (r : Nat) (tail : GoString) :
    noSpaceOutsideStrings .inString (escapeRune r ++ tail)
      = noSpaceOutsideStrings .inString tail := by
  unfold escapeRune
  by_cases h : r < 0x80
  · simp only [h, if_true]
    rcases escapeByte_cases r h with ⟨e, he, _, _⟩ | he | ⟨he, h1, h2, _⟩
    · rw [he]
      simp [noSpaceOutsideStrings]
    · rw [he]
      have x1 := hexDigit_plain (r / 16) (by omega)
      have x2 := hexDigit_plain (r % 16) (by omega)
      simp [noSpaceOutsideStrings, x1.1, x1.2, x2.1, x2.2]
    · rw [he]
      exact noSpace_inString_plain [r] tail (by
        intro c hc
        simp only [List.mem_singleton] at hc
        subst hc
        exact ⟨h1, h2⟩)
  · simp only [h, if_false]
    by_cases h2 : r = 0x2028 ∨ r = 0x2029
    · simp only [h2, if_true]
      have x2 := hexDigit_plain (r % 16) (by omega)
      simp [noSpaceOutsideStrings, x2.1, x2.2]
    · simp only [h2, if_false]
      obtain ⟨b, t, hbt, _, hall⟩ := encodeRune_high r h
      apply noSpace_inString_plain
      intro c hc
      rw [hbt] at hc
      have := hall c hc
      constructor <;> omega

theorem noSpace_escapeRunes (rs : List Nat) (tail : GoString) :
    noSpaceOutsideStrings .inString (escapeRunes rs ++ tail)
      = noSpaceOutsideStrings .inString tail := by
  induction rs with
  | nil => rfl
  | cons r rs ih => rw [escapeRunes_cons, List.append_assoc, noSpace_escapeRune, ih]

theorem noSpace_appendString (s : GoString) (hs : ValidUTF8 s) (rest : GoString) :
    noSpaceOutsideStrings .outside (appendString s ++ rest)
      = noSpaceOutsideStrings .outside rest := by
  obtain ⟨rs, hrs, rfl⟩ := hs
  rw [appendString_valid rs hrs]
  have e1 : 0x22 :: (escapeRunes rs ++ [0x22]) ++ rest
      = 0x22 :: (escapeRunes rs ++ 0x22 :: rest) := by simp
  have e2 : ∀ t, noSpaceOutsideStrings .outside (0x22 :: t)
      = noSpaceOutsideStrings .inString t := fun t => by simp [noSpaceOutsideStrings]
  have e3 : ∀ t, noSpaceOutsideStrings .inString (0x22 :: t)
      = noSpaceOutsideStrings .outside t := fun t => by simp [noSpaceOutsideStrings]
  rw [e1, e2, noSpace_escapeRunes, e3]

theorem noSpace_joinWith (l : List GoString) (rest : GoString)
    (h : ∀ a ∈ l, ∀ r, noSpaceOutsideStrings .outside (a ++ r)
      = noSpaceOutsideStrings .outside r) :
    noSpaceOutsideStrings .outside (joinWith [0x2C] l ++ rest)
      = noSpaceOutsideStrings .outside rest := by
  induction l with
  | nil => rfl
  | cons a l ih =>
    cases l with
    | nil => simpa [joinWith] using h a (List.mem_cons_self _ _) rest
    | cons b l =>
      rw [joinWith_cons_cons, List.append_assoc, List.append_assoc,
        h a (List.mem_cons_self _ _)]
      simp only [List.singleton_append, List.cons_append, List.nil_append]
      have hc : noSpaceOutsideStrings .outside (0x2C :: (joinWith [0x2C] (b :: l) ++ rest))
          = noSpaceOutsideStrings .outside (joinWith [0x2C] (b :: l) ++ rest) := by
        simp [noSpaceOutsideStrings, isSpace]
      rw [hc]
      exact ih (fun x hx => h x (List.mem_cons_of_mem _ hx))

/-- The encoder writes no white space outside string literals. -/
theorem noSpace_encodeValue {F : Type} (fc : FloatCodec F)
    (H1 : ∀ f, fc.finite f = true → scanNumber (fc.format f) = some (fc.format f, []))
    (v : JVal F) :
    wellFormed v → supported fc v = true →
      ∀ rest, noSpaceOutsideStrings .outside (encodeValue fc v ++ rest)
        = noSpaceOutsideStrings .outside rest := by
  induction v using JVal.induct_aux with
  | hnull => intro _ _ rest; exact noSpace_plain (lit "null") rest (by decide)
  | hbool b =>
    intro _ _ rest
    cases b
    · exact noSpace_plain (lit "false") rest (by decide)
    · exact noSpace_plain (lit "true") rest (by decide)
  | hnum f =>
    intro _ hsup rest
    rw [supported_num] at hsup
    exact noSpace_plain _ rest (scanNumber_bytes _ _ _ (H1 f hsup))
  | hstr s => intro hv _ rest; exact noSpace_appendString s hv rest
  | harr xs ih =>
    intro hv hsup rest
    rw [supported_arr] at hsup
    rw [wellFormed, wellFormedList_iff] at hv
    rw [encodeValue_arr]
    simp only [List.cons_append, List.append_assoc, List.singleton_append, List.nil_append]
    have h1 : ∀ t, noSpaceOutsideStrings .outside (0x5B :: t)
        = noSpaceOutsideStrings .outside t := by
      intro t; simp [noSpaceOutsideStrings, isSpace]
    have h2 : ∀ t, noSpaceOutsideStrings .outside (0x5D :: t)
        = noSpaceOutsideStrings .outside t := by
      intro t; simp [noSpaceOutsideStrings, isSpace]
    have hj := noSpace_joinWith (xs.map (encodeValue fc)) (0x5D :: rest) (by
      intro a ha r
      obtain ⟨z, hz, rfl⟩ := List.mem_map.1 ha
      exact ih z hz (hv z hz) (hsup z hz) r)
    rw [h1, hj, h2]
  | hobj ms ih =>
    intro hv hsup rest
    rw [supported_obj] at hsup
    rw [wellFormed, wellFormedEntries_iff] at hv
    rw [encodeValue_obj]
    simp only [List.cons_append, List.append_assoc, List.singleton_append, List.nil_append]
    have h1 : ∀ t, noSpaceOutsideStrings .outside (0x7B :: t)
        = noSpaceOutsideStrings .outside t := by
      intro t; simp [noSpaceOutsideStrings, isSpace]
    have h2 : ∀ t, noSpaceOutsideStrings .outside (0x7D :: t)
        = noSpaceOutsideStrings .outside t := by
      intro t; simp [noSpaceOutsideStrings, isSpace]
    have h3 : ∀ t, noSpaceOutsideStrings .outside (0x3A :: t)
        = noSpaceOutsideStrings .outside t := by
      intro t; simp [noSpaceOutsideStrings, isSpace]
    have hj := noSpace_joinWith
      ((sortByKey ms).map fun e => memberText (e.1, encodeValue fc e.2)) (0x7D :: rest) (by
      intro a ha r
      obtain ⟨z, hz, rfl⟩ := List.mem_map.1 ha
      have hzm := (sortByKey_perm ms).subset hz
      have e1 : memberText (z.1, encodeValue fc z.2) ++ r
          = appendString z.1 ++ (0x3A :: (encodeValue fc z.2 ++ r)) := by
        simp [memberText]
      rw [e1, noSpace_appendString _ (hv.2 z hzm).1, h3]
      exact ih z hzm (hv.2 z hzm).2 (hsup z hzm) r)
    rw [h1, hj, h2]

end Chef

namespace Chef

/-! ## Canonical output -/

theorem sameValue_numberValue {F : Type} (fc : FloatCodec F) (l : GoString) :
    sameValue (numberValue fc l) (numberValue fc l) := by
  unfold numberValue
  simp [sameValue]

theorem docUnsorted_unmarshal {F : Type} (fc : FloatCodec F) :
    jsonUnmarshal fc docUnsorted
      = some [(lit "b", numberValue fc (lit "1")), (lit "a", numberValue fc (lit "2"))] := rfl

theorem docSpaced_unmarshal {F : Type} (fc : FloatCodec F) :
    jsonUnmarshal fc docSpaced
      = some [(lit "a", numberValue fc (lit "2")), (lit "b", numberValue fc (lit "1"))] := rfl

theorem docs_same {F : Type} (fc : FloatCodec F) :
    sameValue
      (.obj [(lit "b", numberValue fc (lit "1")), (lit "a", numberValue fc (lit "2"))])
      (.obj [(lit "a", numberValue fc (lit "2")), (lit "b", numberValue fc (lit "1"))]) := by
  refine ⟨_, rfl, rfl, ?_⟩
  refine ⟨⟨_, List.mem_cons_of_mem _ (List.mem_cons_self _ _), rfl,
    sameValue_numberValue fc _⟩, ⟨_, List.mem_cons_self _ _, rfl, sameValue_numberValue fc _⟩,
    trivial⟩

theorem jsonStateFunc_same {F : Type} (fc : FloatCodec F) (s1 s2 : GoString)
    (m1 m2 : List (GoString × JVal F))
    (h1 : jsonUnmarshal fc s1 = some m1) (h2 : jsonUnmarshal fc s2 = some m2)
    (hsame : sameValue (.obj m1) (.obj m2)) :
    jsonStateFunc fc (.str s1) = jsonStateFunc fc (.str s2) := by
  have hw1 := jsonUnmarshal_wf fc s1 m1 h1
  have hw2 := jsonUnmarshal_wf fc s2 m2 h2
  have hsup := supported_same fc _ _ hw1 hw2 hsame
  cases hs : supported fc (.obj m1) with
  | true =>
    rw [jsonStateFunc_of_some fc s1 m1 h1 hs, jsonStateFunc_of_some fc s2 m2 h2 (hsup ▸ hs)]
    exact encodeValue_same fc _ _ hw1 hw2 hsame
  | false =>
    rw [jsonStateFunc_of_unsupported fc s1 m1 h1 hs,
      jsonStateFunc_of_unsupported fc s2 m2 h2 (hsup ▸ hs)]

theorem docOverflowSpaced_unmarshal :
    jsonUnmarshal float64Codec docOverflowSpaced
      = some [(lit "a", numberValue float64Codec (lit "1e999"))] := rfl

theorem docUnsorted_result :
    jsonStateFunc float64Codec (.str docUnsorted) = lit "\x7b\"a\":2,\"b\":1\x7d" := by
  decide!

/-- C8 (as stated, refuted): the texts `{"a":1e999}` and `{ "a" : 1e999 }`
decode to the same object, and `jsonStateFunc` returns the empty string for
both, because `Marshal` fails on the infinity: the key of the object is not
emitted, the output does not decode to the object again. -/
theorem jsonStateFunc_overflow_emits_no_key :
    jsonUnmarshal float64Codec docOverflow
      = some [(lit "a", numberValue float64Codec (lit "1e999"))] ∧
    jsonUnmarshal float64Codec docOverflowSpaced
      = some [(lit "a", numberValue float64Codec (lit "1e999"))] ∧
    jsonStateFunc float64Codec (.str docOverflow) = [] ∧
    jsonStateFunc float64Codec (.str docOverflowSpaced) = [] ∧
    parseDocument float64Codec (jsonStateFunc float64Codec (.str docOverflow)) = none :=
  ⟨docOverflow_unmarshal, docOverflowSpaced_unmarshal, jsonStateFunc_docOverflow,
    jsonStateFunc_of_unsupported float64Codec docOverflowSpaced _ docOverflowSpaced_unmarshal
      docOverflow_unsupported,
    by rw [jsonStateFunc_docOverflow]; rfl⟩

/-- C8 (amended): two strings that decode to the same object up to the order
of members (and so also two that differ only in white space between tokens)
are normalised to the same bytes, without white space outside string
literals. When no number of the object is beyond the range of `float64`, the
output is the text of that object with the keys of every object in strictly
ascending order: decoding it gives the object in canonical form. Otherwise
`Marshal` fails and both outputs are the empty string. The documents
`{"b":1,"a":2}` and `{"a": 2, "b": 1}` are both normalised to
`{"a":2,"b":1}`. -/
theorem jsonStateFunc_order_insensitive (s1 s2 : GoString)
    (m1 m2 : List (GoString × JVal Float64))
    (h1 : jsonUnmarshal float64Codec s1 = some m1)
    (h2 : jsonUnmarshal float64Codec s2 = some m2)
    (hsame : sameValue (.obj m1) (.obj m2)) :
    jsonStateFunc float64Codec (.str s1) = jsonStateFunc float64Codec (.str s2) ∧
    noSpaceOutsideStrings .outside (jsonStateFunc float64Codec (.str s1)) = true ∧
    (supported float64Codec (.obj m1) = true →
      parseDocument float64Codec (jsonStateFunc float64Codec (.str s1))
        = some (canonical (.obj m1)) ∧
      keysAscending (canonical (.obj m1)) ∧
      jsonStateFunc float64Codec (.str s1) = encodeValue float64Codec (canonical (.obj m1))) ∧
    (supported float64Codec (.obj m1) = false →
      jsonStateFunc float64Codec (.str s1) = [] ∧
      jsonStateFunc float64Codec (.str s2) = []) ∧
    jsonStateFunc float64Codec (.str docUnsorted) = lit "\x7b\"a\":2,\"b\":1\x7d" ∧
    jsonStateFunc float64Codec (.str docSpaced) = lit "\x7b\"a\":2,\"b\":1\x7d" := by
  have H1 : ∀ f, float64Codec.finite f = true →
      scanNumber (float64Codec.format f) = some (float64Codec.format f, []) :=
    fun f hf => (floatEncode_roundtrip f hf).1
  have H2 : ∀ f, float64Codec.finite f = true →
      float64Codec.parse (float64Codec.format f) = f :=
    fun f hf => (floatEncode_roundtrip f hf).2
  have hinv := parseDocument_inv float64Codec s1 _ ((jsonUnmarshal_eq float64Codec s1 m1).1 h1)
  have hwf := hinv.1
  have hw2 := jsonUnmarshal_wf float64Codec s2 m2 h2
  have heq := jsonStateFunc_same float64Codec s1 s2 m1 m2 h1 h2 hsame
  refine ⟨heq, ?_, ?_, ?_, docUnsorted_result, ?_⟩
  · cases hs : supported float64Codec (.obj m1) with
    | true =>
      rw [jsonStateFunc_of_some float64Codec s1 m1 h1 hs]
      have := noSpace_encodeValue float64Codec H1 (.obj m1) hwf hs []
      rw [List.append_nil] at this
      rw [this]
      rfl
    | false =>
      rw [jsonStateFunc_of_unsupported float64Codec s1 m1 h1 hs]
      rfl
  · intro hs
    rw [jsonStateFunc_of_some float64Codec s1 m1 h1 hs]
    exact ⟨parseDocument_encodeValue float64Codec H1 H2 _ hwf hs hinv.2,
      canonical_keysAscending _ hwf, (encodeValue_canonical float64Codec _).symm⟩
  · intro hs
    have := jsonStateFunc_of_unsupported float64Codec s1 m1 h1 hs
    exact ⟨this, by rw [← heq]; exact this⟩
  · rw [← jsonStateFunc_same float64Codec _ _ _ _ (docUnsorted_unmarshal float64Codec)
      (docSpaced_unmarshal float64Codec) (docs_same float64Codec)]
    exact docUnsorted_result

theorem jsonStateFunc_order_insensitive_witness :
    jsonStateFunc float64Codec (.str docUnsorted)
      = jsonStateFunc float64Codec (.str docSpaced) ∧
    noSpaceOutsideStrings .outside (jsonStateFunc float64Codec (.str docUnsorted)) = true :=
  ⟨(jsonStateFunc_order_insensitive docUnsorted docSpaced _ _
      (docUnsorted_unmarshal float64Codec) (docSpaced_unmarshal float64Codec)
      (docs_same float64Codec)).1,
    (jsonStateFunc_order_insensitive docUnsorted docSpaced _ _
      (docUnsorted_unmarshal float64Codec) (docSpaced_unmarshal float64Codec)
      (docs_same float64Codec)).2.1⟩

end Chef

namespace Chef

/-! ## The recursion bounds are never reached -/

theorem ite_snd_pos (c : Prop) [Decidable c] (a b : Nat × Nat) (ha : 1 ≤ a.2) (hb : 1 ≤ b.2) :
    1 ≤ (if c then a else b).2 := by
  split <;> assumption

/-- Decoding a rune from a non-empty text consumes at least one byte. -/
theorem decodeRune_size_pos (c : Nat) (rest : GoString) : 1 ≤ (decodeRune (c :: rest)).2 := by
  rw [decodeRune]
  apply ite_snd_pos _ _ _ (Nat.le_refl 1)
  apply ite_snd_pos _ _ _ (Nat.le_refl 1)
  cases rest with
  | nil => exact Nat.le_refl 1
  | cons b1 t1 =>
    simp only
    apply ite_snd_pos _ _ _ (Nat.le_refl 1)
    apply ite_snd_pos _ _ _ (Nat.le_succ 1)
    cases t1 with
    | nil => exact Nat.le_refl 1
    | cons b2 t2 =>
      simp only
      apply ite_snd_pos _ _ _ (Nat.le_refl 1)
      apply ite_snd_pos _ _ _ (Nat.le_add_left 1 2)
      cases t2 with
      | nil => exact Nat.le_refl 1
      | cons b3 t3 =>
        simp only
        apply ite_snd_pos _ _ _ (Nat.le_refl 1)
        exact Nat.le_add_left 1 3

/-- More fuel than the length of the text does not change what
`unquoteLoop` returns. -/
theorem unquoteLoop_fuel (f : Nat) : ∀ g body, body.length < f → body.length < g →
    unquoteLoop f body = unquoteLoop g body := by
  induction f with
  | zero => intro g body h; omega
  | succ f ih =>
    intro g body hf hg
    obtain ⟨g, rfl⟩ : ∃ g2, g = g2 + 1 := ⟨g - 1, by omega⟩
    cases body with
    | nil => rfl
    | cons c rest =>
      simp only [List.length_cons] at hf hg
      have hX : ∀ X : GoString, X.length ≤ rest.length →
          unquoteLoop f X = unquoteLoop g X :=
        fun X hX => ih g X (by omega) (by omega)
      rw [unquoteLoop_cons, unquoteLoop_cons]
      cases rest with
      | nil =>
        have h0 := hX [] (Nat.le_refl _)
        have h1 : unquoteLoop f (List.drop (decodeRune [c]).2 [c])
            = unquoteLoop g (List.drop (decodeRune [c]).2 [c]) := by
          apply hX
          have := decodeRune_size_pos c []
          simp only [List.length_drop, List.length_cons, List.length_nil]
          omega
        simp only [h0, h1]
      | cons e rest1 =>
        have h1 := hX rest1 (by simp)
        have h2 := hX (rest1.drop 4) (by simp; omega)
        have h3 := hX ((rest1.drop 4).drop 6) (by simp; omega)
        have h4 := hX (e :: rest1) (Nat.le_refl _)
        have h5 : unquoteLoop f (List.drop (decodeRune (c :: e :: rest1)).2 (c :: e :: rest1))
            = unquoteLoop g
              (List.drop (decodeRune (c :: e :: rest1)).2 (c :: e :: rest1)) := by
          apply hX
          have := decodeRune_size_pos c (e :: rest1)
          simp only [List.length_drop, List.length_cons]
          omega
        simp only [h1, h2, h3, h4, h5]

/-- More fuel than the length of the string does not change what
`appendStringLoop` writes. -/
theorem appendStringLoop_fuel (f : Nat) : ∀ g s, s.length ≤ f → s.length ≤ g →
    appendStringLoop f s = appendStringLoop g s := by
  induction f with
  | zero =>
    intro g s hf _
    have : s = [] := List.eq_nil_of_length_eq_zero (by omega)
    subst this
    rw [appendStringLoop_nil, appendStringLoop_nil]
  | succ f ih =>
    intro g s hf hg
    cases s with
    | nil => rw [appendStringLoop_nil, appendStringLoop_nil]
    | cons b rest =>
      simp only [List.length_cons] at hf hg
      obtain ⟨g, rfl⟩ : ∃ g2, g = g2 + 1 := ⟨g - 1, by omega⟩
      have hX : ∀ X : GoString, X.length ≤ rest.length →
          appendStringLoop f X = appendStringLoop g X :=
        fun X hX => ih g X (by omega) (by omega)
      have h1 := hX rest (Nat.le_refl _)
      have h2 : appendStringLoop f (List.drop (decodeRune (b :: rest)).2 (b :: rest))
          = appendStringLoop g (List.drop (decodeRune (b :: rest)).2 (b :: rest)) := by
        apply hX
        have := decodeRune_size_pos b rest
        simp only [List.length_drop, List.length_cons]
        omega
      rw [appendStringLoop_cons, appendStringLoop_cons, h1, h2]

end Chef

namespace Chef

/-! ## Every scanner consumes input -/

theorem skipSpace_length (inp : GoString) : (skipSpace inp).length ≤ inp.length := by
  induction inp with
  | nil => exact Nat.le_refl _
  | cons c rest ih =>
    rw [skipSpace]
    split
    · exact Nat.le_succ_of_le ih
    · exact Nat.le_refl _

theorem skipSpace_cons_length (inp rest : GoString) (c : Nat) (h : skipSpace inp = c :: rest) :
    rest.length < inp.length := by
  have := skipSpace_length inp
  rw [h] at this
  simpa using this

theorem map_snd_length {α β : Type} (o : Option (α × GoString)) (f : α × GoString → β)
    (n : Nat) (h : ∀ p, o = some p → p.2.length < n) (b : β) (r : GoString)
    (hm : o.map (fun p => (f p, p.2)) = some (b, r)) : r.length < n := by
  cases o with
  | none => cases hm
  | some p =>
    simp only [Option.map_some', Option.some.injEq, Prod.mk.injEq] at hm
    rw [← hm.2]
    exact h p rfl

/-- The input after a string literal is shorter than the input at its start. -/
theorem scanString_length : ∀ (n : Nat) (inp body rest : GoString), inp.length ≤ n →
    scanString inp = some (body, rest) → rest.length < inp.length := by
  intro n
  induction n with
  | zero =>
    intro inp body rest hn h
    have : inp = [] := List.eq_nil_of_length_eq_zero (by omega)
    subst this
    rw [scanString] at h
    cases h
  | succ n ih =>
    intro inp body rest hn h
    cases inp with
    | nil => rw [scanString] at h; cases h
    | cons c t =>
      rw [scanString_cons] at h
      simp only [List.length_cons] at hn ⊢
      by_cases h1 : c = 0x22
      · rw [if_pos h1] at h
        simp only [Option.some.injEq, Prod.mk.injEq] at h
        rw [← h.2]
        exact Nat.lt_succ_self _
      · rw [if_neg h1] at h
        by_cases h2 : c = 0x5C
        · rw [if_pos h2] at h
          cases t with
          | nil => cases h
          | cons e t1 =>
            simp only [List.length_cons] at hn ⊢
            simp only at h
            split at h
            · have := map_snd_length (scanString t1) (fun p => c :: e :: p.1) t1.length
                (fun p hp => ih t1 p.1 p.2 (by omega) hp) body rest h
              omega
            · split at h
              · split at h
                · rename_i h1 h2 h3 h4 rest2
                  split at h
                  · have := map_snd_length (scanString rest2)
                      (fun p => c :: e :: h1 :: h2 :: h3 :: h4 :: p.1) rest2.length
                      (fun p hp => ih rest2 p.1 p.2 (by simp only [List.length_cons] at hn; omega)
                        hp) body rest h
                    simp only [List.length_cons]
                    omega
                  · cases h
                · cases h
              · cases h
        · rw [if_neg h2] at h
          split at h
          · cases h
          · have := map_snd_length (scanString t) (fun p => c :: p.1) t.length
              (fun p hp => ih t p.1 p.2 (by omega) hp) body rest h
            omega

theorem spanDigits_length (l : GoString) : (spanDigits l).2.length ≤ l.length := by
  induction l with
  | nil => exact Nat.le_refl _
  | cons c rest ih =>
    rw [spanDigits]
    split
    · exact Nat.le_succ_of_le ih
    · exact Nat.le_refl _

theorem scanExp_length (acc inp l r : GoString) (h : scanExp acc inp = some (l, r)) :
    r.length ≤ inp.length := by
  unfold scanExp at h
  cases inp with
  | nil =>
    simp only [Option.some.injEq, Prod.mk.injEq] at h
    rw [← h.2]
  | cons e r1 =>
    simp only at h
    split at h
    · cases r1 with
      | nil => cases h
      | cons s r2 =>
        simp only at h
        split at h
        · split at h
          · cases h
          · simp only [Option.some.injEq, Prod.mk.injEq] at h
            rw [← h.2]
            have := spanDigits_length r2
            simp only [List.length_cons]
            omega
        · split at h
          · cases h
          · simp only [Option.some.injEq, Prod.mk.injEq] at h
            rw [← h.2]
            have := spanDigits_length (s :: r2)
            simp only [List.length_cons] at this ⊢
            omega
    · simp only [Option.some.injEq, Prod.mk.injEq] at h
      rw [← h.2]

theorem scanFrac_length (acc inp l r : GoString) (h : scanFrac acc inp = some (l, r)) :
    r.length ≤ inp.length := by
  unfold scanFrac at h
  cases inp with
  | nil =>
    simp only [Option.some.injEq, Prod.mk.injEq] at h
    rw [← h.2]
  | cons d r1 =>
    simp only at h
    split at h
    · split at h
      · cases h
      · have h1 := scanExp_length _ _ _ _ h
        have h2 := spanDigits_length r1
        simp only [List.length_cons]
        omega
    · exact scanExp_length _ _ _ _ h

theorem scanInt_length (acc inp l r : GoString) (h : scanInt acc inp = some (l, r)) :
    r.length < inp.length := by
  unfold scanInt at h
  cases inp with
  | nil => cases h
  | cons d r1 =>
    simp only at h
    simp only [List.length_cons]
    split at h
    · have := scanFrac_length _ _ _ _ h
      omega
    · split at h
      · have h1 := scanFrac_length _ _ _ _ h
        have h2 := spanDigits_length r1
        omega
      · cases h

/-- The input after a number literal is shorter than the input at its start. -/
theorem scanNumber_length (inp l r : GoString) (h : scanNumber inp = some (l, r)) :
    r.length < inp.length := by
  unfold scanNumber at h
  cases inp with
  | nil => cases h
  | cons c t =>
    simp only at h
    split at h
    · have := scanInt_length _ _ _ _ h
      simp only [List.length_cons]
      omega
    · exact scanInt_length _ _ _ _ h

end Chef

namespace Chef

/-! ## The decoder consumes input, and its recursion bound is never reached -/

theorem parseElems_length {F : Type} (pv : GoString → Option (JVal F × GoString)) (k : Nat) :
    ∀ (inp : GoString) (vs : List (JVal F)) (r : GoString), Shrinks pv inp.length →
      parseElems pv k inp = some (vs, r) → r.length < inp.length := by
  induction k with
  | zero => intro inp vs r _ h; cases h
  | succ k ih =>
    intro inp vs r hs h
    rw [parseElems_succ] at h
    cases hp : pv inp with
    | none => rw [hp] at h; cases h
    | some p =>
      obtain ⟨v, rest⟩ := p
      rw [hp] at h
      simp only at h
      have h1 := hs inp v rest (Nat.le_refl _) hp
      cases hk : skipSpace rest with
      | nil => rw [hk] at h; cases h
      | cons c rest1 =>
        rw [hk] at h
        simp only at h
        have h2 := skipSpace_cons_length rest rest1 c hk
        split at h
        · cases hq : parseElems pv k rest1 with
          | none => rw [hq] at h; cases h
          | some q =>
            rw [hq] at h
            simp only [Option.map_some', Option.some.injEq, Prod.mk.injEq] at h
            have h3 := ih rest1 q.1 q.2
              (fun i v r hi => hs i v r (by omega)) hq
            rw [← h.2]
            omega
        · split at h
          · simp only [Option.some.injEq, Prod.mk.injEq] at h
            rw [← h.2]
            omega
          · cases h

theorem parseMembers_length {F : Type} (pv : GoString → Option (JVal F × GoString)) (k : Nat) :
    ∀ (inp : GoString) (ms : List (GoString × JVal F)) (r : GoString), Shrinks pv inp.length →
      parseMembers pv k inp = some (ms, r) → r.length < inp.length := by
  induction k with
  | zero => intro inp ms r _ h; cases h
  | succ k ih =>
    intro inp ms r hs h
    rw [parseMembers_succ] at h
    cases hk0 : skipSpace inp with
    | nil => rw [hk0] at h; cases h
    | cons q rest =>
      rw [hk0] at h
      simp only at h
      have h0 := skipSpace_cons_length inp rest q hk0
      split at h
      · cases hsc : scanString rest with
        | none => rw [hsc] at h; cases h
        | some p =>
          obtain ⟨body, rest1⟩ := p
          rw [hsc] at h
          simp only at h
          have h1 := scanString_length rest.length rest body rest1 (Nat.le_refl _) hsc
          cases hu : unquote body with
          | none => rw [hu] at h; cases h
          | some key =>
            rw [hu] at h
            simp only at h
            cases hk1 : skipSpace rest1 with
            | nil => rw [hk1] at h; cases h
            | cons colon rest2 =>
              rw [hk1] at h
              simp only at h
              have h2 := skipSpace_cons_length rest1 rest2 colon hk1
              split at h
              · cases hp : pv rest2 with
                | none => rw [hp] at h; cases h
                | some p =>
                  obtain ⟨v, rest3⟩ := p
                  rw [hp] at h
                  simp only at h
                  have h3 := hs rest2 v rest3 (by omega) hp
                  cases hk3 : skipSpace rest3 with
                  | nil => rw [hk3] at h; cases h
                  | cons c rest4 =>
                    rw [hk3] at h
                    simp only at h
                    have h4 := skipSpace_cons_length rest3 rest4 c hk3
                    split at h
                    · cases hq : parseMembers pv k rest4 with
                      | none => rw [hq] at h; cases h
                      | some q =>
                        rw [hq] at h
                        simp only [Option.map_some', Option.some.injEq, Prod.mk.injEq] at h
                        have h5 := ih rest4 q.1 q.2
                          (fun i v r hi => hs i v r (by omega)) hq
                        rw [← h.2]
                        omega
                    · split at h
                      · simp only [Option.some.injEq, Prod.mk.injEq] at h
                        rw [← h.2]
                        omega
                      · cases h
              · cases h
      · cases h

/-- The input after a decoded value is shorter than the input at its start. -/
theorem parseValue_length {F : Type} (fc : FloatCodec F) (n : Nat) :
    ∀ (depth : Nat) (inp : GoString) (v : JVal F) (r : GoString),
      parseValue fc n depth inp = some (v, r) → r.length < inp.length := by
  induction n with
  | zero => intro depth inp v r h; cases h
  | succ n ih =>
    intro depth inp v r h
    rw [parseValue_succ] at h
    cases hk : skipSpace inp with
    | nil => rw [hk] at h; cases h
    | cons c rest =>
      rw [hk] at h
      simp only at h
      have h0 := skipSpace_cons_length inp rest c hk
      have hsh : ∀ m, Shrinks (parseValue fc n (depth + 1)) m :=
        fun m i v r _ hi => ih (depth + 1) i v r hi
      split at h
      · split at h
        · cases h
        · cases hk1 : skipSpace rest with
          | nil => rw [hk1] at h; cases h
          | cons d rest1 =>
            rw [hk1] at h
            simp only at h
            have h1 := skipSpace_cons_length rest rest1 d hk1
            split at h
            · simp only [Option.some.injEq, Prod.mk.injEq] at h
              rw [← h.2]
              omega
            · cases hq : parseMembers (parseValue fc n (depth + 1)) rest.length rest with
              | none => rw [hq] at h; cases h
              | some q =>
                rw [hq] at h
                simp only [Option.map_some', Option.some.injEq, Prod.mk.injEq] at h
                have h2 := parseMembers_length _ _ rest q.1 q.2 (hsh _) hq
                rw [← h.2]
                omega
      · split at h
        · split at h
          · cases h
          · cases hk1 : skipSpace rest with
            | nil => rw [hk1] at h; cases h
            | cons d rest1 =>
              rw [hk1] at h
              simp only at h
              have h1 := skipSpace_cons_length rest rest1 d hk1
              split at h
              · simp only [Option.some.injEq, Prod.mk.injEq] at h
                rw [← h.2]
                omega
              · cases hq : parseElems (parseValue fc n (depth + 1)) rest.length rest with
                | none => rw [hq] at h; cases h
                | some q =>
                  rw [hq] at h
                  simp only [Option.map_some', Option.some.injEq, Prod.mk.injEq] at h
                  have h2 := parseElems_length _ _ rest q.1 q.2 (hsh _) hq
                  rw [← h.2]
                  omega
        · split at h
          · cases hsc : scanString rest with
            | none => rw [hsc] at h; cases h
            | some p =>
              obtain ⟨body, rest1⟩ := p
              rw [hsc] at h
              simp only at h
              have h1 := scanString_length rest.length rest body rest1 (Nat.le_refl _) hsc
              cases hu : unquote body with
              | none => rw [hu] at h; cases h
              | some s =>
                rw [hu] at h
                simp only [Option.map_some', Option.some.injEq, Prod.mk.injEq] at h
                rw [← h.2]
                omega
          · split at h
            · split at h
              · simp only [Option.some.injEq, Prod.mk.injEq] at h
                rw [← h.2]
                simp only [List.length_cons] at h0 ⊢
                omega
              · cases h
            · split at h
              · split at h
                · simp only [Option.some.injEq, Prod.mk.injEq] at h
                  rw [← h.2]
                  simp only [List.length_cons] at h0 ⊢
                  omega
                · cases h
              · split at h
                · split at h
                  · simp only [Option.some.injEq, Prod.mk.injEq] at h
                    rw [← h.2]
                    simp only [List.length_cons] at h0 ⊢
                    omega
                  · cases h
                · split at h
                  · cases hq : scanNumber (c :: rest) with
                    | none => rw [hq] at h; cases h
                    | some q =>
                      rw [hq] at h
                      simp only [Option.map_some', Option.some.injEq, Prod.mk.injEq] at h
                      have h2 := scanNumber_length (c :: rest) q.1 q.2 hq
                      rw [← h.2]
                      simp only [List.length_cons] at h2
                      omega
                  · cases h

/-- The element loop gives the same result for two decoders of one value that
agree on the texts no longer than its input. -/
theorem parseElems_congr {F : Type} (pv1 pv2 : GoString → Option (JVal F × GoString))
    (k : Nat) : ∀ (inp : GoString), Shrinks pv1 inp.length →
      (∀ i : GoString, i.length ≤ inp.length → pv1 i = pv2 i) →
      parseElems pv1 k inp = parseElems pv2 k inp := by
  induction k with
  | zero => intro inp _ _; rfl
  | succ k ih =>
    intro inp hs he
    rw [parseElems_succ, parseElems_succ, ← he inp (Nat.le_refl _)]
    cases hp : pv1 inp with
    | none => rfl
    | some p =>
      obtain ⟨v, rest⟩ := p
      simp only
      have h1 := hs inp v rest (Nat.le_refl _) hp
      cases hk : skipSpace rest with
      | nil => rfl
      | cons c rest1 =>
        simp only
        have h2 := skipSpace_cons_length rest rest1 c hk
        rw [ih rest1 (fun i v r hi => hs i v r (by omega)) (fun i hi => he i (by omega))]

theorem parseMembers_congr {F : Type} (pv1 pv2 : GoString → Option (JVal F × GoString))
    (k : Nat) : ∀ (inp : GoString), Shrinks pv1 inp.length →
      (∀ i : GoString, i.length ≤ inp.length → pv1 i = pv2 i) →
      parseMembers pv1 k inp = parseMembers pv2 k inp := by
  induction k with
  | zero => intro inp _ _; rfl
  | succ k ih =>
    intro inp hs he
    rw [parseMembers_succ, parseMembers_succ]
    cases hk0 : skipSpace inp with
    | nil => rfl
    | cons q rest =>
      simp only
      have h0 := skipSpace_cons_length inp rest q hk0
      by_cases hq : q = 0x22
      · rw [if_pos hq, if_pos hq]
        cases hsc : scanString rest with
        | none => rfl
        | some p =>
          obtain ⟨body, rest1⟩ := p
          simp only
          have h1 := scanString_length rest.length rest body rest1 (Nat.le_refl _) hsc
          cases hu : unquote body with
          | none => rfl
          | some key =>
            simp only
            cases hk1 : skipSpace rest1 with
            | nil => rfl
            | cons colon rest2 =>
              simp only
              have h2 := skipSpace_cons_length rest1 rest2 colon hk1
              by_cases hc : colon = 0x3A
              · rw [if_pos hc, if_pos hc, ← he rest2 (by omega)]
                cases hp : pv1 rest2 with
                | none => rfl
                | some p =>
                  obtain ⟨v, rest3⟩ := p
                  simp only
                  have h3 := hs rest2 v rest3 (by omega) hp
                  cases hk3 : skipSpace rest3 with
                  | nil => rfl
                  | cons c rest4 =>
                    simp only
                    have h4 := skipSpace_cons_length rest3 rest4 c hk3
                    rw [ih rest4 (fun i v r hi => hs i v r (by omega))
                      (fun i hi => he i (by omega))]
              · rw [if_neg hc, if_neg hc]
      · rw [if_neg hq, if_neg hq]

/-- The bound of the element loop is not reached: any bound of at least
the length of the input gives the same result. -/
theorem parseElems_fuel {F : Type} (pv : GoString → Option (JVal F × GoString)) (k : Nat) :
    ∀ (j : Nat) (inp : GoString), Shrinks pv inp.length → inp.length ≤ k → inp.length ≤ j →
      parseElems pv k inp = parseElems pv j inp := by
  induction k with
  | zero =>
    intro j inp hs hk _
    have : inp = [] := List.eq_nil_of_length_eq_zero (by omega)
    subst this
    cases j with
    | zero => rfl
    | succ j =>
      rw [parseElems_succ]
      cases hp : pv [] with
      | none => rfl
      | some p =>
        have := hs [] p.1 p.2 (Nat.le_refl _) hp
        simp at this
  | succ k ih =>
    intro j inp hs hk hj
    cases j with
    | zero =>
      have : inp = [] := List.eq_nil_of_length_eq_zero (by omega)
      subst this
      rw [parseElems_succ]
      cases hp : pv [] with
      | none => rfl
      | some p =>
        have := hs [] p.1 p.2 (Nat.le_refl _) hp
        simp at this
    | succ j =>
      rw [parseElems_succ, parseElems_succ]
      cases hp : pv inp with
      | none => rfl
      | some p =>
        obtain ⟨v, rest⟩ := p
        simp only
        have h1 := hs inp v rest (Nat.le_refl _) hp
        cases hk1 : skipSpace rest with
        | nil => rfl
        | cons c rest1 =>
          simp only
          have h2 := skipSpace_cons_length rest rest1 c hk1
          rw [ih j rest1 (fun i v r hi => hs i v r (by omega)) (by omega) (by omega)]

theorem parseMembers_fuel {F : Type} (pv : GoString → Option (JVal F × GoString)) (k : Nat) :
    ∀ (j : Nat) (inp : GoString), Shrinks pv inp.length → inp.length ≤ k → inp.length ≤ j →
      parseMembers pv k inp = parseMembers pv j inp := by
  induction k with
  | zero =>
    intro j inp hs hk _
    have : inp = [] := List.eq_nil_of_length_eq_zero (by omega)
    subst this
    cases j with
    | zero => rfl
    | succ j => rfl
  | succ k ih =>
    intro j inp hs hk hj
    cases j with
    | zero =>
      have : inp = [] := List.eq_nil_of_length_eq_zero (by omega)
      subst this
      rfl
    | succ j =>
      rw [parseMembers_succ, parseMembers_succ]
      cases hk0 : skipSpace inp with
      | nil => rfl
      | cons q rest =>
        simp only
        have h0 := skipSpace_cons_length inp rest q hk0
        by_cases hq : q = 0x22
        · rw [if_pos hq, if_pos hq]
          cases hsc : scanString rest with
          | none => rfl
          | some p =>
            obtain ⟨body, rest1⟩ := p
            simp only
            have h1 := scanString_length rest.length rest body rest1 (Nat.le_refl _) hsc
            cases hu : unquote body with
            | none => rfl
            | some key =>
              simp only
              cases hk1 : skipSpace rest1 with
              | nil => rfl
              | cons colon rest2 =>
                simp only
                have h2 := skipSpace_cons_length rest1 rest2 colon hk1
                by_cases hc : colon = 0x3A
                · rw [if_pos hc, if_pos hc]
                  cases hp : pv rest2 with
                  | none => rfl
                  | some p =>
                    obtain ⟨v, rest3⟩ := p
                    simp only
                    have h3 := hs rest2 v rest3 (by omega) hp
                    cases hk3 : skipSpace rest3 with
                    | nil => rfl
                    | cons c rest4 =>
                      simp only
                      have h4 := skipSpace_cons_length rest3 rest4 c hk3
                      rw [ih j rest4 (fun i v r hi => hs i v r (by omega)) (by omega) (by omega)]
                · rw [if_neg hc, if_neg hc]
        · rw [if_neg hq, if_neg hq]

/-- The recursion bound of the decoder is not reached: any bound above the
length of the input gives the same result. -/
theorem parseValue_fuel {F : Type} (fc : FloatCodec F) (n : Nat) :
    ∀ (m depth : Nat) (inp : GoString), inp.length < n → inp.length < m →
      parseValue fc n depth inp = parseValue fc m depth inp := by
  induction n with
  | zero => intro m depth inp h; omega
  | succ n ih =>
    intro m depth inp hn hm
    obtain ⟨m, rfl⟩ : ∃ m2, m = m2 + 1 := ⟨m - 1, by omega⟩
    rw [parseValue_succ, parseValue_succ]
    cases hk : skipSpace inp with
    | nil => rfl
    | cons c rest =>
      simp only
      have h0 := skipSpace_cons_length inp rest c hk
      have hsh : ∀ j, Shrinks (parseValue fc n (depth + 1)) j :=
        fun j i v r _ hi => parseValue_length fc n (depth + 1) i v r hi
      have he : ∀ i : GoString, i.length ≤ rest.length →
          parseValue fc n (depth + 1) i = parseValue fc m (depth + 1) i :=
        fun i hi => ih m (depth + 1) i (by omega) (by omega)
      rw [parseMembers_congr _ _ rest.length rest (hsh _) he,
        parseElems_congr _ _ rest.length rest (hsh _) he]

/-- The bound `parseDocument` passes is enough: a larger one decodes the same value. -/
theorem parseDocument_fuel {F : Type} (fc : FloatCodec F) (data : GoString) (n : Nat)
    (h : data.length < n) :
    parseValue fc n 0 data = parseValue fc (data.length + 1) 0 data :=
  parseValue_fuel fc n (data.length + 1) 0 data h (Nat.lt_succ_self _)

end Chef
